import Mathlib

/-!
# GiNaC: symbolic exponentiation (`power.cpp`) and term pairs (`expair.h`)

A shallow embedding of `power::eval`, `power::expand`, `power::expand_mul`,
`power::expand_add` and `power::expand_add_2`, together with the data they work
on.

Code of the repository that the sources do not contain is kept apart from the
embedded functions:

* the number class (`numeric.h`) is the type `numeric`: exact rationals are
  computed with, every other number of the tower is a value of a type `F`
  whose arithmetic comes from a `tower F`;
* the constructors and virtual functions of `add` and `mul`, the evaluation and
  the expansion of nodes other than `power` and the constant
  `max_recursion_level` are the fields of an `env F`.

Every theorem about the embedded functions holds for all `F`, all towers and
all environments.
-/

namespace GiNaC

/-! ## Numbers -/

/-- Modelled from the spec: the exact-number collaborator (class `numeric`, whose
header and implementation are not among the sources).  A number is an exact
rational, or some other member of the tower (floating point, complex). -/
inductive numeric (F : Type) where
  | rat (q : ℚ)
  | other (x : F)

/-- Modelled from the spec: what the number tower supplies for the numbers that
are not exact rationals (comparison, the predicates of the interface, and the
arithmetic in which at least one operand is not an exact rational). -/
structure tower (F : Type) where
  /-- comparison of a non-rational number with an exact rational: negative, zero or positive -/
  compare : F → ℚ → ℤ
  is_real : F → Bool
  is_negative : F → Bool
  is_positive : F → Bool
  /-- absolute value -/
  abs : F → numeric F
  /-- the comparison `a < b` when `a` or `b` is not an exact rational -/
  less : numeric F → numeric F → Bool
  add : numeric F → numeric F → numeric F
  sub : numeric F → numeric F → numeric F
  mul : numeric F → numeric F → numeric F
  div : numeric F → numeric F → numeric F
  /-- exponentiation when basis or exponent is not an exact rational -/
  power : numeric F → numeric F → numeric F
  /-- the value of a power of exact rationals that is not itself an exact rational -/
  irrational_power : ℚ → ℚ → F
  /-- a negative number is real -/
  negative_is_real : ∀ x, is_negative x = true → is_real x = true
  /-- a positive number is real -/
  positive_is_real : ∀ x, is_positive x = true → is_real x = true
  /-- a negative number is not positive -/
  negative_not_positive : ∀ x, is_negative x = true → is_positive x = false
  /-- a positive number is its own absolute value -/
  abs_of_positive : ∀ x, is_positive x = true → abs x = numeric.other x
  /-- multiplication by the exact number 1 changes nothing -/
  mul_one : ∀ x, mul (numeric.other x) (numeric.rat 1) = numeric.other x
  /-- the first power of a number is the number -/
  power_one : ∀ x, power (numeric.other x) (numeric.rat 1) = numeric.other x

namespace numeric

/-- Modelled from the spec: `numeric::is_rational`, true on exact rationals. -/
def is_rational {F : Type} : numeric F → Bool
  | rat _ => true
  | other _ => false

/-- Modelled from the spec: `numeric::is_integer`, true on exact rationals of denominator 1. -/
def is_integer {F : Type} : numeric F → Bool
  | rat q => decide (q.den = 1)
  | other _ => false

/-- Modelled from the spec: `numeric::is_real`. -/
def is_real {F : Type} (T : tower F) : numeric F → Bool
  | rat _ => true
  | other x => T.is_real x

/-- Modelled from the spec: `numeric::is_negative`, real and strictly below zero. -/
def is_negative {F : Type} (T : tower F) : numeric F → Bool
  | rat q => decide (q < 0)
  | other x => T.is_negative x

/-- Modelled from the spec: `numeric::is_positive`, real and strictly above zero. -/
def is_positive {F : Type} (T : tower F) : numeric F → Bool
  | rat q => decide (0 < q)
  | other x => T.is_positive x

/-- Modelled from the spec: `numeric::compare` against an exact rational. -/
def compare {F : Type} (T : tower F) : numeric F → ℚ → ℤ
  | rat p, q => if p < q then -1 else if p = q then 0 else 1
  | other x, q => T.compare x q

/-- Modelled from the spec: `numeric::is_equal` against an exact rational. -/
def is_equal {F : Type} (T : tower F) (v : numeric F) (q : ℚ) : Bool :=
  decide (compare T v q = 0)

/-- Modelled from the spec: `numeric::is_zero`. -/
def is_zero {F : Type} (T : tower F) (v : numeric F) : Bool :=
  is_equal T v 0

/-- Modelled from the spec: `numeric::numer`, the numerator of a rational, the number itself otherwise. -/
def numer {F : Type} : numeric F → numeric F
  | rat q => rat q.num
  | other x => other x

/-- Modelled from the spec: `numeric::denom`, the (positive) denominator of a rational, 1 otherwise. -/
def denom {F : Type} : numeric F → numeric F
  | rat q => rat q.den
  | other _ => rat 1

/-- Modelled from the spec: `iquo(a, b, r)`, the truncating integer quotient of two
integers together with its remainder (which has the sign of `a`), and `(0, 0)` on
other arguments. -/
def iquo {F : Type} : numeric F → numeric F → numeric F × numeric F
  | rat a, rat b =>
    if a.den = 1 ∧ b.den = 1 then (rat (Int.tdiv a.num b.num), rat (Int.tmod a.num b.num))
    else (rat 0, rat 0)
  | _, _ => (rat 0, rat 0)

/-- Modelled from the spec: `numeric::add`, exact on rationals. -/
def add {F : Type} (T : tower F) : numeric F → numeric F → numeric F
  | rat a, rat b => rat (a + b)
  | a, b => T.add a b

/-- Modelled from the spec: `numeric::sub`, exact on rationals. -/
def sub {F : Type} (T : tower F) : numeric F → numeric F → numeric F
  | rat a, rat b => rat (a - b)
  | a, b => T.sub a b

/-- Modelled from the spec: `numeric::mul`, exact on rationals. -/
def mul {F : Type} (T : tower F) : numeric F → numeric F → numeric F
  | rat a, rat b => rat (a * b)
  | a, b => T.mul a b

/-- Modelled from the spec: `numeric::div`, exact on rationals. -/
def div {F : Type} (T : tower F) : numeric F → numeric F → numeric F
  | rat a, rat b => rat (a / b)
  | a, b => T.div a b

/-- Modelled from the spec: `abs(numeric)`. -/
def abs {F : Type} (T : tower F) : numeric F → numeric F
  | rat a => rat |a|
  | other x => T.abs x

/-- Modelled from the spec: `operator<` on numbers. -/
def less {F : Type} (T : tower F) : numeric F → numeric F → Bool
  | rat a, rat b => decide (a < b)
  | a, b => T.less a b

/-- The natural number whose `m`-th power is `x`, when there is one. -/
def nat_root (m x : ℕ) : Option ℕ :=
  (List.range (x + 1)).find? (fun r => r ^ m == x)

/-- The exact `m`-th root of a non-negative rational, when it is rational. -/
def rat_root (b : ℚ) (m : ℕ) : Option ℚ :=
  if b < 0 then none
  else
    match nat_root m b.num.natAbs, nat_root m b.den with
    | some p, some q => some ((p : ℚ) / (q : ℚ))
    | _, _ => none

/-- Modelled from the spec: `numeric::power`, the exact power.  For exact rationals
the result is the exact rational `b^e` when there is one (integer exponent, or a
non-negative basis with an exact root) and a non-rational number of the tower
otherwise.  The power of 0 to a negative exponent does not exist; the embedding
gives 0 there, and no theorem below relies on it. -/
def power {F : Type} (T : tower F) : numeric F → numeric F → numeric F
  | rat b, rat e =>
    if e.den = 1 then rat (b ^ e.num)
    else
      match rat_root b e.den with
      | some r => rat (r ^ e.num)
      | none => other (T.irrational_power b e)
  | b, e => T.power b e

end numeric

/-- The constant `numZERO()`. -/
def numZERO {F : Type} : numeric F := numeric.rat 0

/-- The constant `numONE()`. -/
def numONE {F : Type} : numeric F := numeric.rat 1

/-- The constant `numTWO()`. -/
def numTWO {F : Type} : numeric F := numeric.rat 2

/-- The constant `numMINUSONE()`. -/
def numMINUSONE {F : Type} : numeric F := numeric.rat (-1)

/-! ## Expressions -/

/-- The class `expair` of `expair.h`: a pair of expressions `rest` and `coeff`. -/
structure expair (E : Type) where
  rest : E
  coeff : E

/-- The expression tree handled by `ex`: numbers, symbols (identified by their
serial number), powers, sums and products.  Sums and products are `expairseq`
objects: a sequence of pairs and an overall coefficient.  Of the status flags
only `evaluated` is kept.  `power.cpp` tells apart numbers, powers, sums and
products only; a node of any other class is treated there as a symbol is. -/
inductive ex (F : Type) where
  | numeric (v : numeric F)
  | symbol (serial : ℕ)
  | power (basis exponent : ex F) (evaluated : Bool)
  | add (seq : List (expair (ex F))) (overall_coeff : ex F) (evaluated : Bool)
  | mul (seq : List (expair (ex F))) (overall_coeff : ex F) (evaluated : Bool)

/-- The vector type `epvector`. -/
abbrev epvector (F : Type) := List (expair (ex F))

/-- The vector type `exvector`. -/
abbrev exvector (F : Type) := List (ex F)

/-- The constant `exZERO()`. -/
def exZERO {F : Type} : ex F := ex.numeric numZERO

/-- The constant `exONE()`. -/
def exONE {F : Type} : ex F := ex.numeric numONE

/-- The constant `exTWO()`. -/
def exTWO {F : Type} : ex F := ex.numeric numTWO

/-- The constant `exMINUSONE()`. -/
def exMINUSONE {F : Type} : ex F := ex.numeric numMINUSONE

/-- The default constructor `expair() : rest(0), coeff(1)` of `expair.h`. -/
def expair.default {F : Type} : expair (ex F) := ⟨ex.numeric (numeric.rat 0), ex.numeric (numeric.rat 1)⟩

/-- The two conditions under which an evaluation fails: the `runtime_error`
"max recursion level reached" and the `overflow_error` "division by zero". -/
inductive error where
  | max_recursion_level_reached
  | division_by_zero
deriving DecidableEq

/-- The data members of class `expairseq` (`expairseq.h`): the sequence `seq` and
the `overall_coeff`. -/
structure expairseq (F : Type) where
  seq : epvector F
  overall_coeff : ex F

/-- The product object holding the members `s`, with its `evaluated` flag. -/
def expairseq.to_mul {F : Type} (s : expairseq F) (evaluated : Bool) : ex F :=
  ex.mul s.seq s.overall_coeff evaluated

/-- The sum object holding the members `s`, with its `evaluated` flag. -/
def expairseq.to_add {F : Type} (s : expairseq F) (evaluated : Bool) : ex F :=
  ex.add s.seq s.overall_coeff evaluated

/-- Code of the repository that `power.cpp` calls and the sources do not
contain: the constructors of `mul` and `add` (each yields the members of the
object it builds), the virtual functions of `expairseq` that they override, the
evaluation and the expansion of nodes that are not powers, and the constant
`max_recursion_level`. -/
structure env (F : Type) where
  max_recursion_level : ℤ
  /-- evaluation `e.eval(level)` of a node that is not a power -/
  eval_other : ex F → ℤ → Except error (ex F)
  /-- the constructor `mul(lh, rh)` -/
  mul_ex_ex : ex F → ex F → expairseq F
  /-- the constructor `mul(exvector)` -/
  mul_exvector : exvector F → expairseq F
  /-- the constructor `mul(epvector)` -/
  mul_epvector : epvector F → expairseq F
  /-- the constructor `mul(epvector, overall_coeff)` -/
  mul_epvector_coeff : epvector F → ex F → expairseq F
  /-- the constructor `add(exvector)` -/
  add_exvector : exvector F → expairseq F
  /-- the constructor `add(epvector)` -/
  add_epvector : epvector F → expairseq F
  /-- the member `mul::combine_pair_with_coeff_to_pair` -/
  mul_combine_pair_with_coeff_to_pair : expair (ex F) → ex F → expair (ex F)
  /-- the member `add::combine_ex_with_coeff_to_pair` -/
  add_combine_ex_with_coeff_to_pair : ex F → ex F → expair (ex F)
  /-- the member `add::combine_pair_with_coeff_to_pair` -/
  add_combine_pair_with_coeff_to_pair : expair (ex F) → ex F → expair (ex F)
  /-- the member `op(i)` of a sum, its `i`-th operand -/
  add_op : expairseq F → ℕ → ex F
  /-- expansion `e.expand(options)` of a node that is not a power, together with
  the answer of `are_ex_trivially_equal` for the node and its expansion -/
  expand_other : ex F → ex F × Bool

namespace ex

/-- The test `is_ex_exactly_of_type(e, numeric)`. -/
def is_numeric {F : Type} : ex F → Bool
  | numeric _ => true
  | _ => false

/-- The cast `ex_to_numeric`.  It is undefined on a node that is not a number;
the embedding gives 0 there. -/
def to_numeric {F : Type} : ex F → GiNaC.numeric F
  | numeric v => v
  | _ => numeric.rat 0

/-- Modelled from the spec: `ex::is_zero`, equality with the number 0. -/
def is_zero {F : Type} (T : tower F) : ex F → Bool
  | numeric v => v.is_zero T
  | _ => false

/-- Modelled from the spec: `e.is_equal(exONE())`, equality with the number 1. -/
def is_equal_exONE {F : Type} (T : tower F) : ex F → Bool
  | numeric v => v.is_equal T 1
  | _ => false

end ex

/-! ## `power.cpp` -/

namespace power

/-- The loop of `power::expand_mul` (lines 651-661) that fills `distrseq`: a pair
with a numeric `rest` goes through `mul::combine_pair_with_coeff_to_pair`, every
other pair keeps its `rest` and has its `coeff` multiplied by `n`. -/
def expand_mul_distrseq {F : Type} (T : tower F) (E : env F) (n : numeric F) : epvector F → epvector F
  | [] => []
  | p :: tail =>
    (if p.rest.is_numeric then E.mul_combine_pair_with_coeff_to_pair p (ex.numeric n)
     else ⟨p.rest, ex.numeric (p.coeff.to_numeric.mul T n)⟩) :: expand_mul_distrseq T E n tail

/-- The function `power::expand_mul(m, n)`, on the sequence and the overall
coefficient of the product `m`. -/
def expand_mul {F : Type} (T : tower F) (E : env F) (seq : epvector F) (overall_coeff : ex F)
    (n : numeric F) : ex F :=
  if n.is_equal T 0 then exONE
  else (E.mul_epvector_coeff (expand_mul_distrseq T E n seq)
    (ex.numeric (overall_coeff.to_numeric.power T n))).to_mul false

/-- Lines 275-334 of `power::eval`: the rules for a basis that is a power or a
product, and the closing construction of the evaluated node.  At the end the
source returns `this->hold()` when `ebasis` and `eexponent` are the very objects
`basis` and `exponent`, and a new evaluated `power(ebasis, eexponent)` otherwise;
as values both are the node below. -/
def eval_symbolic {F : Type} (T : tower F) (E : env F) (exponent ebasis eexponent : ex F) : ex F :=
  match eexponent, ebasis with
  | ex.numeric num_exponent, ex.power sub_basis sub_exponent _ =>
    -- ^(^(x,c1),c2) -> ^(x,c1*c2)
    match sub_exponent with
    | ex.numeric num_sub_exponent =>
      if num_exponent.is_integer || (num_sub_exponent.abs T).less T (numeric.rat 1) then
        ex.power sub_basis (ex.numeric (num_sub_exponent.mul T num_exponent)) false
      else ex.power ebasis eexponent true
    | _ => ex.power ebasis eexponent true
  | ex.numeric num_exponent, ex.mul seq overall_coeff _ =>
    -- ^(*(x,y,z),c1) -> *(x^c1,y^c1,z^c1) (c1 integer)
    if num_exponent.is_integer then expand_mul T E seq overall_coeff num_exponent
    -- ^(*(...,x;c1),c2) -> ^(*(...,x;1),c2)*c1^c2 and ^(*(...,x;-1),c2)*(-c1)^c2
    else if !overall_coeff.is_equal_exONE T then
      let num_coeff := overall_coeff.to_numeric
      if num_coeff.is_real T then
        if num_coeff.is_positive T then
          (E.mul_ex_ex (ex.power (ex.mul seq exONE false) exponent false)
            (ex.power (ex.numeric num_coeff) (ex.numeric num_exponent) false)).to_mul false
        else if num_coeff.compare T (-1) ≠ 0 then
          (E.mul_ex_ex (ex.power (ex.mul seq exMINUSONE false) exponent false)
            (ex.power (ex.numeric (num_coeff.abs T)) (ex.numeric num_exponent) false)).to_mul false
        else ex.power ebasis eexponent true
      else ex.power ebasis eexponent true
    else ex.power ebasis eexponent true
  | _, _ => ex.power ebasis eexponent true

/-- Lines 250-257 of `power::eval`: the quotient `q` and the remainder `r` of the
numerator `n` by the denominator `m` of the exponent, `r` made non-negative. -/
def eval_quotient_remainder {F : Type} (T : tower F) (num_exponent : numeric F) :
    numeric F × numeric F :=
  let n := num_exponent.numer
  let m := num_exponent.denom
  let qr := numeric.iquo n m
  if qr.2.is_negative T then (qr.1.sub T numONE, qr.2.add T m) else (qr.1, qr.2)

/-- Lines 200-334 of `power::eval`: the rewrite rules, applied to the node
`power(basis, exponent)` once `ebasis` and `eexponent` are known. -/
def eval_rules {F : Type} (T : tower F) (E : env F) (basis exponent ebasis eexponent : ex F) :
    Except error (ex F) :=
  -- ^(x,0) -> 1 (0^0 also handled here)
  if eexponent.is_zero T then Except.ok exONE
  -- ^(x,1) -> x
  else if eexponent.is_equal_exONE T then Except.ok ebasis
  -- ^(0,x) -> 0 (except if x is real and negative)
  else if ebasis.is_zero T then
    if eexponent.is_numeric && eexponent.to_numeric.is_negative T then Except.error error.division_by_zero
    else Except.ok exZERO
  -- ^(1,x) -> 1
  else if ebasis.is_equal_exONE T then Except.ok exONE
  else
    match ebasis, eexponent with
    | ex.numeric num_basis, ex.numeric num_exponent =>
      let basis_is_rational := num_basis.is_rational
      let exponent_is_rational := num_exponent.is_rational
      let res := num_basis.power T num_exponent
      if (!basis_is_rational || !exponent_is_rational) || res.is_rational then Except.ok (ex.numeric res)
      -- ^(c1,n/m) -> *(c1^q,c1^(n/m-q)), 0<(n/m-h)<1, q integer
      else if basis_is_rational && exponent_is_rational && num_exponent.is_real T
          && !num_exponent.is_integer then
        let m := num_exponent.denom
        let qr := eval_quotient_remainder T num_exponent
        let q := qr.1
        let r := qr.2
        -- the exponent was in the allowed range 0<(n/m)<1
        if q.is_zero T then Except.ok (ex.power basis exponent true)
        else
          -- epvector res(2) holds two default pairs; two more are pushed behind them
          Except.ok ((E.mul_epvector
            ((List.replicate 2 expair.default ++ [⟨ebasis, ex.numeric (r.div T m)⟩])
              ++ [⟨ex.numeric (num_basis.power T q), exONE⟩])).to_mul true)
      else Except.ok (eval_symbolic T E exponent ebasis eexponent)
    | _, _ => Except.ok (eval_symbolic T E exponent ebasis eexponent)

end power

/-- The function `ex::eval(level)`; on a power node it is `power::eval(level)`
(lines 177-335), on every other node the evaluation the environment supplies. -/
def ex.eval {F : Type} (T : tower F) (E : env F) : ex F → ℤ → Except error (ex F)
  | ex.power basis exponent evaluated, level =>
    if level = 1 ∧ evaluated = true then Except.ok (ex.power basis exponent evaluated)
    else if level = -E.max_recursion_level then Except.error error.max_recursion_level_reached
    else
      match (if level = 1 then Except.ok basis else ex.eval T E basis (level - 1)) with
      | Except.error err => Except.error err
      | Except.ok ebasis =>
        match (if level = 1 then Except.ok exponent else ex.eval T E exponent (level - 1)) with
        | Except.error err => Except.error err
        | Except.ok eexponent => power.eval_rules T E basis exponent ebasis eexponent
  | ex.numeric v, level => E.eval_other (ex.numeric v) level
  | ex.symbol s, level => E.eval_other (ex.symbol s) level
  | ex.add s c f, level => E.eval_other (ex.add s c f) level
  | ex.mul s c f, level => E.eval_other (ex.mul s c f) level

/-! ## `power::expand_add_2` and `power::expand_add` -/

/-- Modelled from the spec: `nops()` of a sum, the number of its pairs, plus one
when the overall coefficient is not zero (`expairseq.cpp` is not among the
sources). -/
def expairseq.add_nops {F : Type} (T : tower F) (a : expairseq F) : ℕ :=
  if a.overall_coeff.is_zero T then a.seq.length else a.seq.length + 1

/-- Modelled from the spec: `binomial(n, k)` on integers with `0 ≤ k ≤ n`, where it
is the binomial coefficient; the embedding gives 0 elsewhere. -/
def binomial (n k : ℤ) : ℚ :=
  if 0 ≤ k ∧ k ≤ n then (Nat.choose n.toNat k.toNat : ℚ) else 0

/-- The test `are_ex_trivially_equal(c, exONE())`: `c` is the shared object of the
constant 1, which as a value is the exact number 1.  (On another object of
value 1 the source takes the other branch and computes `c^2`, the same value.) -/
def ex.is_exONE_object {F : Type} : ex F → Bool
  | ex.numeric (numeric.rat q) => decide (q = 1)
  | _ => false

namespace power

/-- The power of an operand `b` of a sum to the integer `j`, as `expand_add`
and `expand_add_2` build it: `expand_mul` on a product, a new power node
otherwise. -/
def operand_power {F : Type} (T : tower F) (E : env F) (b : ex F) (j : ℤ) : ex F :=
  match b with
  | ex.mul seq overall_coeff _ => expand_mul T E seq overall_coeff (numeric.rat j)
  | _ => ex.power b (ex.numeric (numeric.rat j)) false

/-- The inner loop of `expand_add_2` (lines 616-621): the cross terms of the pair
`(r, c)` with the pairs behind it. -/
def expand_add_2_cross {F : Type} (T : tower F) (E : env F) (r c : ex F) : epvector F → epvector F
  | [] => []
  | p1 :: tail =>
    E.add_combine_ex_with_coeff_to_pair ((E.mul_ex_ex r p1.rest).to_mul false)
        (ex.numeric (((numTWO : numeric F).mul T c.to_numeric).mul T p1.coeff.to_numeric))
      :: expand_add_2_cross T E r c tail

/-- The first part of `expand_add_2` (lines 587-622): for every pair its square,
followed by its cross terms with the pairs behind it. -/
def expand_add_2_first {F : Type} (T : tower F) (E : env F) : epvector F → epvector F
  | [] => []
  | p :: tail =>
    ((if p.coeff.is_exONE_object then
        (⟨operand_power T E p.rest 2, exONE⟩ : expair (ex F))
      else
        ⟨operand_power T E p.rest 2, ex.numeric (p.coeff.to_numeric.power T numTWO)⟩)
      :: expand_add_2_cross T E p.rest p.coeff tail) ++ expand_add_2_first T E tail

/-- The second part of `expand_add_2` (lines 627-632): the terms that come from a
non-zero overall coefficient. -/
def expand_add_2_second {F : Type} (T : tower F) (E : env F) (a : expairseq F) : epvector F :=
  if !a.overall_coeff.is_zero T then
    a.seq.map (fun p => E.add_combine_pair_with_coeff_to_pair p
        (ex.numeric (a.overall_coeff.to_numeric.mul T numTWO)))
      ++ [⟨ex.numeric (a.overall_coeff.to_numeric.power T numTWO), exONE⟩]
  else []

/-- The vector `sum` that `expand_add_2(a)` hands to the constructor of the sum. -/
def expand_add_2_sum {F : Type} (T : tower F) (E : env F) (a : expairseq F) : epvector F :=
  expand_add_2_first T E a.seq ++ expand_add_2_second T E a

/-- The function `power::expand_add_2(a)` (lines 576-637). -/
def expand_add_2 {F : Type} (T : tower F) (E : env F) (a : expairseq F) : ex F :=
  (E.add_epvector (expand_add_2_sum T E a)).to_add false

/-- The three vectors `k`, `k_cum` and `upper_limit` of `expand_add`.  Their
entries are of type `int`; they are integers here (in the loop they stay
between 0 and `n + 1`).  Reading a vector outside its bounds gives 0. -/
structure counters where
  k : List ℤ
  k_cum : List ℤ
  upper_limit : List ℤ

/-- The vectors after the loop of lines 461-465: `m - 1` entries each, `k` and
`k_cum` zero, `upper_limit` equal to `n`. -/
def counters_init (m : ℕ) (n : ℤ) : counters :=
  ⟨List.replicate (m - 1) 0, List.replicate (m - 1) 0, List.replicate (m - 1) n⟩

/-- The terms `term[0..m-2]` of lines 470-481, for the operands from `l` on
(`cnt` of them). -/
def expand_add_term_front {F : Type} (T : tower F) (E : env F) (a : expairseq F) (k : List ℤ) :
    ℕ → ℕ → exvector F
  | _, 0 => []
  | l, cnt + 1 => operand_power T E (E.add_op a l) (k.getD l 0)
      :: expand_add_term_front T E a k (l + 1) cnt

/-- The factor `f` of lines 494-497, from the operand `l` on (`cnt` of them). -/
def expand_add_factor (n : ℤ) (c : counters) : ℕ → ℕ → ℚ → ℚ
  | _, 0, f => f
  | l, cnt + 1, f => expand_add_factor n c (l + 1) cnt
      (f * binomial (n - c.k_cum.getD (l - 1) 0) (c.k.getD l 0))

/-- The vector `term` of one pass of the loop of `expand_add` (lines 468-498). -/
def expand_add_term {F : Type} (T : tower F) (E : env F) (a : expairseq F) (n : ℤ) (m : ℕ)
    (c : counters) : exvector F :=
  (expand_add_term_front T E a c.k 0 (m - 1)
    ++ [operand_power T E (E.add_op a (m - 1)) (n - c.k_cum.getD (m - 2) 0)])
    ++ [ex.numeric (numeric.rat
        (expand_add_factor n c 1 (m - 2) (binomial n (c.k.getD 0 0))))]

/-- The loop of lines 517-521 that increments `k`.  The first argument is `l + 1`:
at 0 the loop is left with `l < 0`.  The result is the new `k` and the index `l`
at which the loop stopped (none when `l < 0`). -/
def increment_k (upper_limit : List ℤ) : ℕ → List ℤ → List ℤ × Option ℕ
  | 0, k => (k, none)
  | l + 1, k =>
    let k1 := k.set l (k.getD l 0 + 1)
    if k1.getD l 0 > upper_limit.getD l 0 then increment_k upper_limit l (k1.set l 0)
    else (k1, some l)

/-- The loop of lines 530-532, from `i` on (`cnt` passes). -/
def recalc_k_cum (k : List ℤ) : ℕ → ℕ → List ℤ → List ℤ
  | _, 0, k_cum => k_cum
  | i, cnt + 1, k_cum => recalc_k_cum k (i + 1) cnt (k_cum.set i (k_cum.getD (i - 1) 0 + k.getD i 0))

/-- The loop of lines 534-536, from `i` on (`cnt` passes). -/
def recalc_upper_limit (n : ℤ) (k_cum : List ℤ) : ℕ → ℕ → List ℤ → List ℤ
  | _, 0, upper_limit => upper_limit
  | i, cnt + 1, upper_limit =>
    recalc_upper_limit n k_cum (i + 1) cnt (upper_limit.set i (n - k_cum.getD (i - 1) 0))

/-- Lines 517-536: the increment of `k` and, unless the loop is left, the new
`k_cum` and `upper_limit`.  The result is none at the `break`. -/
def counters_next (n : ℤ) (m : ℕ) (c : counters) : Option counters :=
  match increment_k c.upper_limit (m - 1) c.k with
  | (_, none) => none
  | (k, some l) =>
    let k_cum0 :=
      if l = 0 then c.k_cum.set 0 (k.getD 0 0)
      else c.k_cum.set l (c.k_cum.getD (l - 1) 0 + k.getD l 0)
    let k_cum := recalc_k_cum k (l + 1) (m - 1 - (l + 1)) k_cum0
    some ⟨k, k_cum, recalc_upper_limit n k_cum (l + 1) (m - 1 - (l + 1)) c.upper_limit⟩

/-- The loop `while (1)` of `expand_add` (lines 467-537), run for at most `fuel`
passes: the vector `sum` at the `break`, none when the passes do not suffice. -/
def expand_add_loop {F : Type} (T : tower F) (E : env F) (a : expairseq F) (n : ℤ) (m : ℕ) :
    ℕ → counters → exvector F → Option (exvector F)
  | 0, _, _ => none
  | fuel + 1, c, sum =>
    let sum1 := sum ++ [(E.mul_exvector (expand_add_term T E a n m c)).to_mul false]
    match counters_next n m c with
    | none => some sum1
    | some c1 => expand_add_loop T E a n m fuel c1 sum1

/-- The vector `sum` that `expand_add(a, n)` hands to the constructor of the sum
when `n` is not 2. -/
def expand_add_sum {F : Type} (T : tower F) (E : env F) (a : expairseq F) (n : ℤ) (fuel : ℕ) :
    Option (exvector F) :=
  expand_add_loop T E a n (a.add_nops T) fuel (counters_init (a.add_nops T) n) []

/-- The function `power::expand_add(a, n)` (lines 445-539), its loop run for at most
`fuel` passes. -/
def expand_add {F : Type} (T : tower F) (E : env F) (a : expairseq F) (n : ℤ) (fuel : ℕ) :
    Option (ex F) :=
  if n = 2 then some (expand_add_2 T E a)
  else (expand_add_sum T E a n fuel).map (fun sum => (E.add_exvector sum).to_add false)

end power

namespace power

/-- The relations that hold between the three vectors at the top of every pass
of the loop of `expand_add`, for vectors of length `d = m - 1`: `k_cum` holds the
running sums of `k`, `upper_limit[i]` is `n` minus the sum of the entries of `k`
before `i`, and every `k[i]` lies between 0 and `upper_limit[i]`. -/
def counters_inv (n : ℤ) (d : ℕ) (c : counters) : Prop :=
  c.k.length = d ∧ c.k_cum.length = d ∧ c.upper_limit.length = d ∧
  (∀ i, i < d → 0 ≤ c.k.getD i 0 ∧ c.k.getD i 0 ≤ c.upper_limit.getD i 0) ∧
  (∀ i, i < d → c.upper_limit.getD i 0 = if i = 0 then n else n - c.k_cum.getD (i - 1) 0) ∧
  (∀ i, i < d → c.k_cum.getD i 0 =
    if i = 0 then c.k.getD 0 0 else c.k_cum.getD (i - 1) 0 + c.k.getD i 0)

/-- The number of passes of the loop of `expand_add` that follow the pass made
with the vectors `c` (of length `d`). -/
def counters_rank (d : ℕ) (c : counters) : ℕ :=
  ∑ i in Finset.range d,
    Nat.choose ((c.upper_limit.getD i 0 - c.k.getD i 0).toNat + (d - 1 - i)) (d - i)

end power

/-- The evaluation of a child of a power node inside `power::eval(level)`:
the child itself when `level` is 1, its evaluation at `level - 1` otherwise
(lines 197-198). -/
def eval_child {F : Type} (T : tower F) (E : env F) (level : ℤ) (e : ex F) : Except error (ex F) :=
  if level = 1 then Except.ok e else ex.eval T E e (level - 1)

/-! ## A small number tower and a plain environment, to run the definitions -/

/-- A power `basis^exponent` of exact rationals that has no exact rational
value, kept symbolically. -/
structure surd where
  basis : ℚ
  exponent : ℚ

/-- The tower of the exact rationals and the symbolic irrational powers.
Arithmetic on a symbolic power is not carried out: it yields its first
operand. -/
def surd_tower : tower surd where
  compare := fun _ _ => 1
  is_real := fun x => decide (0 ≤ x.basis)
  is_negative := fun _ => false
  is_positive := fun x => decide (0 ≤ x.basis)
  abs := fun x => numeric.other x
  less := fun _ _ => false
  add := fun a _ => a
  sub := fun a _ => a
  mul := fun a _ => a
  div := fun a _ => a
  power := fun a _ => a
  irrational_power := fun b e => ⟨b, e⟩
  negative_is_real := by intro x h; cases h
  positive_is_real := by intro x h; exact h
  negative_not_positive := by intro x h; cases h
  abs_of_positive := by intro x _; rfl
  mul_one := by intro x; rfl
  power_one := by intro x; rfl

/-- An environment whose constructors store their operands as they come (an
operand `e` as the pair `(e, 1)`), without bringing them to canonical form, in
which every node that is not a power evaluates to itself, and in which the
operand of a sum that belongs to the pair `(r, c)` is `r` when `c` is 1 and the
product of `r` with the residual `c` otherwise.  Every node that is not a power
is its own expansion. -/
def plain_env (F : Type) (T : tower F) : env F where
  max_recursion_level := 1024
  eval_other := fun e _ => Except.ok e
  mul_ex_ex := fun lh rh => ⟨[⟨lh, exONE⟩, ⟨rh, exONE⟩], exONE⟩
  mul_exvector := fun v => ⟨v.map (fun e => ⟨e, exONE⟩), exONE⟩
  mul_epvector := fun v => ⟨v, exONE⟩
  mul_epvector_coeff := fun v c => ⟨v, c⟩
  add_exvector := fun v => ⟨v.map (fun e => ⟨e, exONE⟩), exZERO⟩
  add_epvector := fun v => ⟨v, exZERO⟩
  mul_combine_pair_with_coeff_to_pair := fun p c => ⟨p.rest, ex.numeric (p.coeff.to_numeric.mul T c.to_numeric)⟩
  add_combine_ex_with_coeff_to_pair := fun e c => ⟨e, c⟩
  add_combine_pair_with_coeff_to_pair := fun p c => ⟨p.rest, ex.numeric (p.coeff.to_numeric.mul T c.to_numeric)⟩
  add_op := fun a i =>
    match a.seq[i]? with
    | some p => if p.coeff.is_exONE_object then p.rest else ex.mul [⟨p.rest, exONE⟩] p.coeff false
    | none => a.overall_coeff
  expand_other := fun e => (e, true)

/-- The number of power nodes met when going down from an expression along the
basis of every power. -/
def ex.power_depth {F : Type} : ex F → ℕ
  | ex.power basis _ _ => ex.power_depth basis + 1
  | _ => 0

/-! ## `power::expand` -/

/-- Modelled from the spec: `numeric::to_int`, the value of an integer number as an
`int` (the numerator of an exact rational; `numeric.cpp` is not among the
sources). -/
def numeric.to_int {F : Type} : numeric F → ℤ
  | numeric.rat q => q.num
  | numeric.other _ => 0

/-- The closing lines of `power::expand` (lines 406-411 and 427-432): the node
itself, held, when the expanded basis is the very object `basis`
(`are_ex_trivially_equal`), and a new power of the expanded basis otherwise.
The second component tells whether the result is the node that was expanded. -/
def power.expand_hold {F : Type} (basis exponent expanded_basis : ex F) (same : Bool) :
    ex F × Bool :=
  if same then (ex.power basis exponent true, true)
  else (ex.power expanded_basis exponent false, false)

/-- Lines 404-432 of `power::expand`, applied to the node `power(basis, exponent)`
once the expansion `expanded_basis` of the basis is known (`same` tells whether
it is the very object `basis`).  The loop of `expand_add` is run for at most
`fuel` passes. -/
def power.expand_rules {F : Type} (T : tower F) (E : env F) (fuel : ℕ)
    (basis exponent expanded_basis : ex F) (same : Bool) : Option (ex F × Bool) :=
  if !exponent.is_numeric || !exponent.to_numeric.is_integer then
    some (power.expand_hold basis exponent expanded_basis same)
  else
    -- integer numeric exponent
    let num_exponent := exponent.to_numeric
    let int_exponent := num_exponent.to_int
    match expanded_basis with
    | ex.add seq overall_coeff _ =>
      if int_exponent > 0 then
        (power.expand_add T E ⟨seq, overall_coeff⟩ int_exponent fuel).map (fun r => (r, false))
      -- cannot expand further
      else some (power.expand_hold basis exponent expanded_basis same)
    | ex.mul seq overall_coeff _ =>
      some (power.expand_mul T E seq overall_coeff num_exponent, false)
    -- cannot expand further
    | _ => some (power.expand_hold basis exponent expanded_basis same)

/-- The function `ex::expand(options)`; on a power node it is `power::expand`
(lines 400-433), on every other node the expansion the environment supplies.
The second component of the result tells whether the result is the very node
that was expanded. -/
def ex.expand {F : Type} (T : tower F) (E : env F) (fuel : ℕ) : ex F → Option (ex F × Bool)
  | ex.power basis exponent _ =>
    match ex.expand T E fuel basis with
    | none => none
    | some (expanded_basis, same) =>
      power.expand_rules T E fuel basis exponent expanded_basis same
  | ex.numeric v => some (E.expand_other (ex.numeric v))
  | ex.symbol s => some (E.expand_other (ex.symbol s))
  | ex.add s c f => some (E.expand_other (ex.add s c f))
  | ex.mul s c f => some (E.expand_other (ex.mul s c f))

/-! ## The passes of the loop of `power::expand_add` -/

/-- The vectors `k`, `k_cum`, `upper_limit` at the top of the passes of the loop of
`expand_add` (lines 467-537), pass after pass from the vectors `c` on, for at
most `fuel` passes. -/
def power.counters_trace (n : ℤ) (m : ℕ) : ℕ → power.counters → List power.counters
  | 0, _ => []
  | fuel + 1, c =>
    c :: (match power.counters_next n m c with
      | none => []
      | some c1 => power.counters_trace n m fuel c1)

/-- The exponents that one pass of the loop of `expand_add` gives to the operands
`a.op(0)`, ..., `a.op(m-1)` (lines 470-491): `k[0]`, ..., `k[m-2]` and
`n - k_cum[m-2]`. -/
def power.exponent_vector (n : ℤ) (m : ℕ) (c : power.counters) : List ℤ :=
  (List.range (m - 1)).map (fun l => c.k.getD l 0) ++ [n - c.k_cum.getD (m - 2) 0]

/-- The vector `v` with its first entry raised by one. -/
def power.raise_head : List ℤ → List ℤ
  | [] => []
  | x :: v => (x + 1) :: v

/-- All vectors of `d` non-negative integers whose sum is at most `N`: those that
begin with 0, followed by those with a raised first entry. -/
def power.bounded_vectors : ℕ → ℕ → List (List ℤ)
  | 0, _ => [[]]
  | d + 1, 0 => (power.bounded_vectors d 0).map (fun v => 0 :: v)
  | d + 1, N + 1 =>
    (power.bounded_vectors d (N + 1)).map (fun v => 0 :: v)
      ++ (power.bounded_vectors (d + 1) N).map power.raise_head
termination_by d N => (d, N)

/-! ## The order of term pairs (`expair.h`) -/

/-- Modelled from the spec: `ex::is_equal`, the expression comparison `ex::compare`
giving 0 (`ex.h` is not among the sources; the comparison is the parameter
`cmp`). -/
def ex.is_equal {F : Type} (cmp : ex F → ex F → ℤ) (a b : ex F) : Bool :=
  decide (cmp a b = 0)

namespace expair

/-- The member `expair::is_equal` (lines 62-65). -/
def is_equal {F : Type} (cmp : ex F → ex F → ℤ) (a other : expair (ex F)) : Bool :=
  ex.is_equal cmp a.rest other.rest && ex.is_equal cmp a.coeff other.coeff

/-- The member `expair::is_less` (lines 68-73). -/
def is_less {F : Type} (cmp : ex F → ex F → ℤ) (a other : expair (ex F)) : Bool :=
  let restcmp := cmp a.rest other.rest
  decide (restcmp < 0) || (!decide (restcmp > 0) && decide (cmp a.coeff other.coeff < 0))

/-- The member `expair::compare` (lines 76-83). -/
def compare {F : Type} (cmp : ex F → ex F → ℤ) (a other : expair (ex F)) : ℤ :=
  let restcmp := cmp a.rest other.rest
  if restcmp ≠ 0 then restcmp else cmp a.coeff other.coeff

end expair

/-- The function object `expair_is_less` (lines 113-115). -/
def expair_is_less {F : Type} (cmp : ex F → ex F → ℤ) (lh rh : expair (ex F)) : Bool :=
  lh.is_less cmp rh

/-- The expression comparison `cmp` is a total order on the expressions that
satisfy `S`: it is 0 exactly on equal expressions, its sign is antisymmetric, and
it is transitive. -/
def compare_total_on {F : Type} (cmp : ex F → ex F → ℤ) (S : ex F → Prop) : Prop :=
  (∀ a b, S a → S b → (cmp a b = 0 ↔ a = b)) ∧
  (∀ a b, S a → S b → (cmp a b < 0 ↔ 0 < cmp b a)) ∧
  (∀ a b c, S a → S b → S c → cmp a b < 0 → cmp b c < 0 → cmp a c < 0)

/-- The components of the pair `p` satisfy `S`. -/
def expair.within {F : Type} (S : ex F → Prop) (p : expair (ex F)) : Prop :=
  S p.rest ∧ S p.coeff

/-- A key for the comparison of simple expressions: the exact rationals come
first, by value, the symbols next, by serial number, and all other expressions
last, together. -/
def ex.atom_key {F : Type} : ex F → ℚ × ℚ
  | ex.numeric (numeric.rat q) => (0, q)
  | ex.symbol s => (1, s)
  | _ => (2, 0)

/-- A comparison of expressions that orders the exact rationals by value, the
symbols by serial number, and every exact rational before every symbol. -/
def plain_compare {F : Type} (a b : ex F) : ℤ :=
  if a.atom_key.1 < b.atom_key.1 then -1
  else if b.atom_key.1 < a.atom_key.1 then 1
  else if a.atom_key.2 < b.atom_key.2 then -1
  else if b.atom_key.2 < a.atom_key.2 then 1
  else 0

/-- The expressions that `plain_compare` tells apart: exact rationals and
symbols. -/
def ex.is_atom {F : Type} : ex F → Prop
  | ex.numeric (numeric.rat _) => True
  | ex.symbol _ => True
  | _ => False

/-! ## Canonical pair sequences (`expairseq.h`)

The header declares the members of `expairseq`; their bodies (`expairseq.cpp`,
`add.cpp`, `mul.cpp`) are not among the sources.  The definitions of this
section follow the construction protocol of the specification. -/

/-- Modelled from the spec: the operations in which the sum and the product
variant of a pair sequence differ (the virtual members `split_ex_to_pair`,
`default_overall_coeff`, `combine_overall_coeff` and `thisexpairseq` of
`expairseq.h`, and the test for an operand of the variant's own type). -/
structure variant (F : Type) where
  /-- the pairs and the residual of an operand of the own type of the variant (a
  sum in a sum, a product in a product), none for every other operand -/
  own_type : ex F → Option (expairseq F)
  /-- the split rule: the pair for an operand that is neither of the own type
  nor a number -/
  split_ex_to_pair : ex F → expair (ex F)
  /-- the identity value of the residual -/
  default_overall_coeff : numeric F
  /-- the absorption of a number into the residual -/
  combine_overall_coeff : numeric F → numeric F → numeric F
  /-- the object with the given pairs and residual -/
  thisexpairseq : epvector F → ex F → ex F

/-- Modelled from the spec: the symbolic part that remains of a product when its
numeric factor is taken away; for the single factor `x^1` it is `x` (the split
of `3*x` is `(x, 3)`). -/
def mul_without_coeff {F : Type} : epvector F → ex F
  | [p] => if p.coeff.is_exONE_object then p.rest else ex.mul [p] exONE true
  | seq => ex.mul seq exONE true

/-- Modelled from the spec: the sum variant.  A sum among the operands is
flattened, the split rule separates the numeric factor of a product from its
remaining symbolic part, every other operand has the multiplier 1, the residual
is additive with identity 0. -/
def add_variant {F : Type} (T : tower F) : variant F where
  own_type := fun e =>
    match e with
    | ex.add seq overall_coeff _ => some ⟨seq, overall_coeff⟩
    | _ => none
  split_ex_to_pair := fun e =>
    match e with
    | ex.mul seq overall_coeff _ => ⟨mul_without_coeff seq, overall_coeff⟩
    | _ => ⟨e, exONE⟩
  default_overall_coeff := numZERO
  combine_overall_coeff := numeric.add T
  thisexpairseq := fun seq overall_coeff => ex.add seq overall_coeff true

/-- Modelled from the spec: the product variant.  A product among the operands is
flattened, the split rule separates basis and numeric exponent of a power,
every other operand has the exponent 1, the residual is multiplicative with
identity 1. -/
def mul_variant {F : Type} (T : tower F) : variant F where
  own_type := fun e =>
    match e with
    | ex.mul seq overall_coeff _ => some ⟨seq, overall_coeff⟩
    | _ => none
  split_ex_to_pair := fun e =>
    match e with
    | ex.power basis (ex.numeric n) _ => ⟨basis, ex.numeric n⟩
    | _ => ⟨e, exONE⟩
  default_overall_coeff := numONE
  combine_overall_coeff := numeric.mul T
  thisexpairseq := fun seq overall_coeff => ex.mul seq overall_coeff true

namespace expairseq

/-- Modelled from the spec: the pairs that one operand brings into the sequence
(steps 1 and 2 of the construction): the pairs of an operand of the own type,
nothing for a number, the split of every other operand. -/
def operand_pairs {F : Type} (V : variant F) (e : ex F) : epvector F :=
  match V.own_type e with
  | some s => s.seq
  | none =>
    match e with
    | ex.numeric _ => []
    | _ => [V.split_ex_to_pair e]

/-- Modelled from the spec: the number that one operand brings into the residual
(step 1 of the construction): the residual of an operand of the own type, a
numeric operand itself, nothing for every other operand. -/
def operand_residual {F : Type} (V : variant F) (e : ex F) : Option (numeric F) :=
  match V.own_type e with
  | some s => some s.overall_coeff.to_numeric
  | none =>
    match e with
    | ex.numeric v => some v
    | _ => none

/-- Modelled from the spec: `expairseq::make_flat(exvector)`, the walk over the
operands that collects their pairs behind `seq` and absorbs their numbers into
the running residual `overall_coeff`. -/
def make_flat {F : Type} (V : variant F) : exvector F → epvector F → numeric F →
    epvector F × numeric F
  | [], seq, overall_coeff => (seq, overall_coeff)
  | e :: tail, seq, overall_coeff =>
    make_flat V tail (seq ++ operand_pairs V e)
      (match operand_residual V e with
        | some v => V.combine_overall_coeff overall_coeff v
        | none => overall_coeff)

/-- Modelled from the spec: `expairseq::canonicalize`, the sort of the pairs by the
order of pairs (step 3 of the construction). -/
def canonicalize {F : Type} (cmp : ex F → ex F → ℤ) (seq : epvector F) : epvector F :=
  seq.insertionSort (fun a b => expair_is_less cmp a b = true)

/-- Modelled from the spec: the entry that the scan lets through, dropped when its
coefficient is zero. -/
def emit {F : Type} (T : tower F) (p : expair (ex F)) : epvector F :=
  if p.coeff.to_numeric.is_zero T then [] else [p]

/-- Modelled from the spec: the scan of `combine_same_terms_sorted_seq` with the
pair `cur` in hand: a next pair with an equal `rest` has its coefficient added
to that of `cur`, another next pair lets `cur` through and takes its place. -/
def combine_step {F : Type} (cmp : ex F → ex F → ℤ) (T : tower F) :
    expair (ex F) → epvector F → epvector F
  | cur, [] => emit T cur
  | cur, next :: tail =>
    if cmp cur.rest next.rest = 0 then
      combine_step cmp T
        ⟨cur.rest, ex.numeric (cur.coeff.to_numeric.add T next.coeff.to_numeric)⟩ tail
    else emit T cur ++ combine_step cmp T next tail

/-- Modelled from the spec: `expairseq::combine_same_terms_sorted_seq` (step 4 of
the construction): adjacent pairs with an equal `rest` are replaced by one pair
with the sum of their coefficients, and an entry with coefficient zero is
dropped. -/
def combine_same_terms_sorted_seq {F : Type} (cmp : ex F → ex F → ℤ) (T : tower F) :
    epvector F → epvector F
  | [] => []
  | p :: tail => combine_step cmp T p tail

/-- Modelled from the spec: `expairseq::construct_from_epvector`, the construction
from pairs and a residual: sort, then combine. -/
def construct_from_epvector {F : Type} (cmp : ex F → ex F → ℤ) (T : tower F)
    (v : epvector F) (overall_coeff : numeric F) : expairseq F :=
  ⟨combine_same_terms_sorted_seq cmp T (canonicalize cmp v), ex.numeric overall_coeff⟩

/-- Modelled from the spec: `expairseq::construct_from_exvector`, the
construction of the canonical pair sequence from a list of operands: flatten
and split, sort, combine. -/
def construct_from_exvector {F : Type} (V : variant F) (cmp : ex F → ex F → ℤ) (T : tower F)
    (v : exvector F) : expairseq F :=
  construct_from_epvector cmp T (make_flat V v [] V.default_overall_coeff).1
    (make_flat V v [] V.default_overall_coeff).2

/-- Modelled from the spec: `expairseq::is_canonical`, the test for sortedness: no
pair is greater than its successor. -/
def is_canonical {F : Type} (cmp : ex F → ex F → ℤ) : epvector F → Bool
  | [] => true
  | [_] => true
  | a :: b :: tail => !(b.is_less cmp a) && is_canonical cmp (b :: tail)

/-- Modelled from the spec: the expression that stands for a canonical pair
sequence (steps 5 and 6 of the construction): the residual alone when there is
no pair, the evaluated sum or product otherwise. -/
def to_ex {F : Type} (V : variant F) (s : expairseq F) : ex F :=
  match s.seq with
  | [] => s.overall_coeff
  | _ => V.thisexpairseq s.seq s.overall_coeff

end expairseq

/-- The exact rational that is the coefficient of a pair (0 when the coefficient
is no exact rational). -/
def expair.rat_coeff {F : Type} (p : expair (ex F)) : ℚ :=
  match p.coeff with
  | ex.numeric (numeric.rat q) => q
  | _ => 0

/-- The sum of the coefficients of the pairs of `seq` whose `rest` compares equal
to `r`. -/
def coeff_of {F : Type} (cmp : ex F → ex F → ℤ) (r : ex F) (seq : epvector F) : ℚ :=
  ((seq.filter (fun p => decide (cmp p.rest r = 0))).map expair.rat_coeff).sum

/-- The value of an exact rational number (0 for a number that is no exact
rational). -/
def numeric.rat_value {F : Type} : numeric F → ℚ
  | numeric.rat q => q
  | numeric.other _ => 0

/-- Modelled from the spec: the pair `(r, c*(-1))` that the expanded difference
`e - g` holds for the term `(r, c)` of `g` (the operators and the expansion of
products are not among the sources). -/
def expair.negate {F : Type} (T : tower F) (p : expair (ex F)) : expair (ex F) :=
  ⟨p.rest, ex.numeric (p.coeff.to_numeric.mul T numMINUSONE)⟩

/-- The flag `status_flags::evaluated` of a node; numbers and symbols, which carry
no flag in the embedding, count as evaluated. -/
def ex.is_evaluated {F : Type} : ex F → Bool
  | ex.power _ _ evaluated => evaluated
  | ex.add _ _ evaluated => evaluated
  | ex.mul _ _ evaluated => evaluated
  | _ => true

/-! ## Values of expressions -/

/-- The value of a pair of a product, which stands for `rest ^ coeff`, when the
rests have the values `val`; the `coeff` is taken as an integer. -/
def expair.product_value {F : Type} (val : ex F → ℚ) (p : expair (ex F)) : ℚ :=
  val p.rest ^ p.coeff.to_numeric.to_int

mutual
/-- The rational value of an expression made of exact rationals, symbols, powers
with integer exponents, sums with rational coefficients and products with
integer exponents, when the symbol of serial number `s` has the value `x s`.
(On a number that is not an exact rational the embedding gives 0, and of an
exponent that is not an integer it takes the numerator.) -/
def ex.value {F : Type} (x : ℕ → ℚ) : ex F → ℚ
  | ex.numeric v => v.rat_value
  | ex.symbol s => x s
  | ex.power b e _ => ex.value x b ^ e.to_numeric.to_int
  | ex.add seq c _ => c.to_numeric.rat_value + ex.value_sum x seq
  | ex.mul seq c _ => c.to_numeric.rat_value * ex.value_product x seq
/-- The value of the pairs of a sum: the sum of `coeff * rest`. -/
def ex.value_sum {F : Type} (x : ℕ → ℚ) : List (expair (ex F)) → ℚ
  | [] => 0
  | p :: tail => ex.value x p.rest * p.coeff.to_numeric.rat_value + ex.value_sum x tail
/-- The value of the pairs of a product: the product of `rest ^ coeff`. -/
def ex.value_product {F : Type} (x : ℕ → ℚ) : List (expair (ex F)) → ℚ
  | [] => 1
  | p :: tail => ex.value x p.rest ^ p.coeff.to_numeric.to_int * ex.value_product x tail
end

/-! ## The accesses of `power::expand_add` to its vectors, checked -/

namespace power

/-- A read `v[i]` of a vector at an index of type `int`: none when the index is
out of bounds. -/
def read (v : List ℤ) (i : ℤ) : Option ℤ :=
  if 0 ≤ i then v[i.toNat]? else none

/-- A write `v[i] = x` to a vector at an index of type `int`: none when the index
is out of bounds. -/
def write (v : List ℤ) (i : ℤ) (x : ℤ) : Option (List ℤ) :=
  if 0 ≤ i ∧ i.toNat < v.length then some (v.set i.toNat x) else none

/-- The operand `a.op(l)` of a sum with `m` operands: none when `l` is out of
bounds. -/
def op_checked {F : Type} (E : env F) (a : expairseq F) (m : ℕ) (l : ℤ) : Option (ex F) :=
  if 0 ≤ l ∧ l < m then some (E.add_op a l.toNat) else none

/-- The terms `term[0..m-2]` of lines 470-481 with every access checked, for the
operands from `l` on (`cnt` of them). -/
def expand_add_term_front_checked {F : Type} (T : tower F) (E : env F) (a : expairseq F) (m : ℕ)
    (k : List ℤ) : ℕ → ℕ → Option (exvector F)
  | _, 0 => some []
  | l, cnt + 1 =>
    match op_checked E a m l, read k l, expand_add_term_front_checked T E a m k (l + 1) cnt with
    | some b, some kl, some tail => some (operand_power T E b kl :: tail)
    | _, _, _ => none

/-- The factor `f` of lines 494-497 with every access checked, from the operand `l`
on (`cnt` of them). -/
def expand_add_factor_checked (n : ℤ) (c : counters) : ℕ → ℕ → ℚ → Option ℚ
  | _, 0, f => some f
  | l, cnt + 1, f =>
    match read c.k_cum ((l : ℤ) - 1), read c.k l with
    | some kc, some kl => expand_add_factor_checked n c (l + 1) cnt (f * binomial (n - kc) kl)
    | _, _ => none

/-- The vector `term` of one pass of the loop of `expand_add` (lines 468-498) with
every access checked: the operands `a.op(l)`, the entries `k[l]`, `k_cum[m-2]`,
`k[0]` and `k_cum[l-1]`. -/
def expand_add_term_checked {F : Type} (T : tower F) (E : env F) (a : expairseq F) (n : ℤ)
    (m : ℕ) (c : counters) : Option (exvector F) :=
  match expand_add_term_front_checked T E a m c.k 0 (m - 1),
      op_checked E a m ((m - 1 : ℕ) : ℤ), read c.k_cum ((m : ℤ) - 2), read c.k 0 with
  | some front, some b, some kc, some k0 =>
    match expand_add_factor_checked n c 1 (m - 2) (binomial n k0) with
    | some f => some ((front ++ [operand_power T E b (n - kc)]) ++ [ex.numeric (numeric.rat f)])
    | none => none
  | _, _, _, _ => none

/-- The loop of lines 517-521 with every access checked. -/
def increment_k_checked (upper_limit : List ℤ) : ℕ → List ℤ → Option (List ℤ × Option ℕ)
  | 0, k => some (k, none)
  | l + 1, k =>
    match read k l, read upper_limit l with
    | some kl, some ul =>
      match write k l (kl + 1) with
      | some k1 =>
        if kl + 1 > ul then
          match write k1 l 0 with
          | some k2 => increment_k_checked upper_limit l k2
          | none => none
        else some (k1, some l)
      | none => none
    | _, _ => none

/-- The loop of lines 530-532 with every access checked. -/
def recalc_k_cum_checked (k : List ℤ) : ℕ → ℕ → List ℤ → Option (List ℤ)
  | _, 0, k_cum => some k_cum
  | i, cnt + 1, k_cum =>
    match read k_cum ((i : ℤ) - 1), read k i with
    | some x, some y =>
      match write k_cum i (x + y) with
      | some k_cum1 => recalc_k_cum_checked k (i + 1) cnt k_cum1
      | none => none
    | _, _ => none

/-- The loop of lines 534-536 with every access checked. -/
def recalc_upper_limit_checked (n : ℤ) (k_cum : List ℤ) : ℕ → ℕ → List ℤ → Option (List ℤ)
  | _, 0, upper_limit => some upper_limit
  | i, cnt + 1, upper_limit =>
    match read k_cum ((i : ℤ) - 1) with
    | some x =>
      match write upper_limit i (n - x) with
      | some upper_limit1 => recalc_upper_limit_checked n k_cum (i + 1) cnt upper_limit1
      | none => none
    | none => none

/-- The statement of lines 525-529 with every access checked. -/
def set_k_cum_checked (k k_cum : List ℤ) (l : ℕ) : Option (List ℤ) :=
  if l = 0 then
    match read k 0 with
    | some k0 => write k_cum 0 k0
    | none => none
  else
    match read k_cum ((l : ℤ) - 1), read k l with
    | some x, some y => write k_cum l (x + y)
    | _, _ => none

/-- Lines 517-536 with every access checked: none when an access is out of
bounds, and otherwise the result of `counters_next`. -/
def counters_next_checked (n : ℤ) (m : ℕ) (c : counters) : Option (Option counters) :=
  match increment_k_checked c.upper_limit (m - 1) c.k with
  | none => none
  | some (_, none) => some none
  | some (k, some l) =>
    match set_k_cum_checked k c.k_cum l with
    | none => none
    | some k_cum0 =>
      match recalc_k_cum_checked k (l + 1) (m - 1 - (l + 1)) k_cum0 with
      | none => none
      | some k_cum =>
        match recalc_upper_limit_checked n k_cum (l + 1) (m - 1 - (l + 1)) c.upper_limit with
        | none => none
        | some upper_limit => some (some ⟨k, k_cum, upper_limit⟩)

end power

/-! # Theorems -/

/-! ## `power::eval`: the way into the rules -/

/-- Unfolding of `power::eval` on a power node. -/
theorem eval_power {F : Type} (T : tower F) (E : env F) (basis exponent : ex F)
    (evaluated : Bool) (level : ℤ) :
    ex.eval T E (ex.power basis exponent evaluated) level =
      if level = 1 ∧ evaluated = true then Except.ok (ex.power basis exponent evaluated)
      else if level = -E.max_recursion_level then Except.error error.max_recursion_level_reached
      else
        match eval_child T E level basis with
        | Except.error err => Except.error err
        | Except.ok ebasis =>
          match eval_child T E level exponent with
          | Except.error err => Except.error err
          | Except.ok eexponent => power.eval_rules T E basis exponent ebasis eexponent := by
  rw [ex.eval]
  rfl

/-- When the node is not returned at once (lines 191-192), the level is not the
recursion limit and the children evaluate to `ebasis` and `eexponent`,
`power::eval` is the result of its rewrite rules. -/
theorem eval_power_rules {F : Type} (T : tower F) (E : env F) (basis exponent ebasis eexponent : ex F)
    (evaluated : Bool) (level : ℤ)
    (hfast : ¬(level = 1 ∧ evaluated = true)) (hlim : level ≠ -E.max_recursion_level)
    (hb : eval_child T E level basis = Except.ok ebasis)
    (he : eval_child T E level exponent = Except.ok eexponent) :
    ex.eval T E (ex.power basis exponent evaluated) level =
      power.eval_rules T E basis exponent ebasis eexponent := by
  rw [eval_power, if_neg hfast, if_neg hlim, hb, he]

/-! ## The rule for a zero basis (lines 222-228) -/

/-- C1: with an evaluated basis equal to 0 and an evaluated exponent that is neither
0 nor 1, `power::eval` fails with the division-by-zero error exactly when the
exponent is a number that is real and strictly negative, and returns the number
0 in every other case. -/
theorem eval_zero_basis {F : Type} (T : tower F) (E : env F) (basis exponent ebasis eexponent : ex F)
    (evaluated : Bool) (level : ℤ)
    (hfast : ¬(level = 1 ∧ evaluated = true)) (hlim : level ≠ -E.max_recursion_level)
    (hb : eval_child T E level basis = Except.ok ebasis)
    (he : eval_child T E level exponent = Except.ok eexponent)
    (hzero : ebasis.is_zero T = true)
    (hne0 : eexponent.is_zero T = false) (hne1 : eexponent.is_equal_exONE T = false) :
    (ex.eval T E (ex.power basis exponent evaluated) level = Except.error error.division_by_zero ↔
      ∃ v, eexponent = ex.numeric v ∧ v.is_real T = true ∧ v.is_negative T = true) ∧
    ((¬ ∃ v, eexponent = ex.numeric v ∧ v.is_real T = true ∧ v.is_negative T = true) →
      ex.eval T E (ex.power basis exponent evaluated) level = Except.ok exZERO) := by
  rw [eval_power_rules T E basis exponent ebasis eexponent evaluated level hfast hlim hb he]
  have hneg_real : ∀ v : numeric F, v.is_negative T = true → v.is_real T = true := by
    intro v hv
    cases v with
    | rat q => rfl
    | other x => exact T.negative_is_real x hv
  unfold power.eval_rules
  rw [if_neg (by simp [hne0]), if_neg (by simp [hne1]), if_pos hzero]
  cases eexponent with
  | numeric v =>
    by_cases hv : v.is_negative T = true
    · simp only [ex.is_numeric, ex.to_numeric, hv, Bool.and_self, if_true, true_iff]
      exact ⟨⟨v, rfl, hneg_real v hv, hv⟩, fun h => absurd ⟨v, rfl, hneg_real v hv, hv⟩ h⟩
    · simp only [ex.is_numeric, ex.to_numeric, hv, Bool.true_and]
      constructor
      · constructor
        · intro h; simp at h
        · rintro ⟨w, hw, -, hw2⟩
          cases hw
          exact absurd hw2 hv
      · intro _; simp
  | symbol s => simp [ex.is_numeric]
  | power b e f => simp [ex.is_numeric]
  | add s c f => simp [ex.is_numeric]
  | mul s c f => simp [ex.is_numeric]

/-- C1, at 0^(-1) and 0^3, evaluated with the default level 0: the first fails
with the division-by-zero error, the second is the number 0. -/
theorem eval_zero_basis_witness :
    ex.eval surd_tower (plain_env surd surd_tower)
        (ex.power (ex.numeric (numeric.rat 0)) (ex.numeric (numeric.rat (-1))) false) 0
      = Except.error error.division_by_zero ∧
    ex.eval surd_tower (plain_env surd surd_tower)
        (ex.power (ex.numeric (numeric.rat 0)) (ex.numeric (numeric.rat 3)) false) 0
      = Except.ok exZERO :=
  ⟨(eval_zero_basis surd_tower (plain_env surd surd_tower) (ex.numeric (numeric.rat 0))
      (ex.numeric (numeric.rat (-1))) (ex.numeric (numeric.rat 0)) (ex.numeric (numeric.rat (-1)))
      false 0 (by decide) (by simp [plain_env]) (by simp [eval_child, ex.eval, plain_env])
      (by simp [eval_child, ex.eval, plain_env])
      (by norm_num [ex.is_zero, numeric.is_zero, numeric.is_equal, numeric.compare])
      (by norm_num [ex.is_zero, numeric.is_zero, numeric.is_equal, numeric.compare])
      (by norm_num [ex.is_equal_exONE, numeric.is_equal, numeric.compare])).1.2
      ⟨numeric.rat (-1), rfl, rfl, by simp [numeric.is_negative]⟩,
   (eval_zero_basis surd_tower (plain_env surd surd_tower) (ex.numeric (numeric.rat 0))
      (ex.numeric (numeric.rat 3)) (ex.numeric (numeric.rat 0)) (ex.numeric (numeric.rat 3))
      false 0 (by decide) (by simp [plain_env]) (by simp [eval_child, ex.eval, plain_env])
      (by simp [eval_child, ex.eval, plain_env])
      (by norm_num [ex.is_zero, numeric.is_zero, numeric.is_equal, numeric.compare])
      (by norm_num [ex.is_zero, numeric.is_zero, numeric.is_equal, numeric.compare])
      (by norm_num [ex.is_equal_exONE, numeric.is_equal, numeric.compare])).2
      (by
        rintro ⟨v, hv, -, hneg⟩
        cases hv
        norm_num [numeric.is_negative] at hneg)⟩

/-! ## The rule for a zero exponent (lines 214-216) -/

/-- C2: whatever the evaluated basis is, the basis 0 included, `power::eval` of a
node whose evaluated exponent is zero returns the number 1 and raises no error:
the exponent is tested before the basis. -/
theorem eval_zero_exponent {F : Type} (T : tower F) (E : env F) (basis exponent ebasis eexponent : ex F)
    (evaluated : Bool) (level : ℤ)
    (hfast : ¬(level = 1 ∧ evaluated = true)) (hlim : level ≠ -E.max_recursion_level)
    (hb : eval_child T E level basis = Except.ok ebasis)
    (he : eval_child T E level exponent = Except.ok eexponent)
    (hzero : eexponent.is_zero T = true) :
    ex.eval T E (ex.power basis exponent evaluated) level = Except.ok exONE := by
  rw [eval_power_rules T E basis exponent ebasis eexponent evaluated level hfast hlim hb he]
  unfold power.eval_rules
  rw [if_pos hzero]

/-- C2, at 0^0 and at x^0 for a symbol x, evaluated with the default level 0. -/
theorem eval_zero_exponent_witness :
    ex.eval surd_tower (plain_env surd surd_tower)
        (ex.power (ex.numeric (numeric.rat 0)) (ex.numeric (numeric.rat 0)) false) 0
      = Except.ok exONE ∧
    ex.eval surd_tower (plain_env surd surd_tower)
        (ex.power (ex.symbol 7) (ex.numeric (numeric.rat 0)) false) 0
      = Except.ok exONE :=
  ⟨eval_zero_exponent surd_tower (plain_env surd surd_tower) (ex.numeric (numeric.rat 0))
      (ex.numeric (numeric.rat 0)) (ex.numeric (numeric.rat 0)) (ex.numeric (numeric.rat 0))
      false 0 (by decide) (by simp [plain_env]) (by simp [eval_child, ex.eval, plain_env])
      (by simp [eval_child, ex.eval, plain_env])
      (by norm_num [ex.is_zero, numeric.is_zero, numeric.is_equal, numeric.compare]),
   eval_zero_exponent surd_tower (plain_env surd surd_tower) (ex.symbol 7)
      (ex.numeric (numeric.rat 0)) (ex.symbol 7) (ex.numeric (numeric.rat 0))
      false 0 (by decide) (by simp [plain_env]) (by simp [eval_child, ex.eval, plain_env])
      (by simp [eval_child, ex.eval, plain_env])
      (by norm_num [ex.is_zero, numeric.is_zero, numeric.is_equal, numeric.compare])⟩

/-! ## The rule for a power of a power (lines 275-289) -/

/-- The rules of lines 200-273 do not apply to a basis that is not a number when
the exponent is neither 0 nor 1: the result is that of lines 275-334. -/
theorem eval_rules_symbolic {F : Type} (T : tower F) (E : env F) (basis exponent ebasis eexponent : ex F)
    (hne0 : eexponent.is_zero T = false) (hne1 : eexponent.is_equal_exONE T = false)
    (hnum : ebasis.is_numeric = false) :
    power.eval_rules T E basis exponent ebasis eexponent =
      Except.ok (power.eval_symbolic T E exponent ebasis eexponent) := by
  unfold power.eval_rules
  rw [if_neg (by simp [hne0]), if_neg (by simp [hne1])]
  cases ebasis with
  | numeric v => simp [ex.is_numeric] at hnum
  | symbol s => simp [ex.is_zero, ex.is_equal_exONE]
  | power b e f => simp [ex.is_zero, ex.is_equal_exONE]
  | add s c f => simp [ex.is_zero, ex.is_equal_exONE]
  | mul s c f => simp [ex.is_zero, ex.is_equal_exONE]

/-- C3: when the evaluated basis is a power `x^c1` with a numeric `c1` and the
evaluated exponent is a number `c2` other than 0 and 1, `power::eval` returns
the collapsed power `x^(c1*c2)` if and only if `c2` is an integer or `|c1| < 1`;
otherwise it keeps the nested form `(x^c1)^c2`. -/
theorem eval_power_of_power {F : Type} (T : tower F) (E : env F) (basis exponent x : ex F)
    (c1 c2 : numeric F) (sub_evaluated evaluated : Bool) (level : ℤ)
    (hfast : ¬(level = 1 ∧ evaluated = true)) (hlim : level ≠ -E.max_recursion_level)
    (hb : eval_child T E level basis = Except.ok (ex.power x (ex.numeric c1) sub_evaluated))
    (he : eval_child T E level exponent = Except.ok (ex.numeric c2))
    (hne0 : c2.is_zero T = false) (hne1 : c2.is_equal T 1 = false) :
    (ex.eval T E (ex.power basis exponent evaluated) level
        = Except.ok (ex.power x (ex.numeric (c1.mul T c2)) false) ↔
      (c2.is_integer = true ∨ (c1.abs T).less T (numeric.rat 1) = true)) ∧
    (¬(c2.is_integer = true ∨ (c1.abs T).less T (numeric.rat 1) = true) →
      ex.eval T E (ex.power basis exponent evaluated) level
        = Except.ok (ex.power (ex.power x (ex.numeric c1) sub_evaluated) (ex.numeric c2) true)) := by
  rw [eval_power_rules T E basis exponent _ _ evaluated level hfast hlim hb he,
    eval_rules_symbolic T E basis exponent (ex.power x (ex.numeric c1) sub_evaluated)
      (ex.numeric c2) hne0 hne1 rfl]
  unfold power.eval_symbolic
  by_cases hc : (c2.is_integer = true ∨ (c1.abs T).less T (numeric.rat 1) = true)
  · simp [hc]
  · simp [hc]

/-- C3, at `(x^2)^3`, `(x^(1/2))^(1/3)` and `(x^2)^(1/2)` for a symbol x: the first
two collapse to `x^6` and `x^(1/6)`, the third keeps its nested form. -/
theorem eval_power_of_power_witness :
    ex.eval surd_tower (plain_env surd surd_tower)
        (ex.power (ex.power (ex.symbol 7) (ex.numeric (numeric.rat 2)) false)
          (ex.numeric (numeric.rat 3)) false) 1
      = Except.ok (ex.power (ex.symbol 7) (ex.numeric (numeric.rat 6)) false) ∧
    ex.eval surd_tower (plain_env surd surd_tower)
        (ex.power (ex.power (ex.symbol 7) (ex.numeric (numeric.rat (1 / 2))) false)
          (ex.numeric (numeric.rat (1 / 3))) false) 1
      = Except.ok (ex.power (ex.symbol 7) (ex.numeric (numeric.rat (1 / 6))) false) ∧
    ex.eval surd_tower (plain_env surd surd_tower)
        (ex.power (ex.power (ex.symbol 7) (ex.numeric (numeric.rat 2)) false)
          (ex.numeric (numeric.rat (1 / 2))) false) 1
      = Except.ok (ex.power (ex.power (ex.symbol 7) (ex.numeric (numeric.rat 2)) false)
          (ex.numeric (numeric.rat (1 / 2))) true) := by
  refine ⟨?_, ?_, ?_⟩
  · have h := (eval_power_of_power surd_tower (plain_env surd surd_tower)
      (ex.power (ex.symbol 7) (ex.numeric (numeric.rat 2)) false) (ex.numeric (numeric.rat 3))
      (ex.symbol 7) (numeric.rat 2) (numeric.rat 3) false false 1 (by decide)
      (by simp [plain_env]) rfl rfl
      (by norm_num [numeric.is_zero, numeric.is_equal, numeric.compare])
      (by norm_num [numeric.is_equal, numeric.compare])).1.2
      (Or.inl (by simp [numeric.is_integer]))
    rw [h]
    norm_num [numeric.mul]
  · have h := (eval_power_of_power surd_tower (plain_env surd surd_tower)
      (ex.power (ex.symbol 7) (ex.numeric (numeric.rat (1 / 2))) false)
      (ex.numeric (numeric.rat (1 / 3)))
      (ex.symbol 7) (numeric.rat (1 / 2)) (numeric.rat (1 / 3)) false false 1 (by decide)
      (by simp [plain_env]) rfl rfl
      (by norm_num [numeric.is_zero, numeric.is_equal, numeric.compare])
      (by norm_num [numeric.is_equal, numeric.compare])).1.2
      (Or.inr (by norm_num [numeric.abs, numeric.less, abs_of_pos]))
    rw [h]
    norm_num [numeric.mul]
  · exact (eval_power_of_power surd_tower (plain_env surd surd_tower)
      (ex.power (ex.symbol 7) (ex.numeric (numeric.rat 2)) false)
      (ex.numeric (numeric.rat (1 / 2)))
      (ex.symbol 7) (numeric.rat 2) (numeric.rat (1 / 2)) false false 1 (by decide)
      (by simp [plain_env]) rfl rfl
      (by norm_num [numeric.is_zero, numeric.is_equal, numeric.compare])
      (by norm_num [numeric.is_equal, numeric.compare])).2
      (by norm_num [numeric.is_integer, numeric.abs, numeric.less])

/-! ## The rule for an integer power of a product (lines 291-295, 639-664) -/

/-- The loop of `power::expand_mul` treats the pairs one by one, in order. -/
theorem expand_mul_distrseq_eq_map {F : Type} (T : tower F) (E : env F) (n : numeric F)
    (seq : epvector F) :
    power.expand_mul_distrseq T E n seq =
      seq.map (fun p =>
        if p.rest.is_numeric then E.mul_combine_pair_with_coeff_to_pair p (ex.numeric n)
        else ⟨p.rest, ex.numeric (p.coeff.to_numeric.mul T n)⟩) := by
  induction seq with
  | nil => rfl
  | cons p tail ih => simp [power.expand_mul_distrseq, ih]

/-- An integer that compares equal to 1 is the exact rational 1. -/
theorem integer_is_equal_one {F : Type} (T : tower F) (n : numeric F)
    (hint : n.is_integer = true) (h1 : n.is_equal T 1 = true) : n = numeric.rat 1 := by
  cases n with
  | other x => simp [numeric.is_integer] at hint
  | rat q =>
    simp only [numeric.is_equal, numeric.compare, decide_eq_true_eq] at h1
    by_cases hlt : q < 1
    · simp [hlt] at h1
    · by_cases heq : q = 1
      · rw [heq]
      · simp [hlt, heq] at h1

/-- Multiplying a number by the exact rational 1 gives the number. -/
theorem numeric_mul_one {F : Type} (T : tower F) (v : numeric F) :
    v.mul T (numeric.rat 1) = v := by
  cases v with
  | rat q => simp [numeric.mul]
  | other x => simpa [numeric.mul] using T.mul_one x

/-- The first power of a number is the number. -/
theorem numeric_power_one {F : Type} (T : tower F) (v : numeric F) :
    v.power T (numeric.rat 1) = v := by
  cases v with
  | rat q => simp [numeric.power]
  | other x => simpa [numeric.power] using T.power_one x

/-- C4: for a product with sequence `seq` and residual `c` (all coefficients numeric)
and a non-zero integer `n` (with `c` not zero when `n` is negative, so that `c^n`
exists), `power::eval` of the product to the `n` yields a product of the same
length and order in which every pair `(r, e)` with a non-numeric rest has become
`(r, e*n)`, with residual `c^n`.  For `n` other than 1 the product is built by
`power::expand_mul` from the sequence `distrseq`; for `n = 1` it is the evaluated
basis itself, whose pairs and residual have this form. -/
theorem eval_product_integer_power {F : Type} (T : tower F) (E : env F) (basis exponent : ex F)
    (seq : epvector F) (c : ex F) (n : numeric F) (basis_evaluated evaluated : Bool) (level : ℤ)
    (hfast : ¬(level = 1 ∧ evaluated = true)) (hlim : level ≠ -E.max_recursion_level)
    (hb : eval_child T E level basis = Except.ok (ex.mul seq c basis_evaluated))
    (he : eval_child T E level exponent = Except.ok (ex.numeric n))
    (hcoeff : ∀ p ∈ seq, p.coeff.is_numeric = true) (hc : c.is_numeric = true)
    (hint : n.is_integer = true) (hne0 : n.is_zero T = false)
    (_hdef : c.is_zero T = false ∨ n.is_negative T = false) :
    ∃ distrseq : epvector F,
      (ex.eval T E (ex.power basis exponent evaluated) level =
          (if n.is_equal T 1 then Except.ok (ex.mul distrseq (ex.numeric (c.to_numeric.power T n)) basis_evaluated)
           else Except.ok ((E.mul_epvector_coeff distrseq
              (ex.numeric (c.to_numeric.power T n))).to_mul false))) ∧
      (n.is_equal T 1 = false → distrseq = power.expand_mul_distrseq T E n seq) ∧
      distrseq.length = seq.length ∧
      ∀ (i : ℕ) (p : expair (ex F)), seq[i]? = some p → p.rest.is_numeric = false →
        distrseq[i]? = some ⟨p.rest, ex.numeric (p.coeff.to_numeric.mul T n)⟩ := by
  have hrules := eval_power_rules T E basis exponent _ _ evaluated level hfast hlim hb he
  have hsym := eval_rules_symbolic T E basis exponent (ex.mul seq c basis_evaluated)
    (ex.numeric n) hne0
  by_cases h1 : n.is_equal T 1 = true
  · -- the rule ^(x,1) -> x returns the evaluated basis
    have hn : n = numeric.rat 1 := integer_is_equal_one T n hint h1
    refine ⟨seq, ?_, ?_, rfl, ?_⟩
    · rw [hrules, if_pos h1]
      unfold power.eval_rules
      rw [if_neg (by simpa [ex.is_zero] using hne0), if_pos (by simpa [ex.is_equal_exONE] using h1)]
      cases c with
      | numeric v => rw [hn]; simp [ex.to_numeric, numeric_power_one]
      | symbol s => simp [ex.is_numeric] at hc
      | power b e f => simp [ex.is_numeric] at hc
      | add s c f => simp [ex.is_numeric] at hc
      | mul s c f => simp [ex.is_numeric] at hc
    · intro h; rw [h] at h1; cases h1
    · intro i p hp _
      rw [hp, hn, numeric_mul_one]
      have hmem : p ∈ seq := List.getElem?_mem hp
      have hp2 := hcoeff p hmem
      cases p with
      | mk r e =>
        cases e with
        | numeric v => rfl
        | symbol s => simp [ex.is_numeric] at hp2
        | power b e f => simp [ex.is_numeric] at hp2
        | add s c f => simp [ex.is_numeric] at hp2
        | mul s c f => simp [ex.is_numeric] at hp2
  · have h1f : n.is_equal T 1 = false := by simpa using h1
    refine ⟨power.expand_mul_distrseq T E n seq, ?_, fun _ => rfl, ?_, ?_⟩
    · rw [hrules, hsym (by simpa [ex.is_equal_exONE] using h1f) rfl, h1f]
      have hz : n.is_equal T 0 = false := hne0
      simp [power.eval_symbolic, hint, power.expand_mul, hz]
    · simp [expand_mul_distrseq_eq_map]
    · intro i p hp hnum
      simp [expand_mul_distrseq_eq_map, hp, hnum]

/-- C4, at `(x*y)^3` for two symbols x and y: the product handed back has the
pairs `(x, 3)` and `(y, 3)` and the residual 1. -/
theorem eval_product_integer_power_witness :
    ex.eval surd_tower (plain_env surd surd_tower)
        (ex.power (ex.mul [⟨ex.symbol 7, exONE⟩, ⟨ex.symbol 8, exONE⟩] exONE true)
          (ex.numeric (numeric.rat 3)) false) 1
      = Except.ok (ex.mul [⟨ex.symbol 7, ex.numeric (numeric.rat 3)⟩,
          ⟨ex.symbol 8, ex.numeric (numeric.rat 3)⟩] exONE false) := by
  obtain ⟨d, h1, h2, -, -⟩ := eval_product_integer_power surd_tower (plain_env surd surd_tower)
    (ex.mul [⟨ex.symbol 7, exONE⟩, ⟨ex.symbol 8, exONE⟩] exONE true) (ex.numeric (numeric.rat 3))
    [⟨ex.symbol 7, exONE⟩, ⟨ex.symbol 8, exONE⟩] exONE (numeric.rat 3) true false 1
    (by decide) (by simp [plain_env]) rfl rfl
    (by simp [exONE, ex.is_numeric]) rfl
    (by simp [numeric.is_integer])
    (by norm_num [numeric.is_zero, numeric.is_equal, numeric.compare])
    (Or.inr (by norm_num [numeric.is_negative]))
  have h3 : (numeric.rat 3 : numeric surd).is_equal surd_tower 1 = false := by
    norm_num [numeric.is_equal, numeric.compare]
  rw [h1, h2 h3, h3]
  norm_num [power.expand_mul_distrseq, plain_env, ex.is_numeric, ex.to_numeric, numeric.mul,
    numeric.power, expairseq.to_mul, exONE, numONE]

/-! ## The rule for a numeric basis and a numeric exponent (lines 234-272) -/

/-- C5: for a numeric basis `b` and a numeric exponent `e`, neither of them 0 or 1,
such that `b` or `e` is not rational or the exact power `b^e` is rational,
`power::eval` returns exactly the number `b^e`. -/
theorem eval_numeric_power {F : Type} (T : tower F) (E : env F) (basis exponent : ex F)
    (b e : numeric F) (evaluated : Bool) (level : ℤ)
    (hfast : ¬(level = 1 ∧ evaluated = true)) (hlim : level ≠ -E.max_recursion_level)
    (hb : eval_child T E level basis = Except.ok (ex.numeric b))
    (he : eval_child T E level exponent = Except.ok (ex.numeric e))
    (hb0 : b.is_zero T = false) (hb1 : b.is_equal T 1 = false)
    (he0 : e.is_zero T = false) (he1 : e.is_equal T 1 = false)
    (hres : b.is_rational = false ∨ e.is_rational = false ∨ (b.power T e).is_rational = true) :
    ex.eval T E (ex.power basis exponent evaluated) level
      = Except.ok (ex.numeric (b.power T e)) := by
  rw [eval_power_rules T E basis exponent _ _ evaluated level hfast hlim hb he]
  unfold power.eval_rules
  rw [if_neg (by simpa [ex.is_zero] using he0), if_neg (by simpa [ex.is_equal_exONE] using he1),
    if_neg (by simpa [ex.is_zero] using hb0), if_neg (by simpa [ex.is_equal_exONE] using hb1)]
  rcases hres with h | h | h <;> simp [h]

/-- The exact power `8^(2/3)` is the rational 4. -/
theorem power_eight_two_thirds {F : Type} (T : tower F) :
    (numeric.rat 8 : numeric F).power T (numeric.rat (2 / 3)) = numeric.rat 4 := by
  have hden : ((2 : ℚ) / 3).den = 3 := by norm_num
  have hnum : ((2 : ℚ) / 3).num = 2 := by norm_num
  have h8 : numeric.nat_root 3 8 = some 2 := by decide
  have h1 : numeric.nat_root 3 1 = some 1 := by decide
  have hroot : numeric.rat_root 8 3 = some 2 := by
    norm_num [numeric.rat_root, h8, h1]
  simp only [numeric.power, hden, hnum, hroot]
  norm_num

/-- C5, at `8^(2/3)`: the evaluation returns the exact number 4. -/
theorem eval_numeric_power_witness :
    ex.eval surd_tower (plain_env surd surd_tower)
        (ex.power (ex.numeric (numeric.rat 8)) (ex.numeric (numeric.rat (2 / 3))) false) 1
      = Except.ok (ex.numeric (numeric.rat 4)) := by
  have h := eval_numeric_power surd_tower (plain_env surd surd_tower)
    (ex.numeric (numeric.rat 8)) (ex.numeric (numeric.rat (2 / 3)))
    (numeric.rat 8) (numeric.rat (2 / 3)) false 1 (by decide) (by simp [plain_env]) rfl rfl
    (by norm_num [numeric.is_zero, numeric.is_equal, numeric.compare])
    (by norm_num [numeric.is_equal, numeric.compare])
    (by norm_num [numeric.is_zero, numeric.is_equal, numeric.compare])
    (by norm_num [numeric.is_equal, numeric.compare])
    (Or.inr (Or.inr (by rw [power_eight_two_thirds]; rfl)))
  rw [h, power_eight_two_thirds]

/-! ## The decomposition of a rational exponent (lines 250-257) -/

/-- The remainder of the truncating division by a positive number lies above the
negated divisor. -/
theorem neg_lt_tmod (a : ℤ) {b : ℤ} (hb : 0 < b) : -b < Int.tmod a b := by
  rcases le_or_lt 0 a with ha | ha
  · have := Int.tmod_nonneg b ha
    omega
  · have h1 : Int.tmod (-a) b < b := Int.tmod_lt_of_pos (-a) hb
    have h2 : Int.tmod (-a) b = -Int.tmod a b := by
      rw [Int.tmod_def, Int.tmod_def, Int.neg_tdiv]
      ring
    omega

/-- The remainder of the truncating division is not positive when the dividend is negative. -/
theorem tmod_nonpos (a b : ℤ) (ha : a ≤ 0) : Int.tmod a b ≤ 0 := by
  have h1 : 0 ≤ Int.tmod (-a) b := Int.tmod_nonneg b (by omega)
  have h2 : Int.tmod (-a) b = -Int.tmod a b := by
    rw [Int.tmod_def, Int.tmod_def, Int.neg_tdiv]
    ring
  omega

/-- A rational that is not an integer has a numerator that its denominator does not divide. -/
theorem tmod_num_den_ne_zero (e : ℚ) (hnint : e.den ≠ 1) : Int.tmod e.num (e.den : ℤ) ≠ 0 := by
  intro h
  have hdvd : (e.den : ℤ) ∣ e.num := Int.dvd_of_tmod_eq_zero h
  have hcop : Nat.Coprime e.num.natAbs e.den := e.reduced
  have h2 : e.den ∣ e.num.natAbs := Int.natCast_dvd.mp hdvd
  have h3 : e.den ∣ Nat.gcd e.num.natAbs e.den := Nat.dvd_gcd h2 (dvd_refl _)
  rw [hcop] at h3
  exact hnint (Nat.dvd_one.mp h3)

/-- The quotient and the remainder of lines 250-257, for a rational exponent that
is not an integer. -/
theorem eval_quotient_remainder_spec {F : Type} (T : tower F) (e : ℚ) (hnint : e.den ≠ 1) :
    ∃ q r : ℤ,
      power.eval_quotient_remainder T (numeric.rat e) = (numeric.rat q, numeric.rat r) ∧
      e.num = q * e.den + r ∧ 0 < r ∧ r < e.den ∧ q = ⌊e⌋ ∧
      0 < (r : ℚ) / e.den ∧ (r : ℚ) / e.den < 1 ∧ (r : ℚ) / e.den = e - q := by
  have hm : (0 : ℤ) < (e.den : ℤ) := by exact_mod_cast e.den_pos
  have hmq : (0 : ℚ) < (e.den : ℚ) := by exact_mod_cast e.den_pos
  have hdecomp := Int.tmod_add_tdiv e.num (e.den : ℤ)
  have hlt := Int.tmod_lt_of_pos e.num hm
  have hgt := neg_lt_tmod e.num hm
  have hne := tmod_num_den_ne_zero e hnint
  have hval : e = (e.num : ℚ) / (e.den : ℚ) := (Rat.num_div_den e).symm
  -- the arithmetic facts about any pair (q, r) with n = q*m + r and 0 < r < m
  have key : ∀ q r : ℤ, e.num = q * e.den + r → 0 < r → r < e.den →
      q = ⌊e⌋ ∧ 0 < (r : ℚ) / e.den ∧ (r : ℚ) / e.den < 1 ∧ (r : ℚ) / e.den = e - q := by
    intro q r hn h0 hr
    have hrq : (0 : ℚ) < (r : ℚ) := by exact_mod_cast h0
    have hrm : (r : ℚ) < (e.den : ℚ) := by exact_mod_cast hr
    have hnq : (e.num : ℚ) = (q : ℚ) * (e.den : ℚ) + (r : ℚ) := by exact_mod_cast hn
    have hfrac : (r : ℚ) / e.den = e - q := by
      have hmne : (e.den : ℚ) ≠ 0 := ne_of_gt hmq
      rw [div_eq_iff hmne, sub_mul, Rat.mul_den_eq_num, hnq]
      ring
    have hpos : 0 < (r : ℚ) / e.den := div_pos hrq hmq
    have hlt1 : (r : ℚ) / e.den < 1 := (div_lt_one hmq).mpr hrm
    refine ⟨?_, hpos, hlt1, hfrac⟩
    symm
    rw [Int.floor_eq_iff]
    constructor
    · linarith
    · linarith
  by_cases hneg : Int.tmod e.num (e.den : ℤ) < 0
  · refine ⟨Int.tdiv e.num e.den - 1, Int.tmod e.num e.den + e.den, ?_, ?_, ?_, ?_, ?_⟩
    · have hnegq : ((Int.tmod e.num (e.den : ℤ) : ℤ) : ℚ) < 0 := by exact_mod_cast hneg
      simp [power.eval_quotient_remainder, numeric.numer, numeric.denom, numeric.iquo,
        numeric.is_negative, numeric.sub, numeric.add, numONE, hnegq]
    · linarith
    · omega
    · omega
    · exact key _ _ (by linarith) (by omega) (by omega)
  · have hnn : ¬ ((Int.tmod e.num (e.den : ℤ) : ℤ) : ℚ) < 0 := by
      intro h
      exact hneg (by exact_mod_cast h)
    refine ⟨Int.tdiv e.num e.den, Int.tmod e.num e.den, ?_, ?_, ?_, ?_, ?_⟩
    · simp [power.eval_quotient_remainder, numeric.numer, numeric.denom, numeric.iquo,
        numeric.is_negative, hnn]
    · linarith
    · omega
    · omega
    · exact key _ _ (by linarith) (by omega) (by omega)

/-- C7: for a rational exponent `n/m` that is not an integer (in lowest terms,
`m > 0`, `n` of either sign), the quotient `q` and the remainder `r` computed by
`power::eval` satisfy `n = q*m + r` and `0 < r < m`; hence `q` is the floor of
`n/m` and `0 < r/m < 1`. -/
theorem eval_quotient_remainder_floor {F : Type} (T : tower F) (e : ℚ) (hnint : e.den ≠ 1) :
    ∃ q r : ℤ,
      power.eval_quotient_remainder T (numeric.rat e) = (numeric.rat q, numeric.rat r) ∧
      e.num = q * e.den + r ∧ 0 < r ∧ r < e.den ∧ q = ⌊e⌋ ∧
      0 < (r : ℚ) / e.den ∧ (r : ℚ) / e.den < 1 ∧ (r : ℚ) / e.den = e - q :=
  eval_quotient_remainder_spec T e hnint

/-- C7, at the exponents `-3/2` and `7/3`: the quotients are -2 and 2, the
remainders 1 and 1. -/
theorem eval_quotient_remainder_floor_witness :
    power.eval_quotient_remainder surd_tower (numeric.rat (-3 / 2))
      = (numeric.rat (-2), numeric.rat 1) ∧
    power.eval_quotient_remainder surd_tower (numeric.rat (7 / 3))
      = (numeric.rat 2, numeric.rat 1) := by
  constructor
  · obtain ⟨q, r, h, hn, h0, hr, -⟩ :=
      eval_quotient_remainder_floor surd_tower (-3 / 2) (by norm_num)
    have hnum : ((-3 : ℚ) / 2).num = -3 := by norm_num
    have hden : ((-3 : ℚ) / 2).den = 2 := by norm_num
    rw [hnum, hden] at hn
    rw [hden] at hr
    have hq : q = -2 := by omega
    have hr1 : r = 1 := by omega
    rw [h, hq, hr1]
    norm_num
  · obtain ⟨q, r, h, hn, h0, hr, -⟩ :=
      eval_quotient_remainder_floor surd_tower (7 / 3) (by norm_num)
    have hnum : ((7 : ℚ) / 3).num = 7 := by norm_num
    have hden : ((7 : ℚ) / 3).den = 3 := by norm_num
    rw [hnum, hden] at hn
    rw [hden] at hr
    have hq : q = 2 := by omega
    have hr1 : r = 1 := by omega
    rw [h, hq, hr1]
    norm_num

/-! ## Rational basis and exponent with an irrational power (lines 245-272) -/

/-- A rational that is not an integer is neither 0 nor 1. -/
theorem non_integer_ne {F : Type} (T : tower F) (e : ℚ) (hnint : e.den ≠ 1) :
    (numeric.rat e : numeric F).is_zero T = false ∧
    (numeric.rat e : numeric F).is_equal T 1 = false := by
  have h0 : e ≠ 0 := by
    intro h; rw [h] at hnint; exact hnint rfl
  have h1 : e ≠ 1 := by
    intro h; rw [h] at hnint; exact hnint rfl
  constructor
  · simp only [numeric.is_zero, numeric.is_equal, numeric.compare, decide_eq_false_iff_not]
    by_cases hlt : e < 0
    · simp [hlt]
    · simp [hlt, h0]
  · simp only [numeric.is_equal, numeric.compare, decide_eq_false_iff_not]
    by_cases hlt : e < 1
    · simp [hlt]
    · simp [hlt, h1]

/-- The exact rational `q` is zero, as a number, exactly when `q = 0`. -/
theorem rat_is_zero_iff {F : Type} (T : tower F) (q : ℚ) :
    (numeric.rat q : numeric F).is_zero T = true ↔ q = 0 := by
  simp only [numeric.is_zero, numeric.is_equal, numeric.compare, decide_eq_true_eq]
  by_cases hlt : q < 0
  · simp [hlt, ne_of_lt hlt]
  · by_cases h0 : q = 0
    · simp [h0]
    · simp [hlt, h0]

/-- What lines 245-272 of `power::eval` return for a rational basis `b` (not 0,
not 1) and a rational exponent `e` that is not an integer, when the exact power
is not rational: the held node when the floor of `e` is 0, and otherwise a
product built from the four pairs that `res` holds after `epvector res(2)` and
the two `push_back`. -/
theorem eval_rules_irrational_power {F : Type} (T : tower F) (E : env F) (basis exponent : ex F)
    (b e : ℚ) (hb0 : b ≠ 0) (hb1 : b ≠ 1) (hnint : e.den ≠ 1)
    (hirr : ((numeric.rat b).power T (numeric.rat e)).is_rational = false) :
    power.eval_rules T E basis exponent (ex.numeric (numeric.rat b)) (ex.numeric (numeric.rat e)) =
      if ⌊e⌋ = 0 then Except.ok (ex.power basis exponent true)
      else Except.ok ((E.mul_epvector
        [expair.default, expair.default,
         ⟨ex.numeric (numeric.rat b), ex.numeric (numeric.rat (e - ⌊e⌋))⟩,
         ⟨ex.numeric ((numeric.rat b).power T (numeric.rat ⌊e⌋)), exONE⟩]).to_mul true) := by
  obtain ⟨q, r, hqr, -, -, -, hq, -, -, hfrac⟩ := eval_quotient_remainder_spec T e hnint
  obtain ⟨he0, he1⟩ := non_integer_ne T e hnint
  have hbz : (numeric.rat b : numeric F).is_zero T = false := by
    have := (rat_is_zero_iff T b).not.mpr hb0
    simpa using this
  have hbo : (numeric.rat b : numeric F).is_equal T 1 = false := by
    simp only [numeric.is_equal, numeric.compare, decide_eq_false_iff_not]
    by_cases hlt : b < 1
    · simp [hlt]
    · simp [hlt, hb1]
  have hint : (numeric.rat e : numeric F).is_integer = false := by
    simp [numeric.is_integer, hnint]
  unfold power.eval_rules
  rw [if_neg (by simpa [ex.is_zero] using he0), if_neg (by simpa [ex.is_equal_exONE] using he1),
    if_neg (by simpa [ex.is_zero] using hbz), if_neg (by simpa [ex.is_equal_exONE] using hbo)]
  have hbr : (numeric.rat b : numeric F).is_rational = true := rfl
  have her : (numeric.rat e : numeric F).is_rational = true := rfl
  subst hq
  simp only [hirr, hbr, her, numeric.is_real, hint, hqr, Bool.not_true, Bool.or_self,
    Bool.false_eq_true, if_false, Bool.not_false, Bool.and_self, if_true]
  by_cases hq0 : ⌊e⌋ = 0
  · have : (numeric.rat ((⌊e⌋ : ℤ) : ℚ) : numeric F).is_zero T = true := by
      rw [rat_is_zero_iff]; exact_mod_cast hq0
    rw [if_pos this, if_pos hq0]
  · have : (numeric.rat ((⌊e⌋ : ℤ) : ℚ) : numeric F).is_zero T = false := by
      have h := (rat_is_zero_iff T ((⌊e⌋ : ℤ) : ℚ)).not.mpr (by exact_mod_cast hq0)
      simpa using h
    rw [if_neg (by simp [this]), if_neg hq0]
    simp [numeric.denom, numeric.div, hfrac]

/-- C8: for a rational basis `b` (not 0, not 1) and a rational exponent `e` that is
not an integer, with an exact power that is not rational, `power::eval` returns
the node itself, held, if and only if `0 < e < 1`. -/
theorem eval_irrational_power_held {F : Type} (T : tower F) (E : env F) (basis exponent : ex F)
    (b e : ℚ) (evaluated : Bool) (level : ℤ)
    (hfast : ¬(level = 1 ∧ evaluated = true)) (hlim : level ≠ -E.max_recursion_level)
    (hb : eval_child T E level basis = Except.ok (ex.numeric (numeric.rat b)))
    (he : eval_child T E level exponent = Except.ok (ex.numeric (numeric.rat e)))
    (hb0 : b ≠ 0) (hb1 : b ≠ 1) (hnint : e.den ≠ 1)
    (hirr : ((numeric.rat b).power T (numeric.rat e)).is_rational = false) :
    ex.eval T E (ex.power basis exponent evaluated) level = Except.ok (ex.power basis exponent true)
      ↔ (0 < e ∧ e < 1) := by
  rw [eval_power_rules T E basis exponent _ _ evaluated level hfast hlim hb he,
    eval_rules_irrational_power T E basis exponent b e hb0 hb1 hnint hirr]
  have he0 : e ≠ 0 := by
    intro h; rw [h] at hnint; exact hnint rfl
  have hfloor : ⌊e⌋ = 0 ↔ (0 < e ∧ e < 1) := by
    rw [Int.floor_eq_iff]
    constructor
    · rintro ⟨h1, h2⟩
      refine ⟨lt_of_le_of_ne (by simpa using h1) (Ne.symm he0), by simpa using h2⟩
    · rintro ⟨h1, h2⟩
      exact ⟨by simpa using le_of_lt h1, by simpa using h2⟩
  by_cases hq0 : ⌊e⌋ = 0
  · simp [hq0, hfloor.mp hq0]
  · have hno : ¬(0 < e ∧ e < 1) := fun h => hq0 (hfloor.mpr h)
    rw [if_neg hq0]
    simp [expairseq.to_mul, hno]

/-- The number 2 has no rational square root: its powers with an exponent of
denominator 2 are not exact rationals. -/
theorem power_two_half_irrational {F : Type} (T : tower F) (e : ℚ) (hden : e.den = 2) :
    ((numeric.rat 2 : numeric F).power T (numeric.rat e)).is_rational = false := by
  have h2 : numeric.nat_root 2 2 = none := by decide
  have hroot : numeric.rat_root 2 2 = none := by
    norm_num [numeric.rat_root, h2]
  simp [numeric.power, hden, hroot, numeric.is_rational]

/-- C8, at `2^(1/2)`: the evaluation returns the node itself, held. -/
theorem eval_irrational_power_held_witness :
    ex.eval surd_tower (plain_env surd surd_tower)
        (ex.power (ex.numeric (numeric.rat 2)) (ex.numeric (numeric.rat (1 / 2))) false) 1
      = Except.ok (ex.power (ex.numeric (numeric.rat 2)) (ex.numeric (numeric.rat (1 / 2))) true) :=
  (eval_irrational_power_held surd_tower (plain_env surd surd_tower)
    (ex.numeric (numeric.rat 2)) (ex.numeric (numeric.rat (1 / 2))) 2 (1 / 2) false 1
    (by decide) (by simp [plain_env]) rfl rfl (by norm_num) (by norm_num) (by norm_num)
    (power_two_half_irrational surd_tower (1 / 2) (by norm_num))).mpr (by norm_num)

/-- C6: at `2^(3/2)`, `power::eval` hands four pairs to the constructor of the
product, not two: the two default pairs `(0, 1)` that `epvector res(2)` creates,
followed by `(2, 1/2)` and `(2, 1)`. -/
theorem eval_two_to_three_halves :
    ex.eval surd_tower (plain_env surd surd_tower)
        (ex.power (ex.numeric (numeric.rat 2)) (ex.numeric (numeric.rat (3 / 2))) false) 1
      = Except.ok (((plain_env surd surd_tower).mul_epvector
          [⟨ex.numeric (numeric.rat 0), ex.numeric (numeric.rat 1)⟩,
           ⟨ex.numeric (numeric.rat 0), ex.numeric (numeric.rat 1)⟩,
           ⟨ex.numeric (numeric.rat 2), ex.numeric (numeric.rat (1 / 2))⟩,
           ⟨ex.numeric (numeric.rat 2), ex.numeric (numeric.rat 1)⟩]).to_mul true) := by
  have hfloor : ⌊(3 / 2 : ℚ)⌋ = 1 := by
    rw [Int.floor_eq_iff]; norm_num
  rw [eval_power_rules surd_tower (plain_env surd surd_tower) _ _ (ex.numeric (numeric.rat 2))
      (ex.numeric (numeric.rat (3 / 2))) false 1 (by decide) (by simp [plain_env]) rfl rfl,
    eval_rules_irrational_power surd_tower (plain_env surd surd_tower) _ _ 2 (3 / 2)
      (by norm_num) (by norm_num) (by norm_num)
      (power_two_half_irrational surd_tower (3 / 2) (by norm_num)), hfloor]
  norm_num [expair.default, exONE, numONE, numeric.power]

/-! ## The rule that extracts the residual of a product (lines 297-327) -/

/-- A negative number is not positive. -/
theorem numeric_negative_not_positive {F : Type} (T : tower F) (c : numeric F)
    (h : c.is_negative T = true) : c.is_positive T = false := by
  cases c with
  | rat q =>
    simp only [numeric.is_negative, decide_eq_true_eq] at h
    simp only [numeric.is_positive, decide_eq_false_iff_not, not_lt]
    exact le_of_lt h
  | other x => exact T.negative_not_positive x h

/-- A positive number is its own absolute value. -/
theorem numeric_abs_of_positive {F : Type} (T : tower F) (c : numeric F)
    (h : c.is_positive T = true) : c.abs T = c := by
  cases c with
  | rat q =>
    simp only [numeric.is_positive, decide_eq_true_eq] at h
    simp [numeric.abs, abs_of_pos h]
  | other x => exact T.abs_of_positive x h

/-- C9: for a product `P` with sequence `s` and a real residual `c` that is not 0, 1
or -1, and a numeric exponent `e` that is not an integer, `power::eval` of `P^e`
returns the product of exactly two factors, `P'^e` and `|c|^e`, where `P'` has
the sequence `s` and the residual 1 when `c > 0` and -1 when `c < 0`, so that
the residual of `P'` times `|c|` is `c`; when `c` is -1 or is not real, nothing
is extracted and the evaluated node `P^e` is returned. -/
theorem eval_product_residual {F : Type} (T : tower F) (E : env F) (basis : ex F)
    (s : epvector F) (c e : numeric F) (basis_evaluated evaluated : Bool) (level : ℤ)
    (hfast : ¬(level = 1 ∧ evaluated = true)) (hlim : level ≠ -E.max_recursion_level)
    (hb : eval_child T E level basis = Except.ok (ex.mul s (ex.numeric c) basis_evaluated))
    (he : eval_child T E level (ex.numeric e) = Except.ok (ex.numeric e))
    (hnint : e.is_integer = false) (he0 : e.is_zero T = false) (he1 : e.is_equal T 1 = false)
    (hc1 : c.is_equal T 1 = false) :
    (c.is_positive T = true →
      ex.eval T E (ex.power basis (ex.numeric e) evaluated) level
        = Except.ok ((E.mul_ex_ex (ex.power (ex.mul s exONE false) (ex.numeric e) false)
            (ex.power (ex.numeric (c.abs T)) (ex.numeric e) false)).to_mul false)) ∧
    (c.is_negative T = true → c.compare T (-1) ≠ 0 →
      ex.eval T E (ex.power basis (ex.numeric e) evaluated) level
        = Except.ok ((E.mul_ex_ex (ex.power (ex.mul s exMINUSONE false) (ex.numeric e) false)
            (ex.power (ex.numeric (c.abs T)) (ex.numeric e) false)).to_mul false)) ∧
    (c.is_real T = false ∨ (c.is_positive T = false ∧ c.compare T (-1) = 0) →
      ex.eval T E (ex.power basis (ex.numeric e) evaluated) level
        = Except.ok (ex.power (ex.mul s (ex.numeric c) basis_evaluated) (ex.numeric e) true)) ∧
    (∀ q : ℚ, c = numeric.rat q →
      (0 < q → (numONE : numeric F).mul T (c.abs T) = c) ∧
      (q < 0 → (numMINUSONE : numeric F).mul T (c.abs T) = c)) := by
  have hrules := eval_power_rules T E basis (ex.numeric e) _ _ evaluated level hfast hlim hb he
  have hsym := eval_rules_symbolic T E basis (ex.numeric e) (ex.mul s (ex.numeric c) basis_evaluated)
    (ex.numeric e) he0 he1 rfl
  rw [hrules, hsym]
  have hc1' : (ex.numeric c).is_equal_exONE T = false := hc1
  refine ⟨?_, ?_, ?_, ?_⟩
  · intro hpos
    have hreal : c.is_real T = true := by
      cases c with
      | rat q => rfl
      | other x => exact T.positive_is_real x hpos
    simp [power.eval_symbolic, hnint, hc1', ex.to_numeric, hreal, hpos,
      numeric_abs_of_positive T c hpos]
  · intro hneg hm1
    have hreal : c.is_real T = true := by
      cases c with
      | rat q => rfl
      | other x => exact T.negative_is_real x hneg
    have hnpos := numeric_negative_not_positive T c hneg
    simp [power.eval_symbolic, hnint, hc1', ex.to_numeric, hreal, hnpos, hm1]
  · rintro (hnr | ⟨hnpos, hm1⟩)
    · simp [power.eval_symbolic, hnint, hc1', ex.to_numeric, hnr]
    · by_cases hreal : c.is_real T = true
      · simp [power.eval_symbolic, hnint, hc1', ex.to_numeric, hreal, hnpos, hm1]
      · simp [power.eval_symbolic, hnint, hc1', ex.to_numeric, hreal]
  · intro q hq
    subst hq
    constructor
    · intro h
      simp [numeric.abs, numeric.mul, numONE, abs_of_pos h]
    · intro h
      simp [numeric.abs, numeric.mul, numMINUSONE, abs_of_neg h]

/-- C9, at `(-4*x)^(1/2)`, `(4*x)^(1/2)` and `(-x)^(1/2)` for a symbol x: the first
gives the two factors `(-x)^(1/2)` and `4^(1/2)`, the second the two factors
`x^(1/2)` and `4^(1/2)`, the third is returned as an evaluated node. -/
theorem eval_product_residual_witness :
    ex.eval surd_tower (plain_env surd surd_tower)
        (ex.power (ex.mul [⟨ex.symbol 7, exONE⟩] (ex.numeric (numeric.rat (-4))) true)
          (ex.numeric (numeric.rat (1 / 2))) false) 1
      = Except.ok (ex.mul
          [⟨ex.power (ex.mul [⟨ex.symbol 7, exONE⟩] exMINUSONE false)
              (ex.numeric (numeric.rat (1 / 2))) false, exONE⟩,
           ⟨ex.power (ex.numeric (numeric.rat 4)) (ex.numeric (numeric.rat (1 / 2))) false, exONE⟩]
          exONE false) ∧
    ex.eval surd_tower (plain_env surd surd_tower)
        (ex.power (ex.mul [⟨ex.symbol 7, exONE⟩] (ex.numeric (numeric.rat 4)) true)
          (ex.numeric (numeric.rat (1 / 2))) false) 1
      = Except.ok (ex.mul
          [⟨ex.power (ex.mul [⟨ex.symbol 7, exONE⟩] exONE false)
              (ex.numeric (numeric.rat (1 / 2))) false, exONE⟩,
           ⟨ex.power (ex.numeric (numeric.rat 4)) (ex.numeric (numeric.rat (1 / 2))) false, exONE⟩]
          exONE false) ∧
    ex.eval surd_tower (plain_env surd surd_tower)
        (ex.power (ex.mul [⟨ex.symbol 7, exONE⟩] (ex.numeric (numeric.rat (-1))) true)
          (ex.numeric (numeric.rat (1 / 2))) false) 1
      = Except.ok (ex.power (ex.mul [⟨ex.symbol 7, exONE⟩] (ex.numeric (numeric.rat (-1))) true)
          (ex.numeric (numeric.rat (1 / 2))) true) := by
  refine ⟨?_, ?_, ?_⟩
  · have h := (eval_product_residual surd_tower (plain_env surd surd_tower)
      (ex.mul [⟨ex.symbol 7, exONE⟩] (ex.numeric (numeric.rat (-4))) true)
      [⟨ex.symbol 7, exONE⟩] (numeric.rat (-4)) (numeric.rat (1 / 2)) true false 1
      (by decide) (by simp [plain_env]) rfl rfl
      (by norm_num [numeric.is_integer])
      (by norm_num [numeric.is_zero, numeric.is_equal, numeric.compare])
      (by norm_num [numeric.is_equal, numeric.compare])
      (by norm_num [numeric.is_equal, numeric.compare])).2.1
      (by norm_num [numeric.is_negative]) (by norm_num [numeric.compare])
    rw [h]
    norm_num [plain_env, expairseq.to_mul, numeric.abs]
  · have h := (eval_product_residual surd_tower (plain_env surd surd_tower)
      (ex.mul [⟨ex.symbol 7, exONE⟩] (ex.numeric (numeric.rat 4)) true)
      [⟨ex.symbol 7, exONE⟩] (numeric.rat 4) (numeric.rat (1 / 2)) true false 1
      (by decide) (by simp [plain_env]) rfl rfl
      (by norm_num [numeric.is_integer])
      (by norm_num [numeric.is_zero, numeric.is_equal, numeric.compare])
      (by norm_num [numeric.is_equal, numeric.compare])
      (by norm_num [numeric.is_equal, numeric.compare])).1
      (by norm_num [numeric.is_positive])
    rw [h]
    norm_num [plain_env, expairseq.to_mul, numeric.abs]
  · exact (eval_product_residual surd_tower (plain_env surd surd_tower)
      (ex.mul [⟨ex.symbol 7, exONE⟩] (ex.numeric (numeric.rat (-1))) true)
      [⟨ex.symbol 7, exONE⟩] (numeric.rat (-1)) (numeric.rat (1 / 2)) true false 1
      (by decide) (by simp [plain_env]) rfl rfl
      (by norm_num [numeric.is_integer])
      (by norm_num [numeric.is_zero, numeric.is_equal, numeric.compare])
      (by norm_num [numeric.is_equal, numeric.compare])
      (by norm_num [numeric.is_equal, numeric.compare])).2.2.1
      (Or.inr ⟨by norm_num [numeric.is_positive], by norm_num [numeric.compare]⟩)

/-! ## The loop of `power::expand_add`: the vectors `k`, `k_cum`, `upper_limit` -/

/-- Reading a vector after one entry was written. -/
theorem getD_set (v : List ℤ) (i j : ℕ) (a : ℤ) :
    (v.set i a).getD j 0 = if j = i ∧ i < v.length then a else v.getD j 0 := by
  simp only [List.getD_eq_getElem?_getD, List.getElem?_set]
  by_cases h : i = j
  · subst h
    by_cases h2 : i < v.length
    · simp [h2]
    · simp [h2]
      rw [List.getElem?_eq_none (by omega)]
      rfl
  · have : ¬ (j = i) := fun h' => h h'.symm
    simp [h, this]

/-- Reading the entry that was written. -/
theorem getD_set_self (v : List ℤ) (i : ℕ) (a : ℤ) (h : i < v.length) :
    (v.set i a).getD i 0 = a := by
  rw [getD_set, if_pos ⟨rfl, h⟩]

/-- Reading another entry than the one that was written. -/
theorem getD_set_ne (v : List ℤ) (i j : ℕ) (a : ℤ) (h : j ≠ i) :
    (v.set i a).getD j 0 = v.getD j 0 := by
  rw [getD_set, if_neg (fun hh => h hh.1)]

/-- The loop that increments `k` is left with `l < 0` when no entry below `l + 1`
can be incremented. -/
theorem increment_k_none (ul : List ℤ) (lp1 : ℕ) (k : List ℤ) (hlen : lp1 ≤ k.length)
    (h : ∀ i, i < lp1 → ul.getD i 0 < k.getD i 0 + 1) :
    (power.increment_k ul lp1 k).2 = none := by
  induction lp1 generalizing k with
  | zero => rfl
  | succ l ih =>
    have hl : l < k.length := by omega
    have h1 : ul.getD l 0 < (k.set l (k.getD l 0 + 1)).getD l 0 := by
      rw [getD_set_self _ _ _ hl]; exact h l (by omega)
    unfold power.increment_k
    simp only [gt_iff_lt, h1, if_true]
    apply ih
    · rw [List.length_set, List.length_set]; omega
    · intro i hi
      rw [getD_set_ne _ _ _ _ (by omega), getD_set_ne _ _ _ _ (by omega)]
      exact h i (by omega)

/-- The loop that increments `k` stops at the last entry `l` that can be
incremented: this entry is incremented, the entries behind it are zero, the
entries before it are untouched. -/
theorem increment_k_some (ul : List ℤ) (lp1 l : ℕ) (k : List ℤ) (hl : l < lp1)
    (hlen : lp1 ≤ k.length) (hstop : k.getD l 0 + 1 ≤ ul.getD l 0)
    (hcarry : ∀ i, l < i → i < lp1 → ul.getD i 0 < k.getD i 0 + 1) :
    ∃ k1, power.increment_k ul lp1 k = (k1, some l) ∧ k1.length = k.length ∧
      ∀ j, k1.getD j 0 =
        if j = l then k.getD l 0 + 1 else if l < j ∧ j < lp1 then 0 else k.getD j 0 := by
  induction lp1 generalizing k with
  | zero => omega
  | succ p ih =>
    have hp : p < k.length := by omega
    unfold power.increment_k
    by_cases hpl : p = l
    · subst hpl
      have h1 : ¬ ul.getD p 0 < (k.set p (k.getD p 0 + 1)).getD p 0 := by
        rw [getD_set_self _ _ _ hp]; omega
      simp only [gt_iff_lt, h1, if_false]
      refine ⟨_, rfl, by rw [List.length_set], ?_⟩
      intro j
      by_cases hj : j = p
      · rw [hj, getD_set_self _ _ _ hp, if_pos rfl]
      · rw [getD_set_ne _ _ _ _ hj, if_neg hj, if_neg (by omega)]
    · have hlp : l < p := by omega
      have h1 : ul.getD p 0 < (k.set p (k.getD p 0 + 1)).getD p 0 := by
        rw [getD_set_self _ _ _ hp]; exact hcarry p hlp (by omega)
      simp only [gt_iff_lt, h1, if_true]
      obtain ⟨k1, h2, h3, h4⟩ := ih ((k.set p (k.getD p 0 + 1)).set p 0) hlp
        (by rw [List.length_set, List.length_set]; omega)
        (by rw [getD_set_ne _ _ _ _ (by omega), getD_set_ne _ _ _ _ (by omega)]; exact hstop)
        (by
          intro i hi1 hi2
          rw [getD_set_ne _ _ _ _ (by omega), getD_set_ne _ _ _ _ (by omega)]
          exact hcarry i hi1 (by omega))
      refine ⟨k1, h2, by rw [h3, List.length_set, List.length_set], ?_⟩
      intro j
      rw [h4 j]
      by_cases hj : j = l
      · rw [if_pos hj, if_pos hj, getD_set_ne _ _ _ _ (by omega), getD_set_ne _ _ _ _ (by omega)]
      · rw [if_neg hj, if_neg hj]
        by_cases hj2 : l < j ∧ j < p
        · rw [if_pos hj2, if_pos ⟨hj2.1, by omega⟩]
        · rw [if_neg hj2]
          by_cases hjp : j = p
          · rw [if_pos (by omega), hjp, getD_set_self _ _ _ (by rw [List.length_set]; exact hp)]
          · rw [if_neg (by omega), getD_set_ne _ _ _ _ hjp, getD_set_ne _ _ _ _ hjp]

/-- The loop of lines 530-532 leaves the entries outside `[i, i + cnt)` as they
are and makes every entry inside the sum of its predecessor and of `k`. -/
theorem recalc_k_cum_spec (k : List ℤ) (i cnt : ℕ) (kc : List ℤ) (hi : 1 ≤ i)
    (hlen : i + cnt ≤ kc.length) :
    (power.recalc_k_cum k i cnt kc).length = kc.length ∧
    (∀ j, j < i ∨ i + cnt ≤ j → (power.recalc_k_cum k i cnt kc).getD j 0 = kc.getD j 0) ∧
    (∀ j, i ≤ j → j < i + cnt →
      (power.recalc_k_cum k i cnt kc).getD j 0
        = (power.recalc_k_cum k i cnt kc).getD (j - 1) 0 + k.getD j 0) := by
  induction cnt generalizing i kc with
  | zero =>
    refine ⟨rfl, fun j _ => rfl, ?_⟩
    intro j h1 h2; omega
  | succ c ih =>
    unfold power.recalc_k_cum
    obtain ⟨h1, h2, h3⟩ := ih (i + 1) (kc.set i (kc.getD (i - 1) 0 + k.getD i 0)) (by omega)
      (by rw [List.length_set]; omega)
    refine ⟨by rw [h1, List.length_set], ?_, ?_⟩
    · intro j hj
      rw [h2 j (by omega), getD_set_ne _ _ _ _ (by omega)]
    · intro j hj1 hj2
      by_cases hji : j = i
      · subst hji
        rw [h2 j (by omega), h2 (j - 1) (by omega), getD_set_self _ _ _ (by omega),
          getD_set_ne _ _ _ _ (by omega)]
      · exact h3 j (by omega) (by omega)

/-- The loop of lines 534-536 leaves the entries outside `[i, i + cnt)` as they
are and makes every entry inside `n` minus the entry of `k_cum` before it. -/
theorem recalc_upper_limit_spec (n : ℤ) (kc : List ℤ) (i cnt : ℕ) (ul : List ℤ)
    (hlen : i + cnt ≤ ul.length) :
    (power.recalc_upper_limit n kc i cnt ul).length = ul.length ∧
    (∀ j, j < i ∨ i + cnt ≤ j → (power.recalc_upper_limit n kc i cnt ul).getD j 0 = ul.getD j 0) ∧
    (∀ j, i ≤ j → j < i + cnt →
      (power.recalc_upper_limit n kc i cnt ul).getD j 0 = n - kc.getD (j - 1) 0) := by
  induction cnt generalizing i ul with
  | zero =>
    refine ⟨rfl, fun j _ => rfl, ?_⟩
    intro j h1 h2; omega
  | succ c ih =>
    unfold power.recalc_upper_limit
    obtain ⟨h1, h2, h3⟩ := ih (i + 1) (ul.set i (n - kc.getD (i - 1) 0))
      (by rw [List.length_set]; omega)
    refine ⟨by rw [h1, List.length_set], ?_, ?_⟩
    · intro j hj
      rw [h2 j (by omega), getD_set_ne _ _ _ _ (by omega)]
    · intro j hj1 hj2
      by_cases hji : j = i
      · subst hji
        rw [h2 j (by omega), getD_set_self _ _ _ (by omega)]
      · exact h3 j (by omega) (by omega)

/-- A sum of binomial coefficients along a diagonal. -/
theorem sum_choose_diagonal (e a y : ℕ) :
    (∑ i in Finset.Ico a (a + e), Nat.choose (y + (a + e - 1 - i)) (a + e - i)) + 1
      = Nat.choose (y + e) e := by
  induction e generalizing a with
  | zero => simp
  | succ e ih =>
    rw [Finset.sum_eq_sum_Ico_succ_bot (by omega)]
    have h := ih (a + 1)
    have hfa : Nat.choose (y + (a + (e + 1) - 1 - a)) (a + (e + 1) - a)
        = Nat.choose (y + e) (e + 1) := by
      have h1 : a + (e + 1) - 1 - a = e := by omega
      have h2 : a + (e + 1) - a = e + 1 := by omega
      rw [h1, h2]
    have hsum : (∑ i in Finset.Ico (a + 1) (a + (e + 1)),
          Nat.choose (y + (a + (e + 1) - 1 - i)) (a + (e + 1) - i))
        = ∑ i in Finset.Ico (a + 1) (a + 1 + e),
          Nat.choose (y + (a + 1 + e - 1 - i)) (a + 1 + e - i) := by
      have : a + (e + 1) = a + 1 + e := by omega
      rw [this]
    have hpascal : Nat.choose (y + (e + 1)) (e + 1)
        = Nat.choose (y + e) e + Nat.choose (y + e) (e + 1) := by
      rw [← add_assoc, Nat.choose_succ_succ]
    rw [hfa, hsum, hpascal]
    omega

/-- Among the indices below `d` that satisfy `P` there is a last one. -/
theorem exists_last_index (P : ℕ → Prop) (d : ℕ) (h : ∃ l, l < d ∧ P l) :
    ∃ l, l < d ∧ P l ∧ ∀ i, l < i → i < d → ¬ P i := by
  induction d with
  | zero => obtain ⟨l, hl, -⟩ := h; omega
  | succ d ih =>
    by_cases hd : P d
    · exact ⟨d, by omega, hd, fun i h1 h2 => by omega⟩
    · obtain ⟨l, hl, hP⟩ := h
      have hld : l < d := by
        rcases Nat.lt_succ_iff_lt_or_eq.mp hl with h1 | h1
        · exact h1
        · subst h1; exact absurd hP hd
      obtain ⟨l1, h1, h2, h3⟩ := ih ⟨l, hld, hP⟩
      refine ⟨l1, by omega, h2, ?_⟩
      intro i hi1 hi2
      by_cases hid : i = d
      · subst hid; exact hd
      · exact h3 i hi1 (by omega)

/-- The vectors set up by lines 461-465 satisfy the relations of the loop. -/
theorem counters_init_inv (n : ℤ) (d : ℕ) (hn : 0 ≤ n) :
    power.counters_inv n d (power.counters_init (d + 1) n) := by
  have hrep : ∀ (a : ℤ) (i : ℕ), (List.replicate d a).getD i 0 = if i < d then a else 0 := by
    intro a i
    rw [List.getD_eq_getElem?_getD, List.getElem?_replicate]
    by_cases h : i < d
    · simp [h]
    · simp [h]
  refine ⟨by simp [power.counters_init], by simp [power.counters_init],
    by simp [power.counters_init], ?_, ?_, ?_⟩
  · intro i hi
    simp only [power.counters_init, Nat.add_sub_cancel, hrep, hi, if_true]
    exact ⟨le_refl 0, hn⟩
  · intro i hi
    simp only [power.counters_init, Nat.add_sub_cancel, hrep, hi, if_true]
    by_cases h0 : i = 0
    · rw [if_pos h0]
    · rw [if_neg h0, if_pos (by omega)]; ring
  · intro i hi
    simp only [power.counters_init, Nat.add_sub_cancel, hrep, hi, if_true]
    by_cases h0 : i = 0
    · rw [if_pos h0, if_pos (by omega)]
    · rw [if_neg h0, if_pos (by omega)]; ring

/-- After the set-up of lines 461-465 the number of passes to come is one less
than the binomial coefficient. -/
theorem counters_init_rank (n : ℤ) (d : ℕ) :
    power.counters_rank d (power.counters_init (d + 1) n) + 1 = Nat.choose (n.toNat + d) d := by
  have hrep : ∀ (a : ℤ) (i : ℕ), (List.replicate d a).getD i 0 = if i < d then a else 0 := by
    intro a i
    rw [List.getD_eq_getElem?_getD, List.getElem?_replicate]
    by_cases h : i < d
    · simp [h]
    · simp [h]
  have h := sum_choose_diagonal d 0 n.toNat
  rw [← h]
  congr 1
  unfold power.counters_rank
  rw [Finset.range_eq_Ico]
  apply Finset.sum_congr (by simp)
  intro i hi
  have hi2 : i < d := by simpa using hi
  simp only [power.counters_init, Nat.add_sub_cancel, hrep, hi2, if_true, sub_zero, zero_add]

/-- The arithmetic of one step of the loop: the passes to come after the step,
plus one, are the passes to come before it. -/
theorem rank_step_arith (d l y : ℕ) (hl : l < d) :
    Nat.choose (y + (d - 1 - l)) (d - l)
      + (∑ i in Finset.Ico (l + 1) d, Nat.choose (y + (d - 1 - i)) (d - i)) + 1
      = Nat.choose (y + 1 + (d - 1 - l)) (d - l) := by
  obtain ⟨e, rfl⟩ : ∃ e, d = l + 1 + e := ⟨d - (l + 1), by omega⟩
  have h := sum_choose_diagonal e (l + 1) y
  have h1 : l + 1 + e - 1 - l = e := by omega
  have h2 : l + 1 + e - l = e + 1 := by omega
  have hpascal : Nat.choose (y + 1 + e) (e + 1)
      = Nat.choose (y + e) e + Nat.choose (y + e) (e + 1) := by
    rw [show y + 1 + e = (y + e) + 1 by omega, Nat.choose_succ_succ]
  rw [h1, h2, hpascal]
  omega

/-- One pass of lines 517-536 on vectors that satisfy the relations of the loop:
either the loop is left, and no pass was to come, or the new vectors satisfy
the relations again and one pass less is to come. -/
theorem counters_next_spec (n : ℤ) (d : ℕ) (c : power.counters) (hinv : power.counters_inv n d c) :
    (power.counters_next n (d + 1) c = none ∧ power.counters_rank d c = 0) ∨
    (∃ c1, power.counters_next n (d + 1) c = some c1 ∧ power.counters_inv n d c1 ∧
      power.counters_rank d c1 + 1 = power.counters_rank d c) := by
  obtain ⟨hk, hkc, hul, hb, hU, hK⟩ := hinv
  by_cases hex : ∃ l, l < d ∧ c.k.getD l 0 + 1 ≤ c.upper_limit.getD l 0
  · right
    obtain ⟨l, hl, hstop, hlast⟩ :=
      exists_last_index (fun l => c.k.getD l 0 + 1 ≤ c.upper_limit.getD l 0) d hex
    have hcarry : ∀ i, l < i → i < d → c.upper_limit.getD i 0 < c.k.getD i 0 + 1 :=
      fun i h1 h2 => not_le.mp (hlast i h1 h2)
    obtain ⟨k1, hinc, hlen1, hk1⟩ :=
      increment_k_some c.upper_limit d l c.k hl (by omega) hstop hcarry
    -- the entries of the new `k`
    have hk1_lt : ∀ j, j < l → k1.getD j 0 = c.k.getD j 0 := by
      intro j hj; rw [hk1 j, if_neg (by omega), if_neg (by omega)]
    have hk1_l : k1.getD l 0 = c.k.getD l 0 + 1 := by rw [hk1 l, if_pos rfl]
    have hk1_gt : ∀ j, l < j → j < d → k1.getD j 0 = 0 := by
      intro j h1 h2; rw [hk1 j, if_neg (by omega), if_pos ⟨h1, h2⟩]
    -- the value written at `k_cum[l]`
    obtain ⟨v, hv, hkc0⟩ : ∃ v : ℤ,
        (v = if l = 0 then k1.getD 0 0 else c.k_cum.getD (l - 1) 0 + k1.getD l 0) ∧
        (if l = 0 then c.k_cum.set 0 (k1.getD 0 0)
          else c.k_cum.set l (c.k_cum.getD (l - 1) 0 + k1.getD l 0)) = c.k_cum.set l v := by
      refine ⟨_, rfl, ?_⟩
      by_cases h0 : l = 0
      · subst h0; simp
      · simp [h0]
    obtain ⟨hr1, hr2, hr3⟩ := recalc_k_cum_spec k1 (l + 1) (d - (l + 1)) (c.k_cum.set l v)
      (by omega) (by rw [List.length_set]; omega)
    obtain ⟨hu1, hu2, hu3⟩ := recalc_upper_limit_spec n
      (power.recalc_k_cum k1 (l + 1) (d - (l + 1)) (c.k_cum.set l v)) (l + 1) (d - (l + 1))
      c.upper_limit (by omega)
    have hnext : power.counters_next n (d + 1) c = some
        ⟨k1, power.recalc_k_cum k1 (l + 1) (d - (l + 1)) (c.k_cum.set l v),
          power.recalc_upper_limit n
            (power.recalc_k_cum k1 (l + 1) (d - (l + 1)) (c.k_cum.set l v)) (l + 1)
            (d - (l + 1)) c.upper_limit⟩ := by
      unfold power.counters_next
      simp only [Nat.add_sub_cancel, hinc, hkc0]
    generalize hkcdef : power.recalc_k_cum k1 (l + 1) (d - (l + 1)) (c.k_cum.set l v) = kc1
      at hr1 hr2 hr3 hu1 hu2 hu3 hnext
    generalize huldef : power.recalc_upper_limit n kc1 (l + 1) (d - (l + 1)) c.upper_limit = ul1
      at hu1 hu2 hu3 hnext
    rw [List.length_set] at hr1
    -- the entries of the new `k_cum`
    have hkc1_lt : ∀ j, j < l → kc1.getD j 0 = c.k_cum.getD j 0 := by
      intro j hj; rw [hr2 j (by omega), getD_set_ne _ _ _ _ (by omega)]
    have hkc1_l : kc1.getD l 0 = v := by
      rw [hr2 l (by omega), getD_set_self _ _ _ (by omega)]
    have hkc1_gt : ∀ j, l ≤ j → j < d → kc1.getD j 0 = v := by
      intro j hj
      induction j, hj using Nat.le_induction with
      | base => intro _; exact hkc1_l
      | succ j hj ih =>
        intro hjd
        rw [hr3 (j + 1) (by omega) (by omega), Nat.add_sub_cancel, ih (by omega),
          hk1_gt (j + 1) (by omega) hjd, add_zero]
    -- the entries of the new `upper_limit`
    have hul1_le : ∀ j, j ≤ l → ul1.getD j 0 = c.upper_limit.getD j 0 := by
      intro j hj; exact hu2 j (by omega)
    have hul1_gt : ∀ j, l < j → j < d → ul1.getD j 0 = n - v := by
      intro j h1 h2
      rw [hu3 j (by omega) (by omega), hkc1_gt (j - 1) (by omega) (by omega)]
    -- `n - v` is one less than the room left at `l`
    have hnv : n - v = c.upper_limit.getD l 0 - c.k.getD l 0 - 1 := by
      rw [hv, hU l hl]
      by_cases h0 : l = 0
      · subst h0; rw [if_pos rfl, if_pos rfl, hk1_l]; ring
      · rw [if_neg h0, if_neg h0, hk1_l]; ring
    refine ⟨_, hnext, ⟨hlen1.trans hk, hr1.trans hkc, hu1.trans hul, ?_, ?_, ?_⟩, ?_⟩
    · -- the bounds on `k`
      intro j hj
      show 0 ≤ k1.getD j 0 ∧ k1.getD j 0 ≤ ul1.getD j 0
      rcases lt_trichotomy j l with h | h | h
      · rw [hk1_lt j h, hul1_le j (by omega)]; exact hb j hj
      · subst h
        rw [hk1_l, hul1_le j (le_refl j)]
        exact ⟨by have := (hb j hj).1; omega, hstop⟩
      · rw [hk1_gt j h hj, hul1_gt j h hj, hnv]
        exact ⟨le_refl 0, by omega⟩
    · -- `upper_limit` against `k_cum`
      intro j hj
      show ul1.getD j 0 = if j = 0 then n else n - kc1.getD (j - 1) 0
      by_cases hjl : j ≤ l
      · rw [hul1_le j hjl, hU j hj]
        by_cases h0 : j = 0
        · rw [if_pos h0, if_pos h0]
        · rw [if_neg h0, if_neg h0, hkc1_lt (j - 1) (by omega)]
      · rw [hul1_gt j (by omega) hj, if_neg (by omega), hkc1_gt (j - 1) (by omega) (by omega)]
    · -- `k_cum` against `k`
      intro j hj
      show kc1.getD j 0 = if j = 0 then k1.getD 0 0 else kc1.getD (j - 1) 0 + k1.getD j 0
      rcases lt_trichotomy j l with h | h | h
      · rw [hkc1_lt j h, hK j hj]
        by_cases h0 : j = 0
        · rw [if_pos h0, if_pos h0, hk1_lt 0 (by omega)]
        · rw [if_neg h0, if_neg h0, hkc1_lt (j - 1) (by omega), hk1_lt j h]
      · subst h
        rw [hkc1_l, hv]
        by_cases h0 : j = 0
        · rw [if_pos h0, if_pos h0]
        · rw [if_neg h0, if_neg h0, hkc1_lt (j - 1) (by omega)]
      · rw [hkc1_gt j (by omega) hj, if_neg (by omega), hkc1_gt (j - 1) (by omega) (by omega),
          hk1_gt j h hj, add_zero]
    · -- the number of passes to come
      show power.counters_rank d ⟨k1, kc1, ul1⟩ + 1 = power.counters_rank d c
      obtain ⟨y, hy⟩ : ∃ y : ℕ, c.upper_limit.getD l 0 - c.k.getD l 0 = (y : ℤ) + 1 :=
        ⟨(c.upper_limit.getD l 0 - c.k.getD l 0 - 1).toNat, by omega⟩
      unfold power.counters_rank
      rw [← Finset.sum_range_add_sum_Ico _ (le_of_lt hl),
        ← Finset.sum_range_add_sum_Ico
          (fun i => Nat.choose ((c.upper_limit.getD i 0 - c.k.getD i 0).toNat + (d - 1 - i)) (d - i))
          (le_of_lt hl),
        Finset.sum_eq_sum_Ico_succ_bot hl, Finset.sum_eq_sum_Ico_succ_bot hl]
      have hfront : (∑ i in Finset.range l,
            Nat.choose ((ul1.getD i 0 - k1.getD i 0).toNat + (d - 1 - i)) (d - i))
          = ∑ i in Finset.range l,
            Nat.choose ((c.upper_limit.getD i 0 - c.k.getD i 0).toNat + (d - 1 - i)) (d - i) := by
        apply Finset.sum_congr rfl
        intro i hi
        have hi2 : i < l := by simpa using hi
        rw [hul1_le i (by omega), hk1_lt i hi2]
      have hback_old : (∑ i in Finset.Ico (l + 1) d,
            Nat.choose ((c.upper_limit.getD i 0 - c.k.getD i 0).toNat + (d - 1 - i)) (d - i)) = 0 := by
        apply Finset.sum_eq_zero
        intro i hi
        obtain ⟨hi1, hi2⟩ := Finset.mem_Ico.mp hi
        have h1 := hcarry i (by omega) hi2
        have h2 := (hb i hi2).2
        have h3 : (c.upper_limit.getD i 0 - c.k.getD i 0).toNat = 0 := by omega
        rw [h3, zero_add]
        exact Nat.choose_eq_zero_of_lt (by omega)
      have hback_new : (∑ i in Finset.Ico (l + 1) d,
            Nat.choose ((ul1.getD i 0 - k1.getD i 0).toNat + (d - 1 - i)) (d - i))
          = ∑ i in Finset.Ico (l + 1) d, Nat.choose (y + (d - 1 - i)) (d - i) := by
        apply Finset.sum_congr rfl
        intro i hi
        obtain ⟨hi1, hi2⟩ := Finset.mem_Ico.mp hi
        rw [hul1_gt i (by omega) hi2, hk1_gt i (by omega) hi2, hnv]
        have : (c.upper_limit.getD l 0 - c.k.getD l 0 - 1 - 0).toNat = y := by omega
        rw [this]
      have hl_new : (ul1.getD l 0 - k1.getD l 0).toNat = y := by
        rw [hul1_le l (le_refl l), hk1_l]; omega
      have hl_old : (c.upper_limit.getD l 0 - c.k.getD l 0).toNat = y + 1 := by omega

      rw [hfront, hback_old, hback_new, hl_new, hl_old]
      have := rank_step_arith d l y hl
      omega
  · left
    have hall : ∀ i, i < d → c.upper_limit.getD i 0 < c.k.getD i 0 + 1 := by
      intro i hi
      by_contra h
      exact hex ⟨i, hi, not_lt.mp h⟩
    constructor
    · have h := increment_k_none c.upper_limit d c.k (by omega) hall
      unfold power.counters_next
      simp only [Nat.add_sub_cancel]
      rcases hinc : power.increment_k c.upper_limit d c.k with ⟨k1, o⟩
      rw [hinc] at h
      simp only at h
      subst h
      rfl
    · unfold power.counters_rank
      apply Finset.sum_eq_zero
      intro i hi
      have hi2 : i < d := by simpa using hi
      have h1 := hall i hi2
      have h2 := (hb i hi2).2
      have h3 : (c.upper_limit.getD i 0 - c.k.getD i 0).toNat = 0 := by omega
      rw [h3, zero_add]
      exact Nat.choose_eq_zero_of_lt (by omega)

/-- The loop of `expand_add`, started on vectors that satisfy its relations with
more passes allowed than are to come, reaches its `break`, and has then pushed
one term for the current pass and one for every pass to come. -/
theorem expand_add_loop_length {F : Type} (T : tower F) (E : env F) (a : expairseq F) (n : ℤ)
    (d : ℕ) (fuel : ℕ) (c : power.counters) (acc : exvector F)
    (hinv : power.counters_inv n d c) (hfuel : power.counters_rank d c < fuel) :
    ∃ sum, power.expand_add_loop T E a n (d + 1) fuel c acc = some sum ∧
      sum.length = acc.length + power.counters_rank d c + 1 := by
  induction fuel generalizing c acc with
  | zero => omega
  | succ fuel ih =>
    unfold power.expand_add_loop
    rcases counters_next_spec n d c hinv with ⟨hnone, hrank⟩ | ⟨c1, hsome, hinv1, hrank⟩
    · refine ⟨_, by rw [hnone], ?_⟩
      rw [hrank, List.length_append, List.length_singleton]
    · obtain ⟨sum, h1, h2⟩ := ih c1
        (acc ++ [(E.mul_exvector (power.expand_add_term T E a n (d + 1) c)).to_mul false])
        hinv1 (by omega)
      refine ⟨sum, by rw [hsome]; exact h1, ?_⟩
      rw [h2, List.length_append, List.length_singleton]
      omega

/-- The inner loop of `expand_add_2` pushes one pair for every pair behind the
current one. -/
theorem expand_add_2_cross_length {F : Type} (T : tower F) (E : env F) (r c : ex F)
    (tail : epvector F) : (power.expand_add_2_cross T E r c tail).length = tail.length := by
  induction tail with
  | nil => rfl
  | cons p tail ih => simp [power.expand_add_2_cross, ih]

/-- The first part of `expand_add_2` pushes `s*(s+1)/2` pairs for a sequence of
`s` pairs. -/
theorem expand_add_2_first_length {F : Type} (T : tower F) (E : env F) (seq : epvector F) :
    2 * (power.expand_add_2_first T E seq).length = seq.length * (seq.length + 1) := by
  induction seq with
  | nil => rfl
  | cons p tail ih =>
    simp only [power.expand_add_2_first, List.length_append, List.length_cons,
      expand_add_2_cross_length]
    have : 2 * (tail.length + 1 + (power.expand_add_2_first T E tail).length)
        = 2 * (tail.length + 1) + 2 * (power.expand_add_2_first T E tail).length := by ring
    rw [this, ih]
    ring

/-- The second part of `expand_add_2` pushes nothing when the overall coefficient
is zero, and one pair for every pair of the sum plus one otherwise. -/
theorem expand_add_2_second_length {F : Type} (T : tower F) (E : env F) (a : expairseq F) :
    (power.expand_add_2_second T E a).length
      = if a.overall_coeff.is_zero T then 0 else a.seq.length + 1 := by
  unfold power.expand_add_2_second
  by_cases h : a.overall_coeff.is_zero T = true
  · simp [h]
  · simp [h]

/-- The vector `sum` of `expand_add_2(a)` has `m*(m+1)/2` pairs, `m = a.nops()`. -/
theorem expand_add_2_sum_length {F : Type} (T : tower F) (E : env F) (a : expairseq F) :
    2 * (power.expand_add_2_sum T E a).length = a.add_nops T * (a.add_nops T + 1) := by
  unfold power.expand_add_2_sum expairseq.add_nops
  rw [List.length_append, expand_add_2_second_length, Nat.mul_add, expand_add_2_first_length]
  by_cases h : a.overall_coeff.is_zero T = true
  · simp [h]
  · simp [h]; ring

/-- C10: for a sum `a` with `m = a.nops() >= 2` operands and an integer `n >= 0`,
`power::expand_add(a, n)` hands exactly `C(n+m-1, m-1)` terms to the constructor
of the sum: for `n` other than 2 its loop reaches the `break` after that many
passes, each pushing one product; for `n = 2` the vector of `expand_add_2` has
`m*(m+1)/2 = C(m+1, 2)` pairs, which is the same number.  For `m = 3` the number
is `C(n+2, 2)`. -/
theorem expand_add_count {F : Type} (T : tower F) (E : env F) (a : expairseq F) (n : ℤ)
    (hn : 0 ≤ n) (hm : 2 ≤ a.add_nops T) :
    (n ≠ 2 → ∀ fuel, Nat.choose (n.toNat + a.add_nops T - 1) (a.add_nops T - 1) ≤ fuel →
      ∃ sum, power.expand_add_sum T E a n fuel = some sum ∧
        power.expand_add T E a n fuel = some ((E.add_exvector sum).to_add false) ∧
        sum.length = Nat.choose (n.toNat + a.add_nops T - 1) (a.add_nops T - 1)) ∧
    (n = 2 → ∀ fuel,
      power.expand_add T E a n fuel
          = some ((E.add_epvector (power.expand_add_2_sum T E a)).to_add false) ∧
        (power.expand_add_2_sum T E a).length = a.add_nops T * (a.add_nops T + 1) / 2 ∧
        a.add_nops T * (a.add_nops T + 1) / 2
          = Nat.choose (n.toNat + a.add_nops T - 1) (a.add_nops T - 1)) ∧
    (a.add_nops T = 3 →
      Nat.choose (n.toNat + a.add_nops T - 1) (a.add_nops T - 1) = Nat.choose (n.toNat + 2) 2) := by
  obtain ⟨d, hd⟩ : ∃ d, a.add_nops T = d + 1 := ⟨a.add_nops T - 1, by omega⟩
  refine ⟨?_, ?_, ?_⟩
  · intro hn2 fuel hfuel
    have hchoose : Nat.choose (n.toNat + a.add_nops T - 1) (a.add_nops T - 1)
        = Nat.choose (n.toNat + d) d := by
      rw [hd]; rfl
    have hrank := counters_init_rank n d
    obtain ⟨sum, h1, h2⟩ := expand_add_loop_length T E a n d fuel
      (power.counters_init (d + 1) n) [] (counters_init_inv n d hn) (by omega)
    have hsum : power.expand_add_sum T E a n fuel = some sum := by
      unfold power.expand_add_sum
      rw [hd]; exact h1
    refine ⟨sum, hsum, ?_, ?_⟩
    · unfold power.expand_add
      rw [if_neg hn2, hsum]; rfl
    · rw [h2, hchoose, ← hrank]; simp
  · intro hn2 fuel
    have hlen := expand_add_2_sum_length T E a
    refine ⟨?_, by omega, ?_⟩
    · unfold power.expand_add
      rw [if_pos hn2]; rfl
    · subst hn2
      rw [hd]
      have h1 : (2 : ℤ).toNat + (d + 1) - 1 = d + 2 := by
        have : (2 : ℤ).toNat = 2 := rfl
        omega
      have h2 : d + 1 - 1 = d := by omega
      have h3 : Nat.choose (d + 2) d = Nat.choose (d + 2) 2 := by
        have := Nat.choose_symm (show 2 ≤ d + 2 by omega)
        rw [← this, Nat.add_sub_cancel]
      have h4 : (d + 1) * (d + 1 + 1) = (d + 2) * (d + 2 - 1) := by
        have : d + 2 - 1 = d + 1 := by omega
        rw [this]; ring
      rw [h1, h2, h3, Nat.choose_two_right, h4]
  · intro h3
    rw [h3]
    have : n.toNat + 3 - 1 = n.toNat + 2 := by omega
    rw [this]

/-- C10, at the third power of the sum `x + y + z` of three symbols and at the second
power of `x + y`: the loop of `expand_add` pushes `C(5, 2) = 10` products, the
vector of `expand_add_2` has `2*3/2 = 3` pairs. -/
theorem expand_add_count_witness :
    (∃ sum, power.expand_add_sum surd_tower (plain_env surd surd_tower)
        ⟨[⟨ex.symbol 7, exONE⟩, ⟨ex.symbol 8, exONE⟩, ⟨ex.symbol 9, exONE⟩], exZERO⟩ 3 10 = some sum ∧
      sum.length = 10) ∧
    (power.expand_add_2_sum surd_tower (plain_env surd surd_tower)
        ⟨[⟨ex.symbol 7, exONE⟩, ⟨ex.symbol 8, exONE⟩], exZERO⟩).length = 3 := by
  have hz : (exZERO : ex surd).is_zero surd_tower = true := by
    norm_num [exZERO, numZERO, ex.is_zero, numeric.is_zero, numeric.is_equal, numeric.compare]
  have hnops3 : expairseq.add_nops surd_tower
      (⟨[⟨ex.symbol 7, exONE⟩, ⟨ex.symbol 8, exONE⟩, ⟨ex.symbol 9, exONE⟩], exZERO⟩ : expairseq surd)
      = 3 := by
    simp [expairseq.add_nops, hz]
  have hnops2 : expairseq.add_nops surd_tower
      (⟨[⟨ex.symbol 7, exONE⟩, ⟨ex.symbol 8, exONE⟩], exZERO⟩ : expairseq surd) = 2 := by
    simp [expairseq.add_nops, hz]
  constructor
  · obtain ⟨sum, h1, -, h2⟩ := (expand_add_count surd_tower (plain_env surd surd_tower)
      ⟨[⟨ex.symbol 7, exONE⟩, ⟨ex.symbol 8, exONE⟩, ⟨ex.symbol 9, exONE⟩], exZERO⟩ 3
      (by norm_num) (by rw [hnops3]; norm_num)).1 (by norm_num) 10
      (by rw [hnops3]; decide)
    refine ⟨sum, h1, ?_⟩
    rw [h2, hnops3]
    decide
  · have h := ((expand_add_count surd_tower (plain_env surd surd_tower)
      ⟨[⟨ex.symbol 7, exONE⟩, ⟨ex.symbol 8, exONE⟩], exZERO⟩ 2
      (by norm_num) (by rw [hnops2])).2.1 rfl 0).2.1
    rw [h, hnops2]

/-! ## The rules for an exponent 1 and a basis 1 (lines 218-220, 230-232) -/

/-- C19: whatever the evaluated basis is, 0 included, `power::eval` of a node whose
evaluated exponent equals 1 (and does not equal 0, the case of the rule before)
returns the evaluated basis itself. -/
theorem eval_exponent_one {F : Type} (T : tower F) (E : env F) (basis exponent ebasis eexponent : ex F)
    (evaluated : Bool) (level : ℤ)
    (hfast : ¬(level = 1 ∧ evaluated = true)) (hlim : level ≠ -E.max_recursion_level)
    (hb : eval_child T E level basis = Except.ok ebasis)
    (he : eval_child T E level exponent = Except.ok eexponent)
    (hne0 : eexponent.is_zero T = false) (hone : eexponent.is_equal_exONE T = true) :
    ex.eval T E (ex.power basis exponent evaluated) level = Except.ok ebasis := by
  rw [eval_power_rules T E basis exponent ebasis eexponent evaluated level hfast hlim hb he]
  unfold power.eval_rules
  rw [if_neg (by simp [hne0]), if_pos hone]

/-- C19, at `x^1` for a symbol x and at `0^1`, evaluated with the default level 0:
the results are x and 0. -/
theorem eval_exponent_one_witness :
    ex.eval surd_tower (plain_env surd surd_tower)
        (ex.power (ex.symbol 7) (ex.numeric (numeric.rat 1)) false) 0
      = Except.ok (ex.symbol 7) ∧
    ex.eval surd_tower (plain_env surd surd_tower)
        (ex.power (ex.numeric (numeric.rat 0)) (ex.numeric (numeric.rat 1)) false) 0
      = Except.ok (ex.numeric (numeric.rat 0)) :=
  ⟨eval_exponent_one surd_tower (plain_env surd surd_tower) (ex.symbol 7)
      (ex.numeric (numeric.rat 1)) (ex.symbol 7) (ex.numeric (numeric.rat 1))
      false 0 (by decide) (by simp [plain_env]) (by simp [eval_child, ex.eval, plain_env])
      (by simp [eval_child, ex.eval, plain_env])
      (by norm_num [ex.is_zero, numeric.is_zero, numeric.is_equal, numeric.compare])
      (by norm_num [ex.is_equal_exONE, numeric.is_equal, numeric.compare]),
   eval_exponent_one surd_tower (plain_env surd surd_tower) (ex.numeric (numeric.rat 0))
      (ex.numeric (numeric.rat 1)) (ex.numeric (numeric.rat 0)) (ex.numeric (numeric.rat 1))
      false 0 (by decide) (by simp [plain_env]) (by simp [eval_child, ex.eval, plain_env])
      (by simp [eval_child, ex.eval, plain_env])
      (by norm_num [ex.is_zero, numeric.is_zero, numeric.is_equal, numeric.compare])
      (by norm_num [ex.is_equal_exONE, numeric.is_equal, numeric.compare])⟩

/-- The constant 1 is equal to 1. -/
theorem exONE_is_equal_exONE {F : Type} (T : tower F) :
    (exONE : ex F).is_equal_exONE T = true := by
  simp [exONE, numONE, ex.is_equal_exONE, numeric.is_equal, numeric.compare]

/-- C20: whatever the evaluated exponent is, numeric or symbolic, negative included,
`power::eval` of a node whose evaluated basis equals 1 (and does not equal 0, the
case of the rule before) raises no error and returns the number 1: the constant
1, or, when the exponent is 1, the evaluated basis, which is 1. -/
theorem eval_basis_one {F : Type} (T : tower F) (E : env F) (basis exponent ebasis eexponent : ex F)
    (evaluated : Bool) (level : ℤ)
    (hfast : ¬(level = 1 ∧ evaluated = true)) (hlim : level ≠ -E.max_recursion_level)
    (hb : eval_child T E level basis = Except.ok ebasis)
    (he : eval_child T E level exponent = Except.ok eexponent)
    (hb0 : ebasis.is_zero T = false) (hb1 : ebasis.is_equal_exONE T = true) :
    ∃ r, ex.eval T E (ex.power basis exponent evaluated) level = Except.ok r ∧
      r.is_equal_exONE T = true ∧
      (eexponent.is_equal_exONE T = false → r = exONE) ∧
      (ebasis = exONE → r = exONE) := by
  rw [eval_power_rules T E basis exponent ebasis eexponent evaluated level hfast hlim hb he]
  unfold power.eval_rules
  by_cases h0 : eexponent.is_zero T = true
  · rw [if_pos h0]
    exact ⟨exONE, rfl, exONE_is_equal_exONE T, fun _ => rfl, fun _ => rfl⟩
  · rw [if_neg h0]
    by_cases h1 : eexponent.is_equal_exONE T = true
    · rw [if_pos h1]
      refine ⟨ebasis, rfl, hb1, ?_, fun h => h⟩
      intro h; rw [h1] at h; cases h
    · rw [if_neg h1, if_neg (by simp [hb0]), if_pos hb1]
      exact ⟨exONE, rfl, exONE_is_equal_exONE T, fun _ => rfl, fun _ => rfl⟩

/-- C20, at `1^x` for a symbol x and at `1^(-1)`, evaluated with the default level
0: both are the number 1. -/
theorem eval_basis_one_witness :
    ex.eval surd_tower (plain_env surd surd_tower)
        (ex.power (ex.numeric (numeric.rat 1)) (ex.symbol 7) false) 0
      = Except.ok exONE ∧
    ex.eval surd_tower (plain_env surd surd_tower)
        (ex.power (ex.numeric (numeric.rat 1)) (ex.numeric (numeric.rat (-1))) false) 0
      = Except.ok exONE := by
  constructor
  · obtain ⟨r, h1, -, -, h2⟩ := eval_basis_one surd_tower (plain_env surd surd_tower)
      (ex.numeric (numeric.rat 1)) (ex.symbol 7) (ex.numeric (numeric.rat 1)) (ex.symbol 7)
      false 0 (by decide) (by simp [plain_env]) (by simp [eval_child, ex.eval, plain_env])
      (by simp [eval_child, ex.eval, plain_env])
      (by norm_num [ex.is_zero, numeric.is_zero, numeric.is_equal, numeric.compare])
      (by norm_num [ex.is_equal_exONE, numeric.is_equal, numeric.compare])
    rw [h1, h2 rfl]
  · obtain ⟨r, h1, -, -, h2⟩ := eval_basis_one surd_tower (plain_env surd surd_tower)
      (ex.numeric (numeric.rat 1)) (ex.numeric (numeric.rat (-1))) (ex.numeric (numeric.rat 1))
      (ex.numeric (numeric.rat (-1)))
      false 0 (by decide) (by simp [plain_env]) (by simp [eval_child, ex.eval, plain_env])
      (by simp [eval_child, ex.eval, plain_env])
      (by norm_num [ex.is_zero, numeric.is_zero, numeric.is_equal, numeric.compare])
      (by norm_num [ex.is_equal_exONE, numeric.is_equal, numeric.compare])
    rw [h1, h2 rfl]

/-! ## The fast path of an evaluated node and the recursion limit (lines 191-198) -/

/-- On a node that carries the evaluated flag, `power::eval(1)` is the node. -/
theorem eval_flagged_level_one {F : Type} (T : tower F) (E : env F) (basis exponent : ex F) :
    ex.eval T E (ex.power basis exponent true) 1 = Except.ok (ex.power basis exponent true) := by
  rw [eval_power, if_pos ⟨rfl, rfl⟩]

/-- The rewrite rules of `power::eval` never raise the recursion-limit error. -/
theorem eval_rules_ne_limit {F : Type} (T : tower F) (E : env F) (basis exponent ebasis eexponent : ex F) :
    power.eval_rules T E basis exponent ebasis eexponent
      ≠ Except.error error.max_recursion_level_reached := by
  unfold power.eval_rules
  split_ifs <;> try (intro h; cases h)
  split
  · dsimp only
    split_ifs <;> intro h <;> cases h
  · intro h; cases h

/-- C17, as stated, fails: the node `x^0` carrying the evaluated flag, evaluated
with the default level 0, is rewritten to 1, and with the level
`-max_recursion_level` its evaluation fails. -/
theorem eval_flagged_not_returned :
    ex.eval surd_tower (plain_env surd surd_tower)
        (ex.power (ex.symbol 7) (ex.numeric (numeric.rat 0)) true) 0
      = Except.ok exONE ∧
    ex.eval surd_tower (plain_env surd surd_tower)
        (ex.power (ex.symbol 7) (ex.numeric (numeric.rat 0)) true) (-1024)
      = Except.error error.max_recursion_level_reached := by
  constructor
  · rw [eval_power_rules surd_tower (plain_env surd surd_tower) (ex.symbol 7)
      (ex.numeric (numeric.rat 0)) (ex.symbol 7) (ex.numeric (numeric.rat 0)) true 0
      (by decide) (by simp [plain_env]) (by simp [eval_child, ex.eval, plain_env])
      (by simp [eval_child, ex.eval, plain_env])]
    unfold power.eval_rules
    rw [if_pos (by norm_num [ex.is_zero, numeric.is_zero, numeric.is_equal, numeric.compare])]
  · rw [eval_power, if_neg (by decide), if_pos (by simp [plain_env])]

/-- C17, amended: for every power node carrying the evaluated flag, `power::eval`
called with level 1 returns the node itself, same basis, same exponent, same
flag, whatever the basis and the exponent are; called with another level it
does not look at the flag: it does what it does on the same node without the
flag. -/
theorem eval_flagged_returned {F : Type} (T : tower F) (E : env F) (basis exponent : ex F)
    (level : ℤ) :
    ex.eval T E (ex.power basis exponent true) 1 = Except.ok (ex.power basis exponent true) ∧
    (level ≠ 1 →
      ex.eval T E (ex.power basis exponent true) level
        = ex.eval T E (ex.power basis exponent false) level) := by
  constructor
  · rw [eval_power, if_pos ⟨rfl, rfl⟩]
  · intro hl
    rw [eval_power, eval_power, if_neg (show ¬(level = 1 ∧ true = true) from fun h => hl h.1),
      if_neg (show ¬(level = 1 ∧ false = true) from fun h => hl h.1)]

/-- C17 amended, at the held node `2^(1/2)` with level 1, and at the node `x^0` with
the level 0, where it evaluates to 1 with the flag as without. -/
theorem eval_flagged_returned_witness :
    ex.eval surd_tower (plain_env surd surd_tower)
        (ex.power (ex.numeric (numeric.rat 2)) (ex.numeric (numeric.rat (1 / 2))) true) 1
      = Except.ok (ex.power (ex.numeric (numeric.rat 2)) (ex.numeric (numeric.rat (1 / 2))) true) ∧
    ex.eval surd_tower (plain_env surd surd_tower)
        (ex.power (ex.symbol 7) (ex.numeric (numeric.rat 0)) true) 0
      = ex.eval surd_tower (plain_env surd surd_tower)
        (ex.power (ex.symbol 7) (ex.numeric (numeric.rat 0)) false) 0 :=
  ⟨(eval_flagged_returned surd_tower (plain_env surd surd_tower)
      (ex.numeric (numeric.rat 2)) (ex.numeric (numeric.rat (1 / 2))) 1).1,
   (eval_flagged_returned surd_tower (plain_env surd surd_tower)
      (ex.symbol 7) (ex.numeric (numeric.rat 0)) 0).2 (by decide)⟩

/-! ## Results that carry the evaluated flag are returned unchanged -/

/-- A product built by a constructor is not a power node. -/
theorem to_mul_ne_power {F : Type} (s : expairseq F) (f : Bool) (b x : ex F) (g : Bool) :
    s.to_mul f ≠ ex.power b x g := by
  intro h; cases h

/-- The result of `expand_mul` is not a power node. -/
theorem expand_mul_ne_power {F : Type} (T : tower F) (E : env F) (seq : epvector F)
    (oc : ex F) (n : numeric F) (b x : ex F) (g : Bool) :
    power.expand_mul T E seq oc n ≠ ex.power b x g := by
  unfold power.expand_mul
  split_ifs
  · intro h; cases h
  · exact to_mul_ne_power _ _ _ _ _

/-- When lines 275-334 return a power node that carries the evaluated flag, it
is the node of the evaluated basis and exponent, whatever the unevaluated
exponent is. -/
theorem eval_symbolic_flagged {F : Type} (T : tower F) (E : env F)
    (x eb ee rb re : ex F)
    (h : power.eval_symbolic T E x eb ee = ex.power rb re true) :
    rb = eb ∧ re = ee ∧ ∀ x1, power.eval_symbolic T E x1 eb ee = ex.power eb ee true := by
  unfold power.eval_symbolic at h ⊢
  split at h
  · split at h
    · split_ifs at h with h1
      · cases h
      · cases h
        refine ⟨rfl, rfl, fun x1 => ?_⟩
        simp [h1]
    · cases h
      refine ⟨rfl, rfl, fun x1 => ?_⟩
      simp
  · dsimp only at h
    split_ifs at h with h1 h2 h3 h4 h5
    · exact absurd h (expand_mul_ne_power _ _ _ _ _ _ _ _)
    · exact absurd h (to_mul_ne_power _ _ _ _ _)
    · exact absurd h (to_mul_ne_power _ _ _ _ _)
    · cases h
      refine ⟨rfl, rfl, fun x1 => ?_⟩
      simp [h1, h2, h3, h4, h5]
    · cases h
      refine ⟨rfl, rfl, fun x1 => ?_⟩
      simp [h1, h2, h3]
    · cases h
      refine ⟨rfl, rfl, fun x1 => ?_⟩
      simp [h1, h2]
  · cases h
    refine ⟨rfl, rfl, fun x1 => ?_⟩
    simp

/-- When the rewrite rules return a power node that carries the evaluated flag
and the evaluated exponent is not 1, the node is the held node of line 259, or
it is the node of the evaluated basis and exponent, and then the rules return
it for every unevaluated basis and exponent. -/
theorem eval_rules_flagged {F : Type} (T : tower F) (E : env F) (b x eb ee rb re : ex F)
    (hne1 : ee.is_equal_exONE T = false)
    (h : power.eval_rules T E b x eb ee = Except.ok (ex.power rb re true)) :
    (rb = b ∧ re = x) ∨
    (rb = eb ∧ re = ee ∧
      ∀ b1 x1, power.eval_rules T E b1 x1 eb ee = Except.ok (ex.power eb ee true)) := by
  unfold power.eval_rules at h
  by_cases h0 : ee.is_zero T = true
  · rw [if_pos h0] at h; cases h
  rw [if_neg h0, if_neg (by simp [hne1])] at h
  by_cases hb0 : eb.is_zero T = true
  · rw [if_pos hb0] at h
    split_ifs at h
    cases h
  rw [if_neg hb0] at h
  by_cases hb1 : eb.is_equal_exONE T = true
  · rw [if_pos hb1] at h; cases h
  rw [if_neg hb1] at h
  split at h
  · dsimp only at h
    split_ifs at h with h1 h2 h3
    · cases h
    · cases h
      exact Or.inl ⟨rfl, rfl⟩
    · simp only [Except.ok.injEq] at h
      exact absurd h (to_mul_ne_power _ _ _ _ _)
    · simp only [Except.ok.injEq] at h
      obtain ⟨e1, e2, e3⟩ := eval_symbolic_flagged T E x _ _ rb re h
      right
      refine ⟨e1, e2, fun b1 x1 => ?_⟩
      unfold power.eval_rules
      rw [if_neg h0, if_neg (by simp [hne1]), if_neg hb0, if_neg hb1]
      dsimp only
      rw [if_neg h1, if_neg h2, e3 x1]
  · rename_i hneg
    simp only [Except.ok.injEq] at h
    obtain ⟨e1, e2, e3⟩ := eval_symbolic_flagged T E x _ _ rb re h
    right
    refine ⟨e1, e2, fun b1 x1 => ?_⟩
    unfold power.eval_rules
    rw [if_neg h0, if_neg (by simp [hne1]), if_neg hb0, if_neg hb1]
    split
    · exact (hneg _ _ rfl rfl).elim
    · rw [e3 x1]

/-- For every power node p and level on which `power::eval` succeeds with a
result r that is a power node carrying the evaluated flag (the held node of
lines 259 and 331, the node built at line 333), evaluating r again with level 1
returns r unchanged; when r is p itself, held, evaluating r again with the
same level returns r unchanged; and when the evaluated exponent of p is not 1
(r is not the basis handed back by the rule `x^1 -> x`) and the basis and the
exponent of r evaluate to themselves at that level, evaluating r again with the
same level returns r unchanged. -/
theorem eval_evaluated_result_fixed {F : Type} (T : tower F) (E : env F)
    (basis exponent rbasis rexponent : ex F) (evaluated : Bool) (level : ℤ)
    (h : ex.eval T E (ex.power basis exponent evaluated) level
      = Except.ok (ex.power rbasis rexponent true)) :
    ex.eval T E (ex.power rbasis rexponent true) 1 = Except.ok (ex.power rbasis rexponent true) ∧
    (rbasis = basis → rexponent = exponent →
      ex.eval T E (ex.power rbasis rexponent true) level
        = Except.ok (ex.power rbasis rexponent true)) ∧
    (∀ eexponent, eval_child T E level exponent = Except.ok eexponent →
      eexponent.is_equal_exONE T = false →
      eval_child T E level rbasis = Except.ok rbasis →
      eval_child T E level rexponent = Except.ok rexponent →
      ex.eval T E (ex.power rbasis rexponent true) level
        = Except.ok (ex.power rbasis rexponent true)) := by
  have hheld : rbasis = basis → rexponent = exponent →
      ex.eval T E (ex.power rbasis rexponent true) level
        = Except.ok (ex.power rbasis rexponent true) := by
    intro h1 h2
    subst h1 h2
    by_cases hl : level = 1
    · subst hl; exact eval_flagged_level_one T E _ _
    · rw [eval_power, if_neg (by tauto)] at h ⊢
      exact h
  refine ⟨eval_flagged_level_one T E _ _, hheld, ?_⟩
  intro eexponent he hne1 hrb hre
  by_cases hl : level = 1
  · subst hl; exact eval_flagged_level_one T E _ _
  · have hfast : ∀ f : Bool, ¬(level = 1 ∧ f = true) := fun f hf => hl hf.1
    rw [eval_power, if_neg (hfast evaluated)] at h
    by_cases hlim : level = -E.max_recursion_level
    · rw [if_pos hlim] at h; cases h
    · rw [if_neg hlim] at h
      cases hb : eval_child T E level basis with
      | error err => rw [hb] at h; cases h
      | ok ebasis =>
        rw [hb, he] at h
        simp only at h
        rw [eval_power_rules T E rbasis rexponent rbasis rexponent true level (hfast true) hlim
          hrb hre]
        rcases eval_rules_flagged T E basis exponent ebasis eexponent rbasis rexponent hne1 h
          with ⟨h1, h2⟩ | ⟨h1, h2, h3⟩
        · have hh := hheld h1 h2
          rw [eval_power_rules T E rbasis rexponent rbasis rexponent true level (hfast true) hlim
            hrb hre] at hh
          exact hh
        · rw [h1, h2]
          exact h3 ebasis eexponent

/-- The evaluation of `2^(1/2)` with level 1 or with the default level 0 is the
node itself, held. -/
theorem eval_two_to_one_half (level : ℤ) (hl : level = 0 ∨ level = 1) :
    ex.eval surd_tower (plain_env surd surd_tower)
        (ex.power (ex.numeric (numeric.rat 2)) (ex.numeric (numeric.rat (1 / 2))) false) level
      = Except.ok (ex.power (ex.numeric (numeric.rat 2)) (ex.numeric (numeric.rat (1 / 2))) true) := by
  have hfloor : ⌊(1 / 2 : ℚ)⌋ = 0 := by
    rw [Int.floor_eq_iff]; norm_num
  rw [eval_power_rules surd_tower (plain_env surd surd_tower) _ _ (ex.numeric (numeric.rat 2))
      (ex.numeric (numeric.rat (1 / 2))) false level (by simp)
      (by rcases hl with h | h <;> simp [h, plain_env])
      (by rcases hl with h | h <;> simp [h, eval_child, ex.eval, plain_env])
      (by rcases hl with h | h <;> simp [h, eval_child, ex.eval, plain_env]),
    eval_rules_irrational_power surd_tower (plain_env surd surd_tower) _ _ 2 (1 / 2)
      (by norm_num) (by norm_num) (by norm_num)
      (power_two_half_irrational surd_tower (1 / 2) (by norm_num)), if_pos hfloor]

/-- The evaluation of `2^(1/2)`, with level 1 and with level 0, is the held node,
and evaluating the held node again, with level 1 and with level 0, returns
it. -/
theorem eval_evaluated_result_fixed_witness :
    ex.eval surd_tower (plain_env surd surd_tower)
        (ex.power (ex.numeric (numeric.rat 2)) (ex.numeric (numeric.rat (1 / 2))) false) 1
      = Except.ok (ex.power (ex.numeric (numeric.rat 2)) (ex.numeric (numeric.rat (1 / 2))) true) ∧
    ex.eval surd_tower (plain_env surd surd_tower)
        (ex.power (ex.numeric (numeric.rat 2)) (ex.numeric (numeric.rat (1 / 2))) true) 1
      = Except.ok (ex.power (ex.numeric (numeric.rat 2)) (ex.numeric (numeric.rat (1 / 2))) true) ∧
    ex.eval surd_tower (plain_env surd surd_tower)
        (ex.power (ex.numeric (numeric.rat 2)) (ex.numeric (numeric.rat (1 / 2))) true) 0
      = Except.ok (ex.power (ex.numeric (numeric.rat 2)) (ex.numeric (numeric.rat (1 / 2))) true) :=
  ⟨eval_two_to_one_half 1 (Or.inr rfl),
   (eval_evaluated_result_fixed surd_tower (plain_env surd surd_tower)
      (ex.numeric (numeric.rat 2)) (ex.numeric (numeric.rat (1 / 2)))
      (ex.numeric (numeric.rat 2)) (ex.numeric (numeric.rat (1 / 2))) false 1
      (eval_two_to_one_half 1 (Or.inr rfl))).1,
   (eval_evaluated_result_fixed surd_tower (plain_env surd surd_tower)
      (ex.numeric (numeric.rat 2)) (ex.numeric (numeric.rat (1 / 2)))
      (ex.numeric (numeric.rat 2)) (ex.numeric (numeric.rat (1 / 2))) false 0
      (eval_two_to_one_half 0 (Or.inl rfl))).2.1 rfl rfl⟩

/-! ## The recursion limit (lines 193-198) -/

/-- Below the limit and not above 0, a nest of powers deeper than the distance
between the level and the limit fails with the recursion-limit error. -/
theorem eval_deep_nest_fails {F : Type} (T : tower F) (E : env F) (j : ℕ) :
    ∀ (e : ex F) (level : ℤ), level ≤ 0 → level + E.max_recursion_level = (j : ℤ) →
      j < e.power_depth → ex.eval T E e level = Except.error error.max_recursion_level_reached := by
  induction j with
  | zero =>
    intro e level _ hj hd
    cases e with
    | power b x ev =>
      rw [eval_power, if_neg (by omega), if_pos (by push_cast at hj; omega)]
    | numeric v => simp [ex.power_depth] at hd
    | symbol s => simp [ex.power_depth] at hd
    | add s c f => simp [ex.power_depth] at hd
    | mul s c f => simp [ex.power_depth] at hd
  | succ j ih =>
    intro e level hl hj hd
    cases e with
    | power b x ev =>
      have hb : ex.eval T E b (level - 1) = Except.error error.max_recursion_level_reached := by
        apply ih b (level - 1) (by omega) (by push_cast at hj ⊢; omega)
        simp only [ex.power_depth] at hd
        omega
      rw [eval_power, if_neg (by omega), if_neg (by push_cast at hj; omega)]
      simp only [eval_child, if_neg (show ¬ level = 1 by omega), hb]
    | numeric v => simp [ex.power_depth] at hd
    | symbol s => simp [ex.power_depth] at hd
    | add s c f => simp [ex.power_depth] at hd
    | mul s c f => simp [ex.power_depth] at hd

/-- C18: with a limit `max_recursion_level` that is not negative, `power::eval(level)`
fails with the recursion-limit error at a power node if and only if `level` is
`-max_recursion_level` or the error comes up from the evaluation of the basis
or of the exponent, which is entered with `level - 1` (and only when `level` is
not 1); at `level = -max_recursion_level` it fails before every rewrite rule,
whatever the basis and the exponent are; and from a level between
`-max_recursion_level` and 0, a nest of powers deeper than
`level + max_recursion_level` fails. -/
theorem eval_recursion_limit {F : Type} (T : tower F) (E : env F)
    (hmax : 0 ≤ E.max_recursion_level) (basis exponent : ex F) (evaluated : Bool) (level : ℤ) :
    (level = -E.max_recursion_level →
      ex.eval T E (ex.power basis exponent evaluated) level
        = Except.error error.max_recursion_level_reached) ∧
    (ex.eval T E (ex.power basis exponent evaluated) level
        = Except.error error.max_recursion_level_reached ↔
      level = -E.max_recursion_level ∨
      (level ≠ 1 ∧
        (ex.eval T E basis (level - 1) = Except.error error.max_recursion_level_reached ∨
         ∃ ebasis, ex.eval T E basis (level - 1) = Except.ok ebasis ∧
           ex.eval T E exponent (level - 1) = Except.error error.max_recursion_level_reached))) ∧
    (∀ e : ex F, -E.max_recursion_level ≤ level → level ≤ 0 →
      level + E.max_recursion_level < (e.power_depth : ℤ) →
      ex.eval T E e level = Except.error error.max_recursion_level_reached) := by
  have hat : level = -E.max_recursion_level →
      ex.eval T E (ex.power basis exponent evaluated) level
        = Except.error error.max_recursion_level_reached := by
    intro h
    rw [eval_power, if_neg (by omega), if_pos h]
  refine ⟨hat, ⟨?_, ?_⟩, ?_⟩
  · intro h
    by_cases hl : level = -E.max_recursion_level
    · exact Or.inl hl
    · right
      rw [eval_power] at h
      by_cases hf : level = 1 ∧ evaluated = true
      · rw [if_pos hf] at h; cases h
      · rw [if_neg hf, if_neg hl] at h
        by_cases h1 : level = 1
        · simp only [eval_child, if_pos h1] at h
          exact absurd h (eval_rules_ne_limit T E _ _ _ _)
        · refine ⟨h1, ?_⟩
          simp only [eval_child, if_neg h1] at h
          cases hb : ex.eval T E basis (level - 1) with
          | error err =>
            rw [hb] at h
            left
            simpa using h
          | ok ebasis =>
            rw [hb] at h
            right
            refine ⟨ebasis, rfl, ?_⟩
            cases hx : ex.eval T E exponent (level - 1) with
            | error err =>
              rw [hx] at h
              simpa using h
            | ok eexponent =>
              rw [hx] at h
              exact absurd h (eval_rules_ne_limit T E _ _ _ _)
  · rintro (hl | ⟨h1, hc⟩)
    · exact hat hl
    · by_cases hl : level = -E.max_recursion_level
      · exact hat hl
      · rw [eval_power, if_neg (by tauto), if_neg hl]
        simp only [eval_child, if_neg h1]
        rcases hc with hb | ⟨ebasis, hb, hx⟩
        · rw [hb]
        · rw [hb, hx]
  · intro e hlo hhi hd
    obtain ⟨j, hj⟩ := Int.eq_ofNat_of_zero_le (show 0 ≤ level + E.max_recursion_level by omega)
    exact eval_deep_nest_fails T E j e level hhi hj (by omega)

/-- C18, with the limit 1024: `x^0` fails at the level -1024, `x^2` does not fail
at the level 0, and `((x^2)^2)^2` fails at the level -1022. -/
theorem eval_recursion_limit_witness :
    ex.eval surd_tower (plain_env surd surd_tower)
        (ex.power (ex.symbol 7) (ex.numeric (numeric.rat 0)) false) (-1024)
      = Except.error error.max_recursion_level_reached ∧
    ex.eval surd_tower (plain_env surd surd_tower)
        (ex.power (ex.symbol 7) (ex.numeric (numeric.rat 2)) false) 0
      ≠ Except.error error.max_recursion_level_reached ∧
    ex.eval surd_tower (plain_env surd surd_tower)
        (ex.power (ex.power (ex.power (ex.symbol 7) (ex.numeric (numeric.rat 2)) false)
          (ex.numeric (numeric.rat 2)) false) (ex.numeric (numeric.rat 2)) false) (-1022)
      = Except.error error.max_recursion_level_reached := by
  have hmax : (0 : ℤ) ≤ (plain_env surd surd_tower).max_recursion_level := by
    simp [plain_env]
  refine ⟨?_, ?_, ?_⟩
  · exact (eval_recursion_limit surd_tower (plain_env surd surd_tower) hmax
      (ex.symbol 7) (ex.numeric (numeric.rat 0)) false (-1024)).1 (by simp [plain_env])
  · intro h
    have h2 := (eval_recursion_limit surd_tower (plain_env surd surd_tower) hmax
      (ex.symbol 7) (ex.numeric (numeric.rat 2)) false 0).2.1.mp h
    simp [plain_env, ex.eval] at h2
  · exact (eval_recursion_limit surd_tower (plain_env surd surd_tower) hmax
      (ex.symbol 7) (ex.numeric (numeric.rat 0)) false (-1022)).2.2 _
        (by simp [plain_env]) (by decide) (by simp [plain_env, ex.power_depth])

/-! ## `power::expand` (lines 400-433) -/

/-- Unfolding of `power::expand` on a power node whose basis has been expanded. -/
theorem expand_power {F : Type} (T : tower F) (E : env F) (fuel : ℕ) (basis exponent : ex F)
    (evaluated : Bool) (expanded_basis : ex F) (same : Bool)
    (hb : ex.expand T E fuel basis = some (expanded_basis, same)) :
    ex.expand T E fuel (ex.power basis exponent evaluated) =
      power.expand_rules T E fuel basis exponent expanded_basis same := by
  rw [ex.expand, hb]

/-- C14, as stated, fails: for the product `3*x` and the exponent `1/2`,
`power::expand` returns the power `(3*x)^(1/2)` itself, held, while the
evaluation extracts the residual 3 and returns the product of `(1*x)^(1/2)` and
`3^(1/2)`. -/
theorem expand_fractional_power_of_product :
    ex.expand surd_tower (plain_env surd surd_tower) 0
        (ex.power (ex.mul [⟨ex.symbol 7, exONE⟩] (ex.numeric (numeric.rat 3)) true)
          (ex.numeric (numeric.rat (1 / 2))) false)
      = some (ex.power (ex.mul [⟨ex.symbol 7, exONE⟩] (ex.numeric (numeric.rat 3)) true)
          (ex.numeric (numeric.rat (1 / 2))) true, true) ∧
    ex.eval surd_tower (plain_env surd surd_tower)
        (ex.power (ex.mul [⟨ex.symbol 7, exONE⟩] (ex.numeric (numeric.rat 3)) true)
          (ex.numeric (numeric.rat (1 / 2))) false) 1
      = Except.ok (ex.mul
          [⟨ex.power (ex.mul [⟨ex.symbol 7, exONE⟩] exONE false)
              (ex.numeric (numeric.rat (1 / 2))) false, exONE⟩,
           ⟨ex.power (ex.numeric (numeric.rat 3)) (ex.numeric (numeric.rat (1 / 2))) false, exONE⟩]
          exONE false) := by
  constructor
  · rw [expand_power surd_tower (plain_env surd surd_tower) 0 _ _ false
      (ex.mul [⟨ex.symbol 7, exONE⟩] (ex.numeric (numeric.rat 3)) true) true
      (by simp [ex.expand, plain_env])]
    norm_num [power.expand_rules, ex.is_numeric, ex.to_numeric, numeric.is_integer, power.expand_hold]
  · rw [eval_power_rules surd_tower (plain_env surd surd_tower) _ _
      (ex.mul [⟨ex.symbol 7, exONE⟩] (ex.numeric (numeric.rat 3)) true)
      (ex.numeric (numeric.rat (1 / 2))) false 1
      (by decide) (by simp [plain_env]) rfl rfl]
    unfold power.eval_rules
    rw [if_neg (by norm_num [ex.is_zero, numeric.is_zero, numeric.is_equal, numeric.compare]),
      if_neg (by norm_num [ex.is_equal_exONE, numeric.is_equal, numeric.compare]),
      if_neg (by simp [ex.is_zero]), if_neg (by simp [ex.is_equal_exONE])]
    norm_num [power.eval_symbolic, numeric.is_integer, ex.is_equal_exONE, numeric.is_equal,
      numeric.compare, ex.to_numeric, numeric.is_real, numeric.is_positive, plain_env,
      expairseq.to_mul]

/-- C14, amended: for every power node whose expanded basis is a product and
whose exponent is a number n, `power::expand` returns, when n is an integer,
`expand_mul` of the expanded basis and n, which is what the evaluation rule for
an integer power of a product produces for that basis and exponent; when n is
not an integer it extracts no residual: it returns the node itself, held, when
the expanded basis is the very basis, and the power of the expanded basis with
the same exponent otherwise. -/
theorem expand_power_of_product {F : Type} (T : tower F) (E : env F) (fuel : ℕ) (basis : ex F)
    (n : numeric F) (evaluated : Bool) (seq : epvector F) (overall_coeff : ex F) (flag same : Bool)
    (hb : ex.expand T E fuel basis = some (ex.mul seq overall_coeff flag, same)) :
    (n.is_integer = true →
      ex.expand T E fuel (ex.power basis (ex.numeric n) evaluated)
          = some (power.expand_mul T E seq overall_coeff n, false) ∧
        power.eval_symbolic T E (ex.numeric n) (ex.mul seq overall_coeff flag) (ex.numeric n)
          = power.expand_mul T E seq overall_coeff n) ∧
    (n.is_integer = false →
      ex.expand T E fuel (ex.power basis (ex.numeric n) evaluated)
        = some (if same then (ex.power basis (ex.numeric n) true, true)
            else (ex.power (ex.mul seq overall_coeff flag) (ex.numeric n) false, false))) := by
  rw [expand_power T E fuel basis (ex.numeric n) evaluated _ same hb]
  constructor
  · intro hn
    simp [power.expand_rules, ex.is_numeric, ex.to_numeric, hn, power.eval_symbolic]
  · intro hn
    simp [power.expand_rules, ex.is_numeric, ex.to_numeric, hn, power.expand_hold]

/-- C14 amended, at `(x*y)^2` and at `(3*x)^(1/2)`: the first expands to the
product of `x^2` and `y^2`, the second is returned as it is, held. -/
theorem expand_power_of_product_witness :
    ex.expand surd_tower (plain_env surd surd_tower) 0
        (ex.power (ex.mul [⟨ex.symbol 7, exONE⟩, ⟨ex.symbol 8, exONE⟩] exONE true)
          (ex.numeric (numeric.rat 2)) false)
      = some (ex.mul [⟨ex.symbol 7, ex.numeric (numeric.rat 2)⟩,
          ⟨ex.symbol 8, ex.numeric (numeric.rat 2)⟩] (ex.numeric (numeric.rat 1)) false, false) ∧
    ex.expand surd_tower (plain_env surd surd_tower) 0
        (ex.power (ex.mul [⟨ex.symbol 7, exONE⟩] (ex.numeric (numeric.rat 3)) true)
          (ex.numeric (numeric.rat (1 / 2))) false)
      = some (ex.power (ex.mul [⟨ex.symbol 7, exONE⟩] (ex.numeric (numeric.rat 3)) true)
          (ex.numeric (numeric.rat (1 / 2))) true, true) := by
  constructor
  · rw [((expand_power_of_product surd_tower (plain_env surd surd_tower) 0
      (ex.mul [⟨ex.symbol 7, exONE⟩, ⟨ex.symbol 8, exONE⟩] exONE true) (numeric.rat 2) false
      [⟨ex.symbol 7, exONE⟩, ⟨ex.symbol 8, exONE⟩] exONE true true
      (by simp [ex.expand, plain_env])).1 (by simp [numeric.is_integer])).1]
    norm_num [power.expand_mul, power.expand_mul_distrseq, numeric.is_equal, numeric.compare,
      ex.is_numeric, ex.to_numeric, exONE, numONE, numeric.mul, numeric.power, plain_env,
      expairseq.to_mul]
  · rw [(expand_power_of_product surd_tower (plain_env surd surd_tower) 0
      (ex.mul [⟨ex.symbol 7, exONE⟩] (ex.numeric (numeric.rat 3)) true) (numeric.rat (1 / 2)) false
      [⟨ex.symbol 7, exONE⟩] (ex.numeric (numeric.rat 3)) true true
      (by simp [ex.expand, plain_env])).2 (by norm_num [numeric.is_integer])]
    simp

/-- When the expansion of the basis is the basis itself and no expansion applies
(the exponent is not an integer number, or the basis is neither a sum nor a
product), `power::expand` returns the node itself, held, and expanding the held
node returns it again. -/
theorem expand_power_held {F : Type} (T : tower F) (E : env F) (fuel : ℕ) (basis exponent : ex F)
    (evaluated : Bool) (hb : ex.expand T E fuel basis = some (basis, true))
    (hno : (!exponent.is_numeric || !exponent.to_numeric.is_integer) = true ∨
      ((∀ s c f, basis ≠ ex.add s c f) ∧ (∀ s c f, basis ≠ ex.mul s c f))) :
    ex.expand T E fuel (ex.power basis exponent evaluated)
      = some (ex.power basis exponent true, true) := by
  rw [expand_power T E fuel basis exponent evaluated basis true hb]
  unfold power.expand_rules
  rcases hno with h | ⟨h1, h2⟩
  · rw [if_pos h]; rfl
  · by_cases h : (!exponent.is_numeric || !exponent.to_numeric.is_integer) = true
    · rw [if_pos h]; rfl
    · rw [if_neg h]
      cases basis with
      | add s c f => exact absurd rfl (h1 s c f)
      | mul s c f => exact absurd rfl (h2 s c f)
      | numeric v => rfl
      | symbol s => rfl
      | power b x f => rfl

/-! ## The terms of `power::expand_add_2` (lines 576-637) -/

/-- The square term that `expand_add_2` emits for the pair `p` (lines 600-614). -/
theorem expand_add_2_square_eq {F : Type} (T : tower F) (E : env F) (p : expair (ex F)) :
    (if p.coeff.is_exONE_object then
        (⟨power.operand_power T E p.rest 2, exONE⟩ : expair (ex F))
      else
        ⟨power.operand_power T E p.rest 2, ex.numeric (p.coeff.to_numeric.power T numTWO)⟩)
      = ⟨power.operand_power T E p.rest 2, ex.numeric (p.coeff.to_numeric.power T numTWO)⟩ := by
  by_cases h : p.coeff.is_exONE_object = true
  · rw [if_pos h]
    obtain ⟨r, c⟩ := p
    cases c with
    | numeric v =>
      cases v with
      | rat q =>
        have hq : q = 1 := by simpa [ex.is_exONE_object] using h
        subst hq
        simp [exONE, numONE, numTWO, ex.to_numeric, numeric.power]
      | other x => simp [ex.is_exONE_object] at h
    | symbol s => simp [ex.is_exONE_object] at h
    | power b x f => simp [ex.is_exONE_object] at h
    | add s c f => simp [ex.is_exONE_object] at h
    | mul s c f => simp [ex.is_exONE_object] at h
  · rw [if_neg h]

/-- The cross terms of a pair with the pairs behind it, as a map. -/
theorem expand_add_2_cross_eq_map {F : Type} (T : tower F) (E : env F) (r c : ex F)
    (tail : epvector F) :
    power.expand_add_2_cross T E r c tail =
      tail.map (fun p1 => E.add_combine_ex_with_coeff_to_pair ((E.mul_ex_ex r p1.rest).to_mul false)
        (ex.numeric (((numTWO : numeric F).mul T c.to_numeric).mul T p1.coeff.to_numeric))) := by
  induction tail with
  | nil => rfl
  | cons p1 tail ih => simp [power.expand_add_2_cross, ih]

/-- The binomial coefficient of two integers `0 ≤ k ≤ N`, times `k!`, times
`(N-k)!`, is `N!`. -/
theorem binomial_mul_factorial (N k : ℤ) (h0 : 0 ≤ k) (hk : k ≤ N) :
    binomial N k * (k.toNat.factorial : ℚ) * ((N - k).toNat.factorial : ℚ)
      = (N.toNat.factorial : ℚ) := by
  unfold binomial
  rw [if_pos ⟨h0, hk⟩]
  have hle : k.toNat ≤ N.toNat := by omega
  have hsub : (N - k).toNat = N.toNat - k.toNat := by omega
  rw [hsub]
  exact_mod_cast Nat.choose_mul_factorial_mul_factorial hle

/-- The loop of lines 495-497 from the operand `l` on: what it multiplies into `f`
turns, with the factorials of the exponents from `l` on, the factorial of
`n - k_cum[l-1]` into the factorial of the last exponent. -/
theorem expand_add_factor_spec (n : ℤ) (d : ℕ) (c : power.counters)
    (hinv : power.counters_inv n d c) (cnt : ℕ) :
    ∀ (l : ℕ) (f : ℚ), 1 ≤ l → l + cnt = d →
      power.expand_add_factor n c l cnt f
          * (∏ i in Finset.Ico l d, ((c.k.getD i 0).toNat.factorial : ℚ))
          * (((n - c.k_cum.getD (d - 1) 0).toNat.factorial : ℕ) : ℚ)
        = f * (((n - c.k_cum.getD (l - 1) 0).toNat.factorial : ℕ) : ℚ) := by
  obtain ⟨-, -, -, hb, hU, hK⟩ := hinv
  induction cnt with
  | zero =>
    intro l f _ hl
    have : l = d := by omega
    subst this
    simp [power.expand_add_factor]
  | succ cnt ih =>
    intro l f hl1 hl
    have hld : l < d := by omega
    have h := ih (l + 1) (f * binomial (n - c.k_cum.getD (l - 1) 0) (c.k.getD l 0))
      (by omega) (by omega)
    rw [power.expand_add_factor, Finset.prod_eq_prod_Ico_succ_bot hld]
    have hUl := hU l hld
    rw [if_neg (by omega)] at hUl
    have hKl := hK l hld
    rw [if_neg (by omega)] at hKl
    have hbl := hb l hld
    have hbin := binomial_mul_factorial (n - c.k_cum.getD (l - 1) 0) (c.k.getD l 0) hbl.1
      (by rw [← hUl]; exact hbl.2)
    have hsub : n - c.k_cum.getD (l - 1) 0 - c.k.getD l 0 = n - c.k_cum.getD l 0 := by
      rw [hKl]; ring
    rw [hsub] at hbin
    rw [Nat.add_sub_cancel] at h
    calc power.expand_add_factor n c (l + 1) cnt
            (f * binomial (n - c.k_cum.getD (l - 1) 0) (c.k.getD l 0))
          * (((c.k.getD l 0).toNat.factorial : ℚ)
            * ∏ i in Finset.Ico (l + 1) d, ((c.k.getD i 0).toNat.factorial : ℚ))
          * (((n - c.k_cum.getD (d - 1) 0).toNat.factorial : ℕ) : ℚ)
        = (power.expand_add_factor n c (l + 1) cnt
            (f * binomial (n - c.k_cum.getD (l - 1) 0) (c.k.getD l 0))
          * (∏ i in Finset.Ico (l + 1) d, ((c.k.getD i 0).toNat.factorial : ℚ))
          * (((n - c.k_cum.getD (d - 1) 0).toNat.factorial : ℕ) : ℚ))
          * ((c.k.getD l 0).toNat.factorial : ℚ) := by ring
      _ = f * (binomial (n - c.k_cum.getD (l - 1) 0) (c.k.getD l 0)
          * ((c.k.getD l 0).toNat.factorial : ℚ)
          * (((n - c.k_cum.getD l 0).toNat.factorial : ℕ) : ℚ)) := by rw [h]; ring
      _ = f * (((n - c.k_cum.getD (l - 1) 0).toNat.factorial : ℕ) : ℚ) := by rw [hbin]

/-- The entries of the exponent vector of a pass: `k[i]` before the last, and
`n - k_cum[d-1]` at the last place. -/
theorem exponent_vector_getD (n : ℤ) (d : ℕ) (c : power.counters) (i : ℕ) :
    (power.exponent_vector n (d + 1) c).getD i 0 =
      if i < d then c.k.getD i 0 else if i = d then n - c.k_cum.getD (d - 1) 0 else 0 := by
  unfold power.exponent_vector
  simp only [Nat.add_sub_cancel, show d + 1 - 2 = d - 1 by omega]
  rw [List.getD_eq_getElem?_getD]
  by_cases h : i < d
  · rw [if_pos h, List.getElem?_append_left (by simpa using h)]
    simp [h]
  · rw [if_neg h, List.getElem?_append_right (by simpa using h)]
    simp only [List.length_map, List.length_range]
    by_cases h2 : i = d
    · subst h2; simp
    · rw [if_neg h2, List.getElem?_eq_none (by simp; omega)]
      rfl

/-- The factor `f` of a pass on vectors that satisfy the relations of the loop,
times the factorials of the exponents of the pass, is `n!`. -/
theorem expand_add_factor_mul_factorials (n : ℤ) (d : ℕ) (hd : 1 ≤ d) (c : power.counters)
    (hinv : power.counters_inv n d c) :
    power.expand_add_factor n c 1 (d + 1 - 2) (binomial n (c.k.getD 0 0))
        * (∏ i in Finset.range (d + 1),
            (((power.exponent_vector n (d + 1) c).getD i 0).toNat.factorial : ℚ))
      = (n.toNat.factorial : ℚ) := by
  have hspec := expand_add_factor_spec n d c hinv (d - 1) 1 (binomial n (c.k.getD 0 0))
    (le_refl 1) (by omega)
  obtain ⟨-, -, -, hb, hU, hK⟩ := hinv
  have h0 : 0 < d := by omega
  have hU0 := hU 0 h0
  rw [if_pos rfl] at hU0
  have hK0 := hK 0 h0
  rw [if_pos rfl] at hK0
  have hb0 := hb 0 h0
  have hbin := binomial_mul_factorial n (c.k.getD 0 0) hb0.1 (by rw [← hU0]; exact hb0.2)
  rw [Finset.prod_range_succ, show d + 1 - 2 = d - 1 by omega]
  have hprod : ∏ i in Finset.range d,
        (((power.exponent_vector n (d + 1) c).getD i 0).toNat.factorial : ℚ)
      = ∏ i in Finset.range d, ((c.k.getD i 0).toNat.factorial : ℚ) := by
    apply Finset.prod_congr rfl
    intro i hi
    rw [exponent_vector_getD, if_pos (by simpa using hi)]
  have hlast : (power.exponent_vector n (d + 1) c).getD d 0 = n - c.k_cum.getD (d - 1) 0 := by
    rw [exponent_vector_getD, if_neg (by omega), if_pos rfl]
  rw [hprod, hlast, Finset.range_eq_Ico, Finset.prod_eq_prod_Ico_succ_bot h0]
  simp only [Nat.sub_self, zero_add] at hspec ⊢
  rw [hK0] at hspec
  calc power.expand_add_factor n c 1 (d - 1) (binomial n (c.k.getD 0 0))
          * ((((c.k.getD 0 0).toNat.factorial : ℚ)
            * (∏ i in Finset.Ico 1 d, ((c.k.getD i 0).toNat.factorial : ℚ)))
            * (((n - c.k_cum.getD (d - 1) 0).toNat.factorial : ℕ) : ℚ))
        = (power.expand_add_factor n c 1 (d - 1) (binomial n (c.k.getD 0 0))
          * (∏ i in Finset.Ico 1 d, ((c.k.getD i 0).toNat.factorial : ℚ))
          * (((n - c.k_cum.getD (d - 1) 0).toNat.factorial : ℕ) : ℚ))
          * ((c.k.getD 0 0).toNat.factorial : ℚ) := by ring
    _ = (n.toNat.factorial : ℚ) := by rw [hspec, ← hbin]; ring

/-! ## The passes of the loop of `power::expand_add` (lines 467-537) -/

/-- The vectors met by the loop, started on vectors that satisfy its relations,
satisfy them too, and no more passes are to come after them than after the
first. -/
theorem counters_trace_inv (n : ℤ) (d : ℕ) (fuel : ℕ) :
    ∀ c : power.counters, power.counters_inv n d c →
      ∀ c1 ∈ power.counters_trace n (d + 1) fuel c,
        power.counters_inv n d c1 ∧ power.counters_rank d c1 ≤ power.counters_rank d c := by
  induction fuel with
  | zero => intro c _ c1 h; simp [power.counters_trace] at h
  | succ fuel ih =>
    intro c hinv c1 h
    rw [power.counters_trace, List.mem_cons] at h
    rcases h with h | h
    · subst h; exact ⟨hinv, le_refl _⟩
    · rcases counters_next_spec n d c hinv with ⟨hnone, -⟩ | ⟨c2, hsome, hinv2, hrank⟩
      · rw [hnone] at h; simp at h
      · rw [hsome] at h
        obtain ⟨h1, h2⟩ := ih c2 hinv2 c1 h
        exact ⟨h1, by omega⟩

/-- The loop pushes, behind what `sum` held, the term of every pass, in order. -/
theorem expand_add_loop_trace {F : Type} (T : tower F) (E : env F) (a : expairseq F) (n : ℤ)
    (m : ℕ) (fuel : ℕ) :
    ∀ (c : power.counters) (acc out : exvector F),
      power.expand_add_loop T E a n m fuel c acc = some out →
      out = acc ++ (power.counters_trace n m fuel c).map
        (fun c1 => (E.mul_exvector (power.expand_add_term T E a n m c1)).to_mul false) := by
  induction fuel with
  | zero => intro c acc out h; simp [power.expand_add_loop] at h
  | succ fuel ih =>
    intro c acc out h
    rw [power.expand_add_loop] at h
    rw [power.counters_trace]
    cases hnext : power.counters_next n m c with
    | none =>
      rw [hnext] at h
      simp only [Option.some.injEq] at h
      rw [← h]; simp
    | some c1 =>
      rw [hnext] at h
      simp only at h
      rw [ih c1 _ out h]
      simp

/-- On vectors that satisfy the relations of the loop, `k_cum[i]` is the sum of
`k[0]`, ..., `k[i]`. -/
theorem counters_inv_k_cum (n : ℤ) (d : ℕ) (c : power.counters)
    (hinv : power.counters_inv n d c) :
    ∀ i, i < d → c.k_cum.getD i 0 = (c.k.take (i + 1)).sum := by
  obtain ⟨hk, -, -, -, -, hK⟩ := hinv
  intro i
  induction i with
  | zero =>
    intro h0
    rw [hK 0 h0, if_pos rfl, List.sum_take_succ c.k 0 (by omega),
      List.getD_eq_getElem c.k 0 (show 0 < c.k.length by omega)]
    simp
  | succ i ih =>
    intro hi
    rw [hK (i + 1) hi, if_neg (by omega), Nat.add_sub_cancel, ih (by omega),
      List.sum_take_succ c.k (i + 1) (by omega),
      List.getD_eq_getElem c.k 0 (show i + 1 < c.k.length by omega)]

/-- On vectors that satisfy the relations of the loop, `upper_limit[i]` is `n` minus
the sum of the entries of `k` before `i`. -/
theorem counters_inv_upper_limit (n : ℤ) (d : ℕ) (c : power.counters)
    (hinv : power.counters_inv n d c) :
    ∀ i, i < d → c.upper_limit.getD i 0 = n - (c.k.take i).sum := by
  intro i hi
  have hU := hinv.2.2.2.2.1 i hi
  by_cases h0 : i = 0
  · subst h0; rw [hU, if_pos rfl]; simp
  · rw [hU, if_neg h0, counters_inv_k_cum n d c hinv (i - 1) (by omega)]
    rw [show i - 1 + 1 = i by omega]

/-- Vectors that satisfy the relations of the loop and have the same `k` are
followed by the same number of passes. -/
theorem counters_rank_congr (n : ℤ) (d : ℕ) (c c1 : power.counters)
    (hinv : power.counters_inv n d c) (hinv1 : power.counters_inv n d c1) (hk : c.k = c1.k) :
    power.counters_rank d c = power.counters_rank d c1 := by
  unfold power.counters_rank
  apply Finset.sum_congr rfl
  intro i hi
  have hi2 : i < d := by simpa using hi
  rw [counters_inv_upper_limit n d c hinv i hi2, counters_inv_upper_limit n d c1 hinv1 i hi2, hk]

/-- The loop, started on vectors that satisfy its relations with more passes
allowed than are to come, makes one pass more than are to come, and no two of
its passes have the same vector `k`. -/
theorem counters_trace_spec (n : ℤ) (d : ℕ) (fuel : ℕ) :
    ∀ c : power.counters, power.counters_inv n d c → power.counters_rank d c < fuel →
      (power.counters_trace n (d + 1) fuel c).length = power.counters_rank d c + 1 ∧
      ((power.counters_trace n (d + 1) fuel c).map (fun c1 => c1.k)).Nodup := by
  induction fuel with
  | zero => intro c _ h; omega
  | succ fuel ih =>
    intro c hinv hfuel
    rw [power.counters_trace]
    rcases counters_next_spec n d c hinv with ⟨hnone, hrank⟩ | ⟨c2, hsome, hinv2, hrank⟩
    · rw [hnone, hrank]; simp
    · rw [hsome]
      obtain ⟨h1, h2⟩ := ih c2 hinv2 (by omega)
      refine ⟨by simp only [List.length_cons, h1]; omega, ?_⟩
      rw [List.map_cons, List.nodup_cons]
      refine ⟨?_, h2⟩
      intro hmem
      obtain ⟨c3, hc3, hk3⟩ := List.mem_map.mp hmem
      obtain ⟨hinv3, hrank3⟩ := counters_trace_inv n d fuel c2 hinv2 c3 hc3
      have := counters_rank_congr n d c3 c hinv3 hinv hk3
      omega

/-- The number of vectors of `d` non-negative integers of sum at most `N`. -/
theorem bounded_vectors_length (d : ℕ) :
    ∀ N : ℕ, (power.bounded_vectors d N).length = Nat.choose (N + d) d := by
  induction d with
  | zero => intro N; simp [power.bounded_vectors]
  | succ d ihd =>
    intro N
    induction N with
    | zero => simp [power.bounded_vectors, ihd]
    | succ N ihN =>
      rw [power.bounded_vectors, List.length_append, List.length_map, List.length_map, ihd, ihN,
        show N + 1 + (d + 1) = (N + 1 + d) + 1 by omega, Nat.choose_succ_succ,
        show N + (d + 1) = N + 1 + d by omega]

/-- Every vector of `d` non-negative integers of sum at most `N` is listed. -/
theorem mem_bounded_vectors (d : ℕ) :
    ∀ (N : ℕ) (v : List ℤ), v.length = d → (∀ x ∈ v, 0 ≤ x) → v.sum ≤ (N : ℤ) →
      v ∈ power.bounded_vectors d N := by
  induction d with
  | zero =>
    intro N v hlen _ _
    rw [List.length_eq_zero] at hlen
    subst hlen
    simp [power.bounded_vectors]
  | succ d ihd =>
    intro N
    induction N with
    | zero =>
      intro v hlen hpos hsum
      cases v with
      | nil => simp at hlen
      | cons x t =>
        have hx : 0 ≤ x := hpos x (List.mem_cons_self _ _)
        have ht : 0 ≤ t.sum := List.sum_nonneg (fun y hy => hpos y (List.mem_cons_of_mem _ hy))
        rw [List.sum_cons] at hsum
        have hx0 : x = 0 := by push_cast at hsum; omega
        subst hx0
        rw [power.bounded_vectors]
        apply List.mem_map.mpr
        refine ⟨t, ihd 0 t (by simpa using hlen) (fun y hy => hpos y (List.mem_cons_of_mem _ hy))
          (by push_cast at hsum ⊢; omega), rfl⟩
    | succ N ihN =>
      intro v hlen hpos hsum
      cases v with
      | nil => simp at hlen
      | cons x t =>
        have hx : 0 ≤ x := hpos x (List.mem_cons_self _ _)
        have htpos : ∀ y ∈ t, 0 ≤ y := fun y hy => hpos y (List.mem_cons_of_mem _ hy)
        rw [List.sum_cons] at hsum
        rw [power.bounded_vectors, List.mem_append]
        by_cases hx0 : x = 0
        · left
          subst hx0
          apply List.mem_map.mpr
          refine ⟨t, ihd (N + 1) t (by simpa using hlen) htpos (by simpa using hsum), rfl⟩
        · right
          apply List.mem_map.mpr
          refine ⟨(x - 1) :: t, ihN ((x - 1) :: t) (by simpa using hlen) ?_ ?_, ?_⟩
          · intro y hy
            rw [List.mem_cons] at hy
            rcases hy with hy | hy
            · omega
            · exact htpos y hy
          · rw [List.sum_cons]; push_cast at hsum ⊢; omega
          · simp [power.raise_head]

/-- Reading all entries of a vector gives the vector. -/
theorem range_map_getD (v : List ℤ) :
    (List.range v.length).map (fun l => v.getD l 0) = v := by
  apply List.ext_getElem (by simp)
  intro i h1 h2
  simp only [List.getElem_map, List.getElem_range]
  exact List.getD_eq_getElem v 0 h2

/-- On vectors that satisfy the relations of the loop, the exponents of the pass
are the entries of `k`, followed by `n` minus their sum. -/
theorem exponent_vector_eq (n : ℤ) (d : ℕ) (hd : 1 ≤ d) (c : power.counters)
    (hinv : power.counters_inv n d c) :
    power.exponent_vector n (d + 1) c = c.k ++ [n - c.k.sum] := by
  have hk : c.k.length = d := hinv.1
  have hcum := counters_inv_k_cum n d c hinv (d - 1) (by omega)
  rw [show d - 1 + 1 = d by omega, List.take_of_length_le (by omega)] at hcum
  unfold power.exponent_vector
  rw [Nat.add_sub_cancel, show d + 1 - 2 = d - 1 by omega, hcum]
  congr 1
  rw [← hk]
  exact range_map_getD c.k

/-- On vectors that satisfy the relations of the loop, the entries of `k` are not
negative and their sum is at most `n`. -/
theorem counters_inv_k_bounds (n : ℤ) (d : ℕ) (hd : 1 ≤ d) (c : power.counters)
    (hinv : power.counters_inv n d c) :
    (∀ x ∈ c.k, 0 ≤ x) ∧ c.k.sum ≤ n := by
  have hk : c.k.length = d := hinv.1
  have hb := hinv.2.2.2.1
  constructor
  · intro x hx
    obtain ⟨i, hi, rfl⟩ := List.getElem_of_mem hx
    have := (hb i (by omega)).1
    rwa [List.getD_eq_getElem c.k 0 hi] at this
  · have h1 := (hb (d - 1) (by omega)).2
    rw [counters_inv_upper_limit n d c hinv (d - 1) (by omega)] at h1
    have h2 := List.sum_take_succ c.k (d - 1) (by omega)
    rw [show d - 1 + 1 = d by omega, List.take_of_length_le (by omega)] at h2
    rw [List.getD_eq_getElem c.k 0 (show d - 1 < c.k.length by omega)] at h1
    omega

/-- The exponents of a pass on vectors that satisfy the relations of the loop are
`d + 1` non-negative integers of sum `n`. -/
theorem exponent_vector_valid (n : ℤ) (d : ℕ) (hd : 1 ≤ d) (c : power.counters)
    (hinv : power.counters_inv n d c) :
    (power.exponent_vector n (d + 1) c).length = d + 1 ∧
    (∀ x ∈ power.exponent_vector n (d + 1) c, 0 ≤ x) ∧
    (power.exponent_vector n (d + 1) c).sum = n := by
  obtain ⟨hpos, hsum⟩ := counters_inv_k_bounds n d hd c hinv
  rw [exponent_vector_eq n d hd c hinv]
  refine ⟨by simp [hinv.1], ?_, by simp⟩
  intro x hx
  rw [List.mem_append, List.mem_singleton] at hx
  rcases hx with hx | hx
  · exact hpos x hx
  · omega

/-- The terms `term[0..m-2]` of a pass, as a map over the operands. -/
theorem expand_add_term_front_eq_map {F : Type} (T : tower F) (E : env F) (a : expairseq F)
    (k : List ℤ) (cnt : ℕ) :
    ∀ l, power.expand_add_term_front T E a k l cnt =
      (List.range' l cnt).map (fun i => power.operand_power T E (E.add_op a i) (k.getD i 0)) := by
  induction cnt with
  | zero => intro l; rfl
  | succ cnt ih =>
    intro l
    rw [power.expand_add_term_front, ih (l + 1)]
    rfl

/-- The vector `term` of a pass: every operand of the sum to its exponent of the
pass, followed by the factor `f`. -/
theorem expand_add_term_eq {F : Type} (T : tower F) (E : env F) (a : expairseq F) (n : ℤ)
    (d : ℕ) (c : power.counters) :
    power.expand_add_term T E a n (d + 1) c =
      (List.range (d + 1)).map (fun l => power.operand_power T E (E.add_op a l)
          ((power.exponent_vector n (d + 1) c).getD l 0))
        ++ [ex.numeric (numeric.rat
          (power.expand_add_factor n c 1 (d + 1 - 2) (binomial n (c.k.getD 0 0))))] := by
  unfold power.expand_add_term
  congr 1
  rw [expand_add_term_front_eq_map, List.range_succ, List.map_append, Nat.add_sub_cancel,
    ← List.range_eq_range']
  congr 1
  · apply List.map_congr_left
    intro i hi
    rw [exponent_vector_getD, if_pos (by simpa using hi)]
  · simp only [List.map_cons, List.map_nil]
    rw [exponent_vector_getD, if_neg (by omega), if_pos rfl, show d + 1 - 2 = d - 1 by omega]

/-- The factor `f` of lines 494-497 as a product of binomial coefficients. -/
theorem expand_add_factor_eq_prod (n : ℤ) (c : power.counters) (cnt : ℕ) :
    ∀ (l : ℕ) (f : ℚ), power.expand_add_factor n c l cnt f =
      f * ∏ i in Finset.Ico l (l + cnt), binomial (n - c.k_cum.getD (i - 1) 0) (c.k.getD i 0) := by
  induction cnt with
  | zero => intro l f; simp [power.expand_add_factor]
  | succ cnt ih =>
    intro l f
    rw [power.expand_add_factor, ih (l + 1),
      Finset.prod_eq_prod_Ico_succ_bot (show l < l + (cnt + 1) by omega),
      show l + 1 + cnt = l + (cnt + 1) by omega]
    ring

/-- C11: in every pass of the loop of `power::expand_add` (for a sum of `m >= 2`
operands and `n >= 0`), with the exponents `k_0, ..., k_{m-1}` of the pass, where
`k_{m-1} = n - (k_0 + ... + k_{m-2})`: the last entry of the emitted term is the
number `f` of lines 494-497, `f` is `binomial(n, k_0)` times the product over
`l = 1..m-2` of `binomial(n - (k_0 + ... + k_{l-1}), k_l)`, and `f` equals the
multinomial coefficient `n! / (k_0! * k_1! * ... * k_{m-1}!)`. -/
theorem expand_add_multinomial {F : Type} (T : tower F) (E : env F) (a : expairseq F) (n : ℤ)
    (m : ℕ) (hn : 0 ≤ n) (hm : 2 ≤ m) (fuel : ℕ) (c : power.counters)
    (hc : c ∈ power.counters_trace n m fuel (power.counters_init m n)) :
    (power.expand_add_term T E a n m c).getLast? = some (ex.numeric (numeric.rat
      (power.expand_add_factor n c 1 (m - 2) (binomial n (c.k.getD 0 0))))) ∧
    (power.exponent_vector n m c).getD (m - 1) 0
      = n - ((power.exponent_vector n m c).take (m - 1)).sum ∧
    power.expand_add_factor n c 1 (m - 2) (binomial n (c.k.getD 0 0))
      = ∏ l in Finset.range (m - 1),
          binomial (n - ((power.exponent_vector n m c).take l).sum)
            ((power.exponent_vector n m c).getD l 0) ∧
    power.expand_add_factor n c 1 (m - 2) (binomial n (c.k.getD 0 0))
      = (n.toNat.factorial : ℚ)
          / ∏ i in Finset.range m, (((power.exponent_vector n m c).getD i 0).toNat.factorial : ℚ) := by
  obtain ⟨d, rfl⟩ : ∃ d, m = d + 1 := ⟨m - 1, by omega⟩
  have hd : 1 ≤ d := by omega
  have hinv := (counters_trace_inv n d fuel _ (counters_init_inv n d hn) c hc).1
  have hk : c.k.length = d := hinv.1
  have hvec := exponent_vector_eq n d hd c hinv
  refine ⟨?_, ?_, ?_, ?_⟩
  · simp [power.expand_add_term]
  · rw [hvec, Nat.add_sub_cancel, List.take_left' hk, List.getD_eq_getElem?_getD,
      List.getElem?_append_right (by omega)]
    simp [hk]
  · rw [expand_add_factor_eq_prod, Nat.add_sub_cancel, Finset.range_eq_Ico,
      Finset.prod_eq_prod_Ico_succ_bot (show 0 < d by omega),
      show 1 + (d + 1 - 2) = d by omega]
    congr 1
    · rw [exponent_vector_getD, if_pos (by omega)]
      simp
    · apply Finset.prod_congr rfl
      intro i hi
      have hi2 : 1 ≤ i ∧ i < d := by simpa using hi
      rw [exponent_vector_getD, if_pos hi2.2, hvec, List.take_append_of_le_length (by omega),
        counters_inv_k_cum n d c hinv (i - 1) (by omega), show i - 1 + 1 = i by omega]
  · have h := expand_add_factor_mul_factorials n d hd c hinv
    have hne : (∏ i in Finset.range (d + 1),
        (((power.exponent_vector n (d + 1) c).getD i 0).toNat.factorial : ℚ)) ≠ 0 := by
      apply Finset.prod_ne_zero_iff.mpr
      intro i _
      exact_mod_cast Nat.factorial_ne_zero _
    rw [eq_div_iff hne]
    exact h

/-- The seventh pass of the loop for `m = 3` and `n = 4` has `k = (1, 1)`. -/
theorem counters_trace_three_four :
    (⟨[1, 1], [1, 2], [4, 3]⟩ : power.counters)
      ∈ power.counters_trace 4 3 7 (power.counters_init 3 4) := by
  have h : power.counters_trace 4 3 7 (power.counters_init 3 4)
      = [⟨[0, 0], [0, 0], [4, 4]⟩, ⟨[0, 1], [0, 1], [4, 4]⟩, ⟨[0, 2], [0, 2], [4, 4]⟩,
         ⟨[0, 3], [0, 3], [4, 4]⟩, ⟨[0, 4], [0, 4], [4, 4]⟩, ⟨[1, 0], [1, 1], [4, 3]⟩,
         ⟨[1, 1], [1, 2], [4, 3]⟩] := by
    rfl
  rw [h]
  simp

/-- C11, at the pass with the exponents `(1, 1, 2)` of the fourth power of a sum of
three operands: the factor is `binomial(4, 1) * binomial(3, 1) = 12 = 4!/(1!*1!*2!)`. -/
theorem expand_add_multinomial_witness :
    power.expand_add_factor 4 ⟨[1, 1], [1, 2], [4, 3]⟩ 1 (3 - 2) (binomial 4 1) = 12 ∧
    power.expand_add_factor 4 ⟨[1, 1], [1, 2], [4, 3]⟩ 1 (3 - 2)
        (binomial 4 ((⟨[1, 1], [1, 2], [4, 3]⟩ : power.counters).k.getD 0 0))
      = (((4 : ℤ).toNat.factorial : ℕ) : ℚ)
          / ∏ i in Finset.range 3,
              (((power.exponent_vector 4 3 ⟨[1, 1], [1, 2], [4, 3]⟩).getD i 0).toNat.factorial : ℚ) :=
  ⟨by norm_num [power.expand_add_factor, binomial, Nat.choose],
   (expand_add_multinomial surd_tower (plain_env surd surd_tower)
      ⟨[⟨ex.symbol 7, exONE⟩, ⟨ex.symbol 8, exONE⟩, ⟨ex.symbol 9, exONE⟩], exZERO⟩ 4 3
      (by norm_num) (by norm_num) 7 ⟨[1, 1], [1, 2], [4, 3]⟩ counters_trace_three_four).2.2.2⟩

/-- C12: for every `m >= 2` and integer `n >= 0`, the loop of `power::expand_add`
over `k[0..m-2]` reaches its `break` and pushes one term per pass, the term of a
pass being the operands of the sum raised to the exponents of the pass; the
exponents of every pass are `m` non-negative integers of sum `n`, no two passes
have the same exponents, and every vector of `m` non-negative integers of sum
`n` is the exponent vector of a pass. -/
theorem expand_add_visits_compositions {F : Type} (T : tower F) (E : env F) (a : expairseq F)
    (n : ℤ) (m : ℕ) (hn : 0 ≤ n) (hm : 2 ≤ m) (fuel : ℕ)
    (hfuel : Nat.choose (n.toNat + m - 1) (m - 1) ≤ fuel) :
    power.expand_add_loop T E a n m fuel (power.counters_init m n) []
      = some ((power.counters_trace n m fuel (power.counters_init m n)).map
          (fun c => (E.mul_exvector (power.expand_add_term T E a n m c)).to_mul false)) ∧
    (∀ c ∈ power.counters_trace n m fuel (power.counters_init m n),
      power.expand_add_term T E a n m c =
        (List.range m).map (fun l => power.operand_power T E (E.add_op a l)
            ((power.exponent_vector n m c).getD l 0))
          ++ [ex.numeric (numeric.rat
            (power.expand_add_factor n c 1 (m - 2) (binomial n (c.k.getD 0 0))))]) ∧
    (∀ c ∈ power.counters_trace n m fuel (power.counters_init m n),
      (power.exponent_vector n m c).length = m ∧
      (∀ x ∈ power.exponent_vector n m c, 0 ≤ x) ∧
      (power.exponent_vector n m c).sum = n) ∧
    ((power.counters_trace n m fuel (power.counters_init m n)).map
      (power.exponent_vector n m)).Nodup ∧
    (∀ v : List ℤ, v.length = m → (∀ x ∈ v, 0 ≤ x) → v.sum = n →
      v ∈ (power.counters_trace n m fuel (power.counters_init m n)).map
        (power.exponent_vector n m)) := by
  obtain ⟨d, rfl⟩ : ∃ d, m = d + 1 := ⟨m - 1, by omega⟩
  have hd : 1 ≤ d := by omega
  have hinv0 := counters_init_inv n d hn
  have hrank0 := counters_init_rank n d
  have hlt : power.counters_rank d (power.counters_init (d + 1) n) < fuel := by
    have : n.toNat + (d + 1) - 1 = n.toNat + d := by omega
    rw [this, Nat.add_sub_cancel] at hfuel
    omega
  have hmem := counters_trace_inv n d fuel _ hinv0
  obtain ⟨hlen, hnodup⟩ := counters_trace_spec n d fuel _ hinv0 hlt
  -- the exponent vectors of the passes, from their vectors `k`
  have hmap : (power.counters_trace n (d + 1) fuel (power.counters_init (d + 1) n)).map
        (power.exponent_vector n (d + 1))
      = ((power.counters_trace n (d + 1) fuel (power.counters_init (d + 1) n)).map
          (fun c => c.k)).map (fun k => k ++ [n - k.sum]) := by
    rw [List.map_map]
    apply List.map_congr_left
    intro c hc
    exact exponent_vector_eq n d hd c (hmem c hc).1
  refine ⟨?_, ?_, ?_, ?_, ?_⟩
  · obtain ⟨sum, h1, -⟩ := expand_add_loop_length T E a n d fuel _ [] hinv0 hlt
    rw [h1, expand_add_loop_trace T E a n (d + 1) fuel _ [] sum h1]
    simp
  · intro c _
    exact expand_add_term_eq T E a n d c
  · intro c hc
    exact exponent_vector_valid n d hd c (hmem c hc).1
  · rw [hmap]
    apply List.Nodup.map _ hnodup
    intro k1 k2 h
    exact List.append_inj_left' h rfl
  · intro v hvlen hvpos hvsum
    rcases List.eq_nil_or_concat v with hnil | ⟨k, x, hv⟩
    · subst hnil; simp at hvlen
    · rw [List.concat_eq_append] at hv
      subst hv
      have hklen : k.length = d := by simpa using hvlen
      have hkpos : ∀ y ∈ k, 0 ≤ y := fun y hy => hvpos y (List.mem_append_left _ hy)
      have hx : 0 ≤ x := hvpos x (by simp)
      have hsum : k.sum + x = n := by simpa using hvsum
      have hkb : k ∈ power.bounded_vectors d n.toNat :=
        mem_bounded_vectors d n.toNat k hklen hkpos (by omega)
      -- the vectors `k` of the passes are all the vectors of the bounded list
      have hsub : (power.counters_trace n (d + 1) fuel (power.counters_init (d + 1) n)).map
          (fun c => c.k) ⊆ power.bounded_vectors d n.toNat := by
        intro k1 hk1
        obtain ⟨c, hc, rfl⟩ := List.mem_map.mp hk1
        have hinv := (hmem c hc).1
        obtain ⟨h1, h2⟩ := counters_inv_k_bounds n d hd c hinv
        exact mem_bounded_vectors d n.toNat c.k hinv.1 h1 (by omega)
      have hperm := (List.subperm_of_subset hnodup hsub).perm_of_length_le (by
        rw [bounded_vectors_length, List.length_map, hlen, hrank0])
      obtain ⟨c, hc, hck⟩ := List.mem_map.mp (hperm.symm.subset hkb)
      rw [hmap]
      apply List.mem_map.mpr
      refine ⟨k, hperm.symm.subset hkb, ?_⟩
      have : n - k.sum = x := by omega
      rw [this]

/-- C12, for `m = 3` and `n = 2`: the six passes have the exponents `(0,0,2)`,
`(0,1,1)`, `(0,2,0)`, `(1,0,1)`, `(1,1,0)`, `(2,0,0)`, and `(1,0,1)` is among the
exponents of the passes. -/
theorem expand_add_visits_compositions_witness :
    (power.counters_trace 2 3 6 (power.counters_init 3 2)).map (power.exponent_vector 2 3)
      = [[0, 0, 2], [0, 1, 1], [0, 2, 0], [1, 0, 1], [1, 1, 0], [2, 0, 0]] ∧
    [1, 0, 1] ∈ (power.counters_trace 2 3 6 (power.counters_init 3 2)).map
      (power.exponent_vector 2 3) :=
  ⟨by decide,
   (expand_add_visits_compositions surd_tower (plain_env surd surd_tower)
      ⟨[⟨ex.symbol 7, exONE⟩, ⟨ex.symbol 8, exONE⟩, ⟨ex.symbol 9, exONE⟩], exZERO⟩ 2 3
      (by norm_num) (by norm_num) 6 (by decide)).2.2.2.2 [1, 0, 1] rfl (by decide) (by decide)⟩

/-! ## The order of term pairs (`expair.h`, lines 61-83 and 112-115) -/

/-- The member `is_less` of a pair says that `compare` is negative. -/
theorem expair_is_less_iff {F : Type} (cmp : ex F → ex F → ℤ) (a b : expair (ex F)) :
    a.is_less cmp b = true ↔ a.compare cmp b < 0 := by
  unfold expair.is_less expair.compare
  by_cases h : cmp a.rest b.rest = 0
  · simp [h]
  · rcases lt_or_gt_of_ne h with h1 | h1
    · simp [h, h1]
    · have h2 : ¬ cmp a.rest b.rest < 0 := by omega
      simp [h, h1, h2]

/-- The member `is_equal` of a pair says that `compare` is 0. -/
theorem expair_is_equal_iff {F : Type} (cmp : ex F → ex F → ℤ) (a b : expair (ex F)) :
    a.is_equal cmp b = true ↔ a.compare cmp b = 0 := by
  unfold expair.is_equal expair.compare ex.is_equal
  by_cases h : cmp a.rest b.rest = 0
  · simp [h]
  · simp [h]

/-- When the expression comparison is 0 exactly on equal expressions, `is_equal`
holds exactly on equal pairs. -/
theorem expair_is_equal_iff_eq {F : Type} (cmp : ex F → ex F → ℤ) (a b : expair (ex F))
    (hr : cmp a.rest b.rest = 0 ↔ a.rest = b.rest)
    (hc : cmp a.coeff b.coeff = 0 ↔ a.coeff = b.coeff) :
    a.is_equal cmp b = true ↔ a = b := by
  unfold expair.is_equal ex.is_equal
  simp only [Bool.and_eq_true, decide_eq_true_eq, hr, hc]
  constructor
  · rintro ⟨h1, h2⟩
    cases a; cases b; simp_all
  · intro h; subst h; exact ⟨rfl, rfl⟩

/-- C26: the comparison of two pairs is the comparison of their `rest` when that is
not 0 and the comparison of their `coeff` otherwise; `is_less` holds if and only
if `compare` is negative; and `is_equal` holds if and only if `compare` is 0,
which, when the expression comparison is 0 exactly on equal expressions, is to
say that both components are equal. -/
theorem expair_order_lexicographic {F : Type} (cmp : ex F → ex F → ℤ) (a b : expair (ex F))
    (hr : cmp a.rest b.rest = 0 ↔ a.rest = b.rest)
    (hc : cmp a.coeff b.coeff = 0 ↔ a.coeff = b.coeff) :
    (cmp a.rest b.rest ≠ 0 → a.compare cmp b = cmp a.rest b.rest) ∧
    (cmp a.rest b.rest = 0 → a.compare cmp b = cmp a.coeff b.coeff) ∧
    (a.is_less cmp b = true ↔ a.compare cmp b < 0) ∧
    (a.is_equal cmp b = true ↔ a.compare cmp b = 0) ∧
    (a.is_equal cmp b = true ↔ (a.rest = b.rest ∧ a.coeff = b.coeff)) ∧
    (a.is_equal cmp b = true ↔ a = b) := by
  have heq : a.is_equal cmp b = true ↔ (a.rest = b.rest ∧ a.coeff = b.coeff) := by
    unfold expair.is_equal ex.is_equal
    simp [hr, hc]
  refine ⟨?_, ?_, expair_is_less_iff cmp a b, expair_is_equal_iff cmp a b, heq, ?_⟩
  · intro h; simp [expair.compare, h]
  · intro h; simp [expair.compare, h]
  · rw [heq]
    constructor
    · rintro ⟨h1, h2⟩
      cases a; cases b; simp_all
    · intro h; subst h; exact ⟨rfl, rfl⟩

/-- The key tells exact rationals and symbols apart. -/
theorem atom_key_injective {F : Type} (a b : ex F) (ha : a.is_atom) (hb : b.is_atom)
    (h : a.atom_key = b.atom_key) : a = b := by
  cases a with
  | numeric v =>
    cases v with
    | rat p =>
      cases b with
      | numeric w =>
        cases w with
        | rat q => simp [ex.atom_key] at h; rw [h]
        | other y => exact absurd hb (by simp [ex.is_atom])
      | symbol t => simp [ex.atom_key] at h
      | power _ _ _ => exact absurd hb (by simp [ex.is_atom])
      | add _ _ _ => exact absurd hb (by simp [ex.is_atom])
      | mul _ _ _ => exact absurd hb (by simp [ex.is_atom])
    | other x => exact absurd ha (by simp [ex.is_atom])
  | symbol s =>
    cases b with
    | numeric w =>
      cases w with
      | rat q => simp [ex.atom_key] at h
      | other y => exact absurd hb (by simp [ex.is_atom])
    | symbol t => simp [ex.atom_key] at h; rw [h]
    | power _ _ _ => exact absurd hb (by simp [ex.is_atom])
    | add _ _ _ => exact absurd hb (by simp [ex.is_atom])
    | mul _ _ _ => exact absurd hb (by simp [ex.is_atom])
  | power _ _ _ => exact absurd ha (by simp [ex.is_atom])
  | add _ _ _ => exact absurd ha (by simp [ex.is_atom])
  | mul _ _ _ => exact absurd ha (by simp [ex.is_atom])

/-- The comparison `plain_compare` is negative when the key of the first
expression comes first. -/
theorem plain_compare_neg_iff {F : Type} (a b : ex F) :
    plain_compare a b < 0 ↔
      (a.atom_key.1 < b.atom_key.1 ∨ (a.atom_key.1 = b.atom_key.1 ∧ a.atom_key.2 < b.atom_key.2)) := by
  unfold plain_compare
  split_ifs with h1 h2 h3 h4
  · simp [h1]
  · constructor
    · intro h; norm_num at h
    · rintro (h | ⟨h, -⟩) <;> linarith
  · have : a.atom_key.1 = b.atom_key.1 := le_antisymm (not_lt.mp h2) (not_lt.mp h1)
    simp [this, h3]
  · have : a.atom_key.1 = b.atom_key.1 := le_antisymm (not_lt.mp h2) (not_lt.mp h1)
    simp [this]; exact le_of_lt h4
  · have : a.atom_key.1 = b.atom_key.1 := le_antisymm (not_lt.mp h2) (not_lt.mp h1)
    simp [this]; exact not_lt.mp h3

/-- The comparison `plain_compare` is positive when the key of the second
expression comes first. -/
theorem plain_compare_pos_iff {F : Type} (a b : ex F) :
    0 < plain_compare a b ↔
      (b.atom_key.1 < a.atom_key.1 ∨ (b.atom_key.1 = a.atom_key.1 ∧ b.atom_key.2 < a.atom_key.2)) := by
  unfold plain_compare
  split_ifs with h1 h2 h3 h4
  · constructor
    · intro h; norm_num at h
    · rintro (h | ⟨h, -⟩) <;> linarith
  · simp [h2]
  · have : b.atom_key.1 = a.atom_key.1 := le_antisymm (not_lt.mp h1) (not_lt.mp h2)
    simp [this]; exact le_of_lt h3
  · have : b.atom_key.1 = a.atom_key.1 := le_antisymm (not_lt.mp h1) (not_lt.mp h2)
    simp [this, h4]
  · have : b.atom_key.1 = a.atom_key.1 := le_antisymm (not_lt.mp h1) (not_lt.mp h2)
    simp [this]; exact not_lt.mp h4

/-- The comparison `plain_compare` is 0 when the keys are equal. -/
theorem plain_compare_zero_iff {F : Type} (a b : ex F) :
    plain_compare a b = 0 ↔ a.atom_key = b.atom_key := by
  unfold plain_compare
  split_ifs with h1 h2 h3 h4
  · simp; intro h; rw [h] at h1; exact lt_irrefl _ h1
  · simp; intro h; rw [h] at h2; exact lt_irrefl _ h2
  · simp; intro h; rw [h] at h3; exact lt_irrefl _ h3
  · simp; intro h; rw [h] at h4; exact lt_irrefl _ h4
  · simp
    exact Prod.ext (le_antisymm (not_lt.mp h2) (not_lt.mp h1))
      (le_antisymm (not_lt.mp h4) (not_lt.mp h3))

/-- The comparison `plain_compare` is a total order on the exact rationals and
the symbols. -/
theorem plain_compare_total {F : Type} :
    compare_total_on (plain_compare : ex F → ex F → ℤ) ex.is_atom := by
  refine ⟨?_, ?_, ?_⟩
  · intro a b ha hb
    rw [plain_compare_zero_iff]
    exact ⟨atom_key_injective a b ha hb, fun h => by rw [h]⟩
  · intro a b _ _
    rw [plain_compare_neg_iff, plain_compare_pos_iff]
  · intro a b c _ _ _
    rw [plain_compare_neg_iff, plain_compare_neg_iff, plain_compare_neg_iff]
    rintro (h1 | ⟨h1, h2⟩) (h3 | ⟨h3, h4⟩)
    · exact Or.inl (lt_trans h1 h3)
    · exact Or.inl (by rw [← h3]; exact h1)
    · exact Or.inl (by rw [h1]; exact h3)
    · exact Or.inr ⟨h1.trans h3, lt_trans h2 h4⟩

/-- C26, at the pairs `(x, 1)` and `(x, 2)` of a symbol x, compared with
`plain_compare`: the rests compare equal, the pairs compare as their
coefficients do, the first is less than the second and they are not equal. -/
theorem expair_order_lexicographic_witness :
    (⟨ex.symbol 7, ex.numeric (numeric.rat 1)⟩ : expair (ex surd)).compare plain_compare
        ⟨ex.symbol 7, ex.numeric (numeric.rat 2)⟩
      = plain_compare (ex.numeric (numeric.rat 1) : ex surd) (ex.numeric (numeric.rat 2)) ∧
    (⟨ex.symbol 7, ex.numeric (numeric.rat 1)⟩ : expair (ex surd)).is_less plain_compare
        ⟨ex.symbol 7, ex.numeric (numeric.rat 2)⟩ = true ∧
    ¬ ((⟨ex.symbol 7, ex.numeric (numeric.rat 1)⟩ : expair (ex surd)).is_equal plain_compare
        ⟨ex.symbol 7, ex.numeric (numeric.rat 2)⟩ = true) := by
  have h := expair_order_lexicographic (plain_compare : ex surd → ex surd → ℤ)
    ⟨ex.symbol 7, ex.numeric (numeric.rat 1)⟩ ⟨ex.symbol 7, ex.numeric (numeric.rat 2)⟩
    (by norm_num [plain_compare, ex.atom_key]) (by norm_num [plain_compare, ex.atom_key])
  refine ⟨h.2.1 (by norm_num [plain_compare, ex.atom_key]), ?_, ?_⟩
  · rw [h.2.2.1, h.2.1 (by norm_num [plain_compare, ex.atom_key])]
    norm_num [plain_compare, ex.atom_key]
  · rw [h.2.2.2.2.1]
    norm_num

/-- On pairs whose components the expression comparison orders totally, the sign
of `compare` is antisymmetric. -/
theorem expair_compare_antisymm {F : Type} (cmp : ex F → ex F → ℤ) (S : ex F → Prop)
    (hcmp : compare_total_on cmp S) (a b : expair (ex F)) (ha : a.within S) (hb : b.within S) :
    (a.compare cmp b < 0 ↔ 0 < b.compare cmp a) ∧ (a.compare cmp b = 0 ↔ b.compare cmp a = 0) := by
  obtain ⟨h0, hanti, -⟩ := hcmp
  have hz : ∀ x y, S x → S y → (cmp x y = 0 ↔ cmp y x = 0) := by
    intro x y hx hy
    rw [h0 x y hx hy, h0 y x hy hx]
    exact eq_comm
  unfold expair.compare
  by_cases h : cmp a.rest b.rest = 0
  · have h2 := (hz _ _ ha.1 hb.1).mp h
    simp only [h, h2, ne_eq, not_true_eq_false, if_false]
    exact ⟨hanti _ _ ha.2 hb.2, hz _ _ ha.2 hb.2⟩
  · have h2 : ¬ cmp b.rest a.rest = 0 := fun h3 => h ((hz _ _ ha.1 hb.1).mpr h3)
    simp only [h, h2, ne_eq, not_false_eq_true, if_true]
    exact ⟨hanti _ _ ha.1 hb.1, by simp [h, h2]⟩

/-- On pairs whose components the expression comparison orders totally,
`compare` is transitive. -/
theorem expair_compare_trans {F : Type} (cmp : ex F → ex F → ℤ) (S : ex F → Prop)
    (hcmp : compare_total_on cmp S) (a b c : expair (ex F)) (ha : a.within S) (hb : b.within S)
    (hc : c.within S) (hab : a.compare cmp b < 0) (hbc : b.compare cmp c < 0) :
    a.compare cmp c < 0 := by
  obtain ⟨h0, -, htrans⟩ := hcmp
  unfold expair.compare at hab hbc ⊢
  by_cases h1 : cmp a.rest b.rest = 0
  · have e1 := (h0 _ _ ha.1 hb.1).mp h1
    by_cases h2 : cmp b.rest c.rest = 0
    · have e2 := (h0 _ _ hb.1 hc.1).mp h2
      have h3 : cmp a.rest c.rest = 0 := (h0 _ _ ha.1 hc.1).mpr (e1.trans e2)
      simp only [h1, h2, h3, ne_eq, not_true_eq_false, if_false] at hab hbc ⊢
      exact htrans _ _ _ ha.2 hb.2 hc.2 hab hbc
    · simp only [h2, ne_eq, not_false_eq_true, if_true] at hbc
      rw [e1]
      simp only [h2, ne_eq, not_false_eq_true, if_true]
      exact hbc
  · simp only [h1, ne_eq, not_false_eq_true, if_true] at hab
    by_cases h2 : cmp b.rest c.rest = 0
    · have e2 := (h0 _ _ hb.1 hc.1).mp h2
      rw [← e2]
      simp only [h1, ne_eq, not_false_eq_true, if_true]
      exact hab
    · simp only [h2, ne_eq, not_false_eq_true, if_true] at hbc
      have h3 := htrans _ _ _ ha.1 hb.1 hc.1 hab hbc
      have h4 : ¬ cmp a.rest c.rest = 0 := by omega
      simp only [h4, ne_eq, not_false_eq_true, if_true]
      exact h3

/-- C27: when the expression comparison is a total order on the components of the
pairs a, b, c (0 exactly on equal expressions, antisymmetric in sign,
transitive), exactly one of `is_less(a,b)`, `is_equal(a,b)`, `is_less(b,a)` holds,
`is_less` is irreflexive and transitive, and so is "neither is less than the
other", which makes `expair_is_less` a strict weak ordering. -/
theorem expair_total_order {F : Type} (cmp : ex F → ex F → ℤ) (S : ex F → Prop)
    (hcmp : compare_total_on cmp S) (a b c : expair (ex F))
    (ha : a.within S) (hb : b.within S) (hc : c.within S) :
    ((a.is_less cmp b = true ∧ a.is_equal cmp b = false ∧ b.is_less cmp a = false) ∨
     (a.is_less cmp b = false ∧ a.is_equal cmp b = true ∧ b.is_less cmp a = false) ∨
     (a.is_less cmp b = false ∧ a.is_equal cmp b = false ∧ b.is_less cmp a = true)) ∧
    a.is_less cmp a = false ∧
    (a.is_less cmp b = true → b.is_less cmp c = true → a.is_less cmp c = true) ∧
    (a.is_less cmp b = false → b.is_less cmp a = false →
      b.is_less cmp c = false → c.is_less cmp b = false →
      a.is_less cmp c = false ∧ c.is_less cmp a = false) ∧
    expair_is_less cmp a b = a.is_less cmp b := by
  have hlt : ∀ p q : expair (ex F), p.is_less cmp q = false ↔ ¬ p.compare cmp q < 0 := by
    intro p q
    rw [← expair_is_less_iff]
    simp
  have heq : ∀ p q : expair (ex F), p.is_equal cmp q = false ↔ ¬ p.compare cmp q = 0 := by
    intro p q
    rw [← expair_is_equal_iff]
    simp
  have hab := expair_compare_antisymm cmp S hcmp a b ha hb
  have hba := expair_compare_antisymm cmp S hcmp b a hb ha
  have haa := expair_compare_antisymm cmp S hcmp a a ha ha
  refine ⟨?_, ?_, ?_, ?_, rfl⟩
  · simp only [hlt, heq, expair_is_less_iff, expair_is_equal_iff]
    rcases lt_trichotomy (a.compare cmp b) 0 with h | h | h
    · left
      refine ⟨h, by omega, ?_⟩
      intro h2; have := hba.1.mp h2; omega
    · right; left
      refine ⟨by omega, h, ?_⟩
      intro h2; have := hba.1.mp h2; omega
    · right; right
      exact ⟨by omega, by omega, hba.1.mpr h⟩
  · rw [hlt]
    intro h
    have := haa.1.mp h
    omega
  · simp only [expair_is_less_iff]
    exact expair_compare_trans cmp S hcmp a b c ha hb hc
  · simp only [hlt]
    intro h1 h2 h3 h4
    have hbc := expair_compare_antisymm cmp S hcmp b c hb hc
    have hcb := expair_compare_antisymm cmp S hcmp c b hc hb
    have hac := expair_compare_antisymm cmp S hcmp a c ha hc
    have hca := expair_compare_antisymm cmp S hcmp c a hc ha
    -- both comparisons are 0, so a = b = c
    have e1 : a.compare cmp b = 0 := by
      rcases lt_trichotomy (a.compare cmp b) 0 with h | h | h
      · exact absurd h h1
      · exact h
      · exact absurd (hba.1.mpr h) h2
    have e2 : b.compare cmp c = 0 := by
      rcases lt_trichotomy (b.compare cmp c) 0 with h | h | h
      · exact absurd h h3
      · exact h
      · exact absurd (hcb.1.mpr h) h4
    obtain ⟨h0, -, -⟩ := hcmp
    have hpe : ∀ p q : expair (ex F), p.within S → q.within S → p.compare cmp q = 0 → p = q := by
      intro p q hp hq h
      have := (expair_is_equal_iff_eq cmp p q (h0 _ _ hp.1 hq.1) (h0 _ _ hp.2 hq.2)).mp
        ((expair_is_equal_iff cmp p q).mpr h)
      exact this
    have e3 := hpe a b ha hb e1
    have e4 := hpe b c hb hc e2
    subst e3 e4
    constructor
    · intro h; have := haa.1.mp h; omega
    · intro h; have := haa.1.mp h; omega

/-- C27, at the pairs `(x, 1)`, `(x, 2)`, `(y, 1)` of two symbols, compared with
`plain_compare`: the first is less than the second, the second less than the
third, hence the first less than the third, and the first is not less than
itself. -/
theorem expair_total_order_witness :
    (⟨ex.symbol 7, ex.numeric (numeric.rat 1)⟩ : expair (ex surd)).is_less plain_compare
        ⟨ex.symbol 7, ex.numeric (numeric.rat 2)⟩ = true ∧
    (⟨ex.symbol 7, ex.numeric (numeric.rat 2)⟩ : expair (ex surd)).is_less plain_compare
        ⟨ex.symbol 8, ex.numeric (numeric.rat 1)⟩ = true ∧
    (⟨ex.symbol 7, ex.numeric (numeric.rat 1)⟩ : expair (ex surd)).is_less plain_compare
        ⟨ex.symbol 8, ex.numeric (numeric.rat 1)⟩ = true ∧
    (⟨ex.symbol 7, ex.numeric (numeric.rat 1)⟩ : expair (ex surd)).is_less plain_compare
        ⟨ex.symbol 7, ex.numeric (numeric.rat 1)⟩ = false := by
  have h := expair_total_order (plain_compare : ex surd → ex surd → ℤ) ex.is_atom
    plain_compare_total
    ⟨ex.symbol 7, ex.numeric (numeric.rat 1)⟩ ⟨ex.symbol 7, ex.numeric (numeric.rat 2)⟩
    ⟨ex.symbol 8, ex.numeric (numeric.rat 1)⟩
    ⟨trivial, trivial⟩ ⟨trivial, trivial⟩ ⟨trivial, trivial⟩
  have h1 : (⟨ex.symbol 7, ex.numeric (numeric.rat 1)⟩ : expair (ex surd)).is_less plain_compare
      ⟨ex.symbol 7, ex.numeric (numeric.rat 2)⟩ = true := by
    norm_num [expair.is_less, plain_compare, ex.atom_key]
  have h2 : (⟨ex.symbol 7, ex.numeric (numeric.rat 2)⟩ : expair (ex surd)).is_less plain_compare
      ⟨ex.symbol 8, ex.numeric (numeric.rat 1)⟩ = true := by
    norm_num [expair.is_less, plain_compare, ex.atom_key]
  exact ⟨h1, h2, h.2.2.1 h1 h2, h.2.1⟩

/-! ## The numeric coefficient of the pairs that `power.cpp` builds -/

/-- The pairs that `expand_mul` builds have a numeric `coeff` when
`mul::combine_pair_with_coeff_to_pair` returns such pairs. -/
theorem expand_mul_distrseq_numeric {F : Type} (T : tower F) (E : env F) (n : numeric F)
    (hmul : ∀ p c, p.coeff.is_numeric = true → c.is_numeric = true →
      (E.mul_combine_pair_with_coeff_to_pair p c).coeff.is_numeric = true)
    (seq : epvector F) (hseq : ∀ p ∈ seq, p.coeff.is_numeric = true) :
    ∀ p ∈ power.expand_mul_distrseq T E n seq, p.coeff.is_numeric = true := by
  induction seq with
  | nil => intro p hp; simp [power.expand_mul_distrseq] at hp
  | cons q tail ih =>
    intro p hp
    rw [power.expand_mul_distrseq, List.mem_cons] at hp
    rcases hp with hp | hp
    · subst hp
      split_ifs
      · exact hmul q _ (hseq q (List.mem_cons_self _ _)) rfl
      · rfl
    · exact ih (fun r hr => hseq r (List.mem_cons_of_mem _ hr)) p hp

/-- The pairs of the first part of `expand_add_2` have a numeric `coeff` when
`add::combine_ex_with_coeff_to_pair` returns such pairs. -/
theorem expand_add_2_first_numeric {F : Type} (T : tower F) (E : env F)
    (hadd : ∀ e c, c.is_numeric = true →
      (E.add_combine_ex_with_coeff_to_pair e c).coeff.is_numeric = true)
    (seq : epvector F) :
    ∀ p ∈ power.expand_add_2_first T E seq, p.coeff.is_numeric = true := by
  induction seq with
  | nil => intro p hp; simp [power.expand_add_2_first] at hp
  | cons q tail ih =>
    intro p hp
    rw [power.expand_add_2_first, expand_add_2_square_eq, List.mem_append, List.mem_cons,
      expand_add_2_cross_eq_map] at hp
    rcases hp with (hp | hp) | hp
    · subst hp; rfl
    · obtain ⟨q1, -, rfl⟩ := List.mem_map.mp hp
      exact hadd _ _ rfl
    · exact ih p hp

/-- C28: when the members `combine_pair_with_coeff_to_pair` and
`combine_ex_with_coeff_to_pair` of the sum and of the product return pairs with a
numeric `coeff` on such pairs and numeric coefficients, every pair that
`power::expand_mul` and `power::expand_add_2` build from a sequence of pairs with
numeric `coeff` has a numeric `coeff`, the residual handed on by `expand_mul` is a
number, every pair of the product that the numeric branch of `power::eval`
builds has a numeric `coeff`, and so has the default pair `(0, 1)`. -/
theorem power_pairs_numeric_coeff {F : Type} (T : tower F) (E : env F)
    (hmul : ∀ p c, p.coeff.is_numeric = true → c.is_numeric = true →
      (E.mul_combine_pair_with_coeff_to_pair p c).coeff.is_numeric = true)
    (hadd : ∀ e c, c.is_numeric = true →
      (E.add_combine_ex_with_coeff_to_pair e c).coeff.is_numeric = true)
    (haddp : ∀ p c, p.coeff.is_numeric = true → c.is_numeric = true →
      (E.add_combine_pair_with_coeff_to_pair p c).coeff.is_numeric = true)
    (seq : epvector F) (overall_coeff : ex F)
    (hseq : ∀ p ∈ seq, p.coeff.is_numeric = true) (n : numeric F)
    (basis exponent : ex F) (b e : ℚ) :
    (power.expand_mul T E seq overall_coeff n = exONE ∨
      power.expand_mul T E seq overall_coeff n
        = (E.mul_epvector_coeff (power.expand_mul_distrseq T E n seq)
            (ex.numeric (overall_coeff.to_numeric.power T n))).to_mul false) ∧
    (∀ p ∈ power.expand_mul_distrseq T E n seq, p.coeff.is_numeric = true) ∧
    (∀ p ∈ power.expand_add_2_sum T E ⟨seq, overall_coeff⟩, p.coeff.is_numeric = true) ∧
    (b ≠ 0 → b ≠ 1 → e.den ≠ 1 →
      ((numeric.rat b).power T (numeric.rat e)).is_rational = false → ⌊e⌋ ≠ 0 →
      ∃ res : epvector F,
        power.eval_rules T E basis exponent (ex.numeric (numeric.rat b)) (ex.numeric (numeric.rat e))
          = Except.ok ((E.mul_epvector res).to_mul true) ∧
        res.length = 4 ∧ ∀ p ∈ res, p.coeff.is_numeric = true) ∧
    (expair.default : expair (ex F)).coeff.is_numeric = true := by
  refine ⟨?_, expand_mul_distrseq_numeric T E n hmul seq hseq, ?_, ?_, rfl⟩
  · unfold power.expand_mul
    split_ifs
    · exact Or.inl rfl
    · exact Or.inr rfl
  · intro p hp
    rw [power.expand_add_2_sum, List.mem_append] at hp
    rcases hp with hp | hp
    · exact expand_add_2_first_numeric T E hadd seq p hp
    · unfold power.expand_add_2_second at hp
      split_ifs at hp
      · rw [List.mem_append, List.mem_singleton] at hp
        rcases hp with hp | hp
        · obtain ⟨q, hq, rfl⟩ := List.mem_map.mp hp
          exact haddp q _ (hseq q hq) rfl
        · subst hp; rfl
      · simp at hp
  · intro hb0 hb1 hnint hirr hfloor
    refine ⟨[expair.default, expair.default,
        ⟨ex.numeric (numeric.rat b), ex.numeric (numeric.rat (e - ⌊e⌋))⟩,
        ⟨ex.numeric ((numeric.rat b).power T (numeric.rat ⌊e⌋)), exONE⟩], ?_, ?_, ?_⟩
    · rw [eval_rules_irrational_power T E basis exponent b e hb0 hb1 hnint hirr, if_neg hfloor]
    · rfl
    · intro p hp
      simp only [List.mem_cons, List.mem_singleton, List.not_mem_nil, or_false] at hp
      rcases hp with hp | hp | hp | hp <;> subst hp <;> rfl

/-- C28, in the plain environment: the pairs that `expand_mul` builds for `(x*y)^2`
and the pairs that `expand_add_2` builds for `(x+3)^2` have a numeric `coeff`. -/
theorem power_pairs_numeric_coeff_witness :
    (∀ p ∈ power.expand_mul_distrseq surd_tower (plain_env surd surd_tower) (numeric.rat 2)
        [⟨ex.symbol 7, exONE⟩, ⟨ex.symbol 8, exONE⟩], p.coeff.is_numeric = true) ∧
    (∀ p ∈ power.expand_add_2_sum surd_tower (plain_env surd surd_tower)
        ⟨[⟨ex.symbol 7, exONE⟩, ⟨ex.symbol 8, exONE⟩], ex.numeric (numeric.rat 3)⟩,
      p.coeff.is_numeric = true) := by
  have h := power_pairs_numeric_coeff surd_tower (plain_env surd surd_tower)
    (fun _ _ _ _ => rfl) (fun _ _ hc => hc) (fun _ _ _ _ => rfl)
    [⟨ex.symbol 7, exONE⟩, ⟨ex.symbol 8, exONE⟩] (ex.numeric (numeric.rat 3))
    (by intro p hp; simp at hp; rcases hp with hp | hp <;> subst hp <;> rfl)
    (numeric.rat 2) (ex.symbol 7) (ex.symbol 7) 2 (3 / 2)
  exact ⟨h.2.1, h.2.2.1⟩

/-! ## Sorting with an order that is total on part of a type -/

/-- Insertion into a sorted list keeps it sorted, when the order is asymmetric
and transitive on the elements at hand. -/
theorem orderedInsert_sorted_local {α : Type} (lt : α → α → Prop) [DecidableRel lt]
    (P : α → Prop)
    (hasym : ∀ a b, P a → P b → lt a b → ¬ lt b a)
    (htrans : ∀ a b c, P a → P b → P c → ¬ lt b a → ¬ lt c b → ¬ lt c a)
    (a : α) (ha : P a) :
    ∀ l : List α, (∀ b ∈ l, P b) → l.Sorted (fun x y => ¬ lt y x) →
      (l.orderedInsert lt a).Sorted (fun x y => ¬ lt y x) := by
  intro l
  induction l with
  | nil => intro _ _; simp
  | cons b l ih =>
    intro hP hs
    have hPb : P b := hP b (List.mem_cons_self _ _)
    have hPl : ∀ c ∈ l, P c := fun c hc => hP c (List.mem_cons_of_mem _ hc)
    rw [List.sorted_cons] at hs
    simp only [List.orderedInsert]
    split_ifs with h
    · rw [List.sorted_cons]
      refine ⟨?_, List.sorted_cons.mpr hs⟩
      intro c hc
      rw [List.mem_cons] at hc
      rcases hc with hc | hc
      · subst hc; exact hasym a c ha hPb h
      · exact htrans a b c ha hPb (hPl c hc) (hasym a b ha hPb h) (hs.1 c hc)
    · rw [List.sorted_cons]
      refine ⟨?_, ih hPl hs.2⟩
      intro c hc
      rw [List.mem_orderedInsert] at hc
      rcases hc with hc | hc
      · subst hc; exact h
      · exact hs.1 c hc

/-- Insertion sort sorts, when the order is asymmetric and transitive on the
elements at hand. -/
theorem insertionSort_sorted_local {α : Type} (lt : α → α → Prop) [DecidableRel lt]
    (P : α → Prop)
    (hasym : ∀ a b, P a → P b → lt a b → ¬ lt b a)
    (htrans : ∀ a b c, P a → P b → P c → ¬ lt b a → ¬ lt c b → ¬ lt c a) :
    ∀ l : List α, (∀ b ∈ l, P b) → (l.insertionSort lt).Sorted (fun x y => ¬ lt y x) := by
  intro l
  induction l with
  | nil => intro _; simp
  | cons b l ih =>
    intro hP
    have hPl : ∀ c ∈ l, P c := fun c hc => hP c (List.mem_cons_of_mem _ hc)
    simp only [List.insertionSort]
    apply orderedInsert_sorted_local lt P hasym htrans b (hP b (List.mem_cons_self _ _))
    · intro c hc
      exact hPl c ((List.perm_insertionSort lt l).mem_iff.mp hc)
    · exact ih hPl

/-- Two sorted lists with the same elements are equal, when the order is
antisymmetric on the elements at hand. -/
theorem sorted_perm_unique_local {α : Type} (lt : α → α → Prop) (P : α → Prop)
    (hanti : ∀ a b, P a → P b → ¬ lt a b → ¬ lt b a → a = b) :
    ∀ l₁ l₂ : List α, l₁.Perm l₂ → (∀ a ∈ l₁, P a) →
      l₁.Sorted (fun x y => ¬ lt y x) → l₂.Sorted (fun x y => ¬ lt y x) → l₁ = l₂ := by
  intro l₁
  induction l₁ with
  | nil => intro l₂ hp _ _ _; exact hp.nil_eq
  | cons a t₁ ih =>
    intro l₂ hp hP hs₁ hs₂
    cases l₂ with
    | nil => exact absurd hp.symm.nil_eq (by simp)
    | cons b t₂ =>
      have hPa : P a := hP a (List.mem_cons_self _ _)
      have hPb : P b := hP b (hp.mem_iff.mpr (List.mem_cons_self _ _))
      rw [List.sorted_cons] at hs₁ hs₂
      have hab : a = b := by
        have ha : a ∈ b :: t₂ := hp.mem_iff.mp (List.mem_cons_self _ _)
        have hb : b ∈ a :: t₁ := hp.mem_iff.mpr (List.mem_cons_self _ _)
        rw [List.mem_cons] at ha hb
        rcases ha with ha | ha
        · exact ha
        · rcases hb with hb | hb
          · exact hb.symm
          · exact hanti a b hPa hPb (hs₂.1 a ha) (hs₁.1 b hb)
      subst hab
      rw [ih t₂ (List.Perm.cons_inv hp) (fun c hc => hP c (List.mem_cons_of_mem _ hc))
        hs₁.2 hs₂.2]

/-! ## The order of pairs on pairs whose components are ordered totally -/

/-- On components that the expression comparison orders totally, a pair `a` is
not greater than a pair `b` when `compare(a, b)` is not positive. -/
theorem expair_not_less_iff {F : Type} (cmp : ex F → ex F → ℤ) (S : ex F → Prop)
    (hcmp : compare_total_on cmp S) (a b : expair (ex F)) (ha : a.within S) (hb : b.within S) :
    ¬ (b.is_less cmp a = true) ↔ a.compare cmp b ≤ 0 := by
  rw [expair_is_less_iff]
  have h1 := expair_compare_antisymm cmp S hcmp a b ha hb
  have h2 := expair_compare_antisymm cmp S hcmp b a hb ha
  constructor
  · intro h
    by_contra hc
    exact h (h2.1.mpr (by omega))
  · intro h hc
    have := h2.1.mp hc
    omega

/-- On components that the expression comparison orders totally, pairs that
compare equal are equal. -/
theorem expair_compare_eq_zero {F : Type} (cmp : ex F → ex F → ℤ) (S : ex F → Prop)
    (hcmp : compare_total_on cmp S) (a b : expair (ex F)) (ha : a.within S) (hb : b.within S)
    (h : a.compare cmp b = 0) : a = b :=
  (expair_is_equal_iff_eq cmp a b (hcmp.1 _ _ ha.1 hb.1) (hcmp.1 _ _ ha.2 hb.2)).mp
    ((expair_is_equal_iff cmp a b).mpr h)

/-- On components that the expression comparison orders totally, "not greater" is
transitive on pairs. -/
theorem expair_not_less_trans {F : Type} (cmp : ex F → ex F → ℤ) (S : ex F → Prop)
    (hcmp : compare_total_on cmp S) (a b c : expair (ex F))
    (ha : a.within S) (hb : b.within S) (hc : c.within S)
    (hab : ¬ (b.is_less cmp a = true)) (hbc : ¬ (c.is_less cmp b = true)) :
    ¬ (c.is_less cmp a = true) := by
  rw [expair_not_less_iff cmp S hcmp _ _ ha hb] at hab
  rw [expair_not_less_iff cmp S hcmp _ _ hb hc] at hbc
  rw [expair_not_less_iff cmp S hcmp _ _ ha hc]
  rcases eq_or_lt_of_le hab with h1 | h1
  · rw [expair_compare_eq_zero cmp S hcmp a b ha hb h1]; exact hbc
  · rcases eq_or_lt_of_le hbc with h2 | h2
    · rw [← expair_compare_eq_zero cmp S hcmp b c hb hc h2]; exact hab
    · exact le_of_lt (expair_compare_trans cmp S hcmp a b c ha hb hc h1 h2)

/-- On components that the expression comparison orders totally, a pair that is
not greater than another has a `rest` that is not greater. -/
theorem expair_not_less_rest {F : Type} (cmp : ex F → ex F → ℤ) (S : ex F → Prop)
    (hcmp : compare_total_on cmp S) (a b : expair (ex F)) (ha : a.within S) (hb : b.within S)
    (hab : ¬ (b.is_less cmp a = true)) : cmp a.rest b.rest ≤ 0 := by
  rw [expair_not_less_iff cmp S hcmp _ _ ha hb] at hab
  unfold expair.compare at hab
  by_cases h : cmp a.rest b.rest = 0
  · omega
  · simp only [h, ne_eq, not_false_eq_true, if_true] at hab
    exact hab

/-- The sorted sequence of pairs whose components are ordered totally holds the
same pairs and is sorted: no pair is greater than a later one. -/
theorem canonicalize_sorted {F : Type} (cmp : ex F → ex F → ℤ) (S : ex F → Prop)
    (hcmp : compare_total_on cmp S) (seq : epvector F) (hS : ∀ p ∈ seq, p.within S) :
    (expairseq.canonicalize cmp seq).Perm seq ∧
    (expairseq.canonicalize cmp seq).Sorted (fun a b => ¬ (expair_is_less cmp b a = true)) := by
  refine ⟨List.perm_insertionSort _ _, ?_⟩
  apply insertionSort_sorted_local (fun a b => expair_is_less cmp a b = true)
    (fun p => p.within S) _ _ seq hS
  · intro a b ha hb hab
    have h := expair_compare_antisymm cmp S hcmp a b ha hb
    have h2 := expair_compare_antisymm cmp S hcmp b a hb ha
    show ¬ (b.is_less cmp a = true)
    have hab1 : a.is_less cmp b = true := hab
    rw [expair_is_less_iff] at hab1 ⊢
    intro hba
    have := h.1.mp hab1
    omega
  · intro a b c ha hb hc
    exact expair_not_less_trans cmp S hcmp a b c ha hb hc

/-! ## The scan that combines same terms -/

/-- The entries that the scan lets through are the pair in hand, or nothing. -/
theorem mem_emit {F : Type} (T : tower F) (cur p : expair (ex F))
    (h : p ∈ expairseq.emit T cur) : p = cur ∧ cur.coeff.to_numeric.is_zero T = false := by
  unfold expairseq.emit at h
  split_ifs at h with hz
  · simp at h
  · simp only [List.mem_singleton] at h
    exact ⟨h, by simpa using hz⟩

/-- On a sequence whose rests do not decrease, the scan yields pairs whose rests
increase strictly; each of them has a rest of the sequence, not before the rest
of the pair in hand. -/
theorem combine_step_rests {F : Type} (cmp : ex F → ex F → ℤ) (T : tower F) (S : ex F → Prop)
    (hcmp : compare_total_on cmp S) :
    ∀ (tail : epvector F) (cur : expair (ex F)), S cur.rest → (∀ p ∈ tail, S p.rest) →
      (cur :: tail).Pairwise (fun a b => cmp a.rest b.rest ≤ 0) →
      (expairseq.combine_step cmp T cur tail).Pairwise (fun a b => cmp a.rest b.rest < 0) ∧
      ∀ p ∈ expairseq.combine_step cmp T cur tail, S p.rest ∧ cmp cur.rest p.rest ≤ 0 := by
  obtain ⟨h0, hanti, htrans⟩ := hcmp
  intro tail
  induction tail with
  | nil =>
    intro cur hcur _ _
    constructor
    · unfold expairseq.combine_step expairseq.emit
      split_ifs <;> simp
    · intro p hp
      obtain ⟨rfl, -⟩ := mem_emit T cur p hp
      exact ⟨hcur, le_of_eq ((h0 _ _ hcur hcur).mpr rfl)⟩
  | cons next tail ih =>
    intro cur hcur htail hpw
    have hnext : S next.rest := htail next (List.mem_cons_self _ _)
    have htail2 : ∀ p ∈ tail, S p.rest := fun p hp => htail p (List.mem_cons_of_mem _ hp)
    rw [List.pairwise_cons] at hpw
    obtain ⟨hcur_le, hpw2⟩ := hpw
    rw [expairseq.combine_step]
    split_ifs with heq
    · -- the next pair has the same rest
      have hpw3 : ((⟨cur.rest, ex.numeric (cur.coeff.to_numeric.add T next.coeff.to_numeric)⟩ :
          expair (ex F)) :: tail).Pairwise (fun a b => cmp a.rest b.rest ≤ 0) := by
        rw [List.pairwise_cons]
        exact ⟨fun b hb => hcur_le b (List.mem_cons_of_mem _ hb), (List.pairwise_cons.mp hpw2).2⟩
      exact ih _ hcur htail2 hpw3
    · -- the next pair has a greater rest
      have hlt : cmp cur.rest next.rest < 0 :=
        lt_of_le_of_ne (hcur_le next (List.mem_cons_self _ _)) heq
      obtain ⟨ih1, ih2⟩ := ih next hnext htail2 hpw2
      have hbelow : ∀ b ∈ expairseq.combine_step cmp T next tail, cmp cur.rest b.rest < 0 := by
        intro b hb
        obtain ⟨hSb, hle⟩ := ih2 b hb
        rcases eq_or_lt_of_le hle with h | h
        · rw [← (h0 _ _ hnext hSb).mp h]; exact hlt
        · exact htrans _ _ _ hcur hnext hSb hlt h
      constructor
      · rw [List.pairwise_append]
        refine ⟨?_, ih1, ?_⟩
        · unfold expairseq.emit
          split_ifs <;> simp
        · intro a ha b hb
          obtain ⟨rfl, -⟩ := mem_emit T cur a ha
          exact hbelow b hb
      · intro p hp
        rw [List.mem_append] at hp
        rcases hp with hp | hp
        · obtain ⟨rfl, -⟩ := mem_emit T cur p hp
          exact ⟨hcur, le_of_eq ((h0 _ _ hcur hcur).mpr rfl)⟩
        · exact ⟨(ih2 p hp).1, le_of_lt (hbelow p hp)⟩

/-- The sum of the coefficients for `r` in a sequence with a first pair. -/
theorem coeff_of_cons {F : Type} (cmp : ex F → ex F → ℤ) (r : ex F) (p : expair (ex F))
    (seq : epvector F) :
    coeff_of cmp r (p :: seq)
      = (if cmp p.rest r = 0 then p.rat_coeff else 0) + coeff_of cmp r seq := by
  unfold coeff_of
  by_cases h : cmp p.rest r = 0
  · simp [List.filter_cons, h]
  · simp [List.filter_cons, h]

/-- The sum of the coefficients for `r` in two sequences put together. -/
theorem coeff_of_append {F : Type} (cmp : ex F → ex F → ℤ) (r : ex F) (s t : epvector F) :
    coeff_of cmp r (s ++ t) = coeff_of cmp r s + coeff_of cmp r t := by
  unfold coeff_of
  simp [List.filter_append]

/-- The sum of the coefficients for `r` does not depend on the order of the
pairs. -/
theorem coeff_of_perm {F : Type} (cmp : ex F → ex F → ℤ) (r : ex F) (s t : epvector F)
    (h : s.Perm t) : coeff_of cmp r s = coeff_of cmp r t := by
  unfold coeff_of
  exact ((h.filter _).map _).sum_eq

/-- The sum of the coefficients for `r` in what the scan lets through: a pair
with coefficient zero adds nothing, dropped or not. -/
theorem coeff_of_emit {F : Type} (cmp : ex F → ex F → ℤ) (T : tower F) (r : ex F)
    (cur : expair (ex F)) (q : ℚ) (hq : cur.coeff = ex.numeric (numeric.rat q)) :
    coeff_of cmp r (expairseq.emit T cur) = if cmp cur.rest r = 0 then q else 0 := by
  have hrat : cur.rat_coeff = q := by simp [expair.rat_coeff, hq]
  unfold expairseq.emit
  by_cases hz : q = 0
  · have : cur.coeff.to_numeric.is_zero T = true := by
      rw [hq]; exact (rat_is_zero_iff T q).mpr hz
    rw [if_pos this]
    simp [coeff_of, hz]
  · have : ¬ (cur.coeff.to_numeric.is_zero T = true) := by
      rw [hq]; exact fun h => hz ((rat_is_zero_iff T q).mp h)
    rw [if_neg this, coeff_of_cons, hrat]
    simp [coeff_of]

/-- The scan keeps, for every `rest`, the sum of the coefficients, when the
coefficients are exact rationals; and what it lets through has exact rational
coefficients other than 0. -/
theorem combine_step_coeff {F : Type} (cmp : ex F → ex F → ℤ) (T : tower F) (S : ex F → Prop)
    (hcmp : compare_total_on cmp S) :
    ∀ (tail : epvector F) (cur : expair (ex F)), S cur.rest → (∀ p ∈ tail, S p.rest) →
      (∃ q : ℚ, cur.coeff = ex.numeric (numeric.rat q)) →
      (∀ p ∈ tail, ∃ q : ℚ, p.coeff = ex.numeric (numeric.rat q)) →
      (∀ r, coeff_of cmp r (expairseq.combine_step cmp T cur tail)
        = coeff_of cmp r (cur :: tail)) ∧
      ∀ p ∈ expairseq.combine_step cmp T cur tail,
        ∃ q : ℚ, p.coeff = ex.numeric (numeric.rat q) ∧ q ≠ 0 := by
  obtain ⟨h0, -, -⟩ := hcmp
  intro tail
  induction tail with
  | nil =>
    intro cur _ _ ⟨q, hq⟩ _
    constructor
    · intro r
      rw [expairseq.combine_step, coeff_of_emit cmp T r cur q hq, coeff_of_cons]
      simp [coeff_of, expair.rat_coeff, hq]
    · intro p hp
      obtain ⟨rfl, hz⟩ := mem_emit T cur p hp
      refine ⟨q, hq, ?_⟩
      intro h
      rw [hq] at hz
      have := (rat_is_zero_iff T q).mpr h
      simp [ex.to_numeric] at hz this
      rw [this] at hz
      cases hz
  | cons next tail ih =>
    intro cur hcur htail ⟨q, hq⟩ hrat
    have hnext : S next.rest := htail next (List.mem_cons_self _ _)
    have htail2 : ∀ p ∈ tail, S p.rest := fun p hp => htail p (List.mem_cons_of_mem _ hp)
    obtain ⟨q1, hq1⟩ := hrat next (List.mem_cons_self _ _)
    have hrat2 : ∀ p ∈ tail, ∃ q : ℚ, p.coeff = ex.numeric (numeric.rat q) :=
      fun p hp => hrat p (List.mem_cons_of_mem _ hp)
    rw [expairseq.combine_step]
    split_ifs with heq
    · have hrest : cur.rest = next.rest := (h0 _ _ hcur hnext).mp heq
      have hsum : (ex.numeric (cur.coeff.to_numeric.add T next.coeff.to_numeric) : ex F)
          = ex.numeric (numeric.rat (q + q1)) := by
        rw [hq, hq1]; rfl
      obtain ⟨ih1, ih2⟩ := ih ⟨cur.rest, ex.numeric (cur.coeff.to_numeric.add T next.coeff.to_numeric)⟩
        hcur htail2 ⟨q + q1, hsum⟩ hrat2
      refine ⟨?_, ih2⟩
      intro r
      rw [ih1 r, coeff_of_cons, coeff_of_cons, coeff_of_cons, ← hrest]
      have e1 : (⟨cur.rest, ex.numeric (cur.coeff.to_numeric.add T next.coeff.to_numeric)⟩ :
          expair (ex F)).rat_coeff = q + q1 := by
        simp [expair.rat_coeff, hsum]
      have e2 : cur.rat_coeff = q := by simp [expair.rat_coeff, hq]
      have e3 : next.rat_coeff = q1 := by simp [expair.rat_coeff, hq1]
      rw [e1, e2, e3]
      by_cases hr : cmp cur.rest r = 0
      · simp [hr]; ring
      · simp [hr]
    · obtain ⟨ih1, ih2⟩ := ih next hnext htail2 ⟨q1, hq1⟩ hrat2
      constructor
      · intro r
        rw [coeff_of_append, ih1 r, coeff_of_emit cmp T r cur q hq, coeff_of_cons cmp r cur]
        simp [expair.rat_coeff, hq]
      · intro p hp
        rw [List.mem_append] at hp
        rcases hp with hp | hp
        · obtain ⟨rfl, hz⟩ := mem_emit T cur p hp
          refine ⟨q, hq, ?_⟩
          intro h
          rw [hq] at hz
          have := (rat_is_zero_iff T q).mpr h
          simp [ex.to_numeric] at hz this
          rw [this] at hz
          cases hz
        · exact ih2 p hp

/-! ## The construction of a canonical pair sequence -/

/-- The walk over the operands collects the pairs of all operands and absorbs the
numbers of all operands, in order. -/
theorem make_flat_eq {F : Type} (V : variant F) :
    ∀ (v : exvector F) (seq : epvector F) (overall_coeff : numeric F),
      expairseq.make_flat V v seq overall_coeff =
        (seq ++ v.flatMap (expairseq.operand_pairs V),
         (v.filterMap (expairseq.operand_residual V)).foldl V.combine_overall_coeff
           overall_coeff) := by
  intro v
  induction v with
  | nil => intro seq oc; simp [expairseq.make_flat]
  | cons e tail ih =>
    intro seq oc
    rw [expairseq.make_flat, ih]
    cases h : expairseq.operand_residual V e with
    | none => simp [List.filterMap_cons, h]
    | some x => simp [List.filterMap_cons, h]

/-- The rests of a sequence sorted by the order of pairs do not decrease. -/
theorem canonicalize_rests {F : Type} (cmp : ex F → ex F → ℤ) (S : ex F → Prop)
    (hcmp : compare_total_on cmp S) (seq : epvector F) (hS : ∀ p ∈ seq, p.within S) :
    (expairseq.canonicalize cmp seq).Pairwise (fun a b => cmp a.rest b.rest ≤ 0) := by
  obtain ⟨hperm, hsorted⟩ := canonicalize_sorted cmp S hcmp seq hS
  have hmem : ∀ p ∈ expairseq.canonicalize cmp seq, p.within S :=
    fun p hp => hS p (hperm.mem_iff.mp hp)
  apply List.Pairwise.imp_of_mem _ hsorted
  intro a b ha hb hab
  exact expair_not_less_rest cmp S hcmp a b (hmem a ha) (hmem b hb) hab

/-- What sorting and combining make of pairs whose components are ordered
totally: the rests increase strictly from pair to pair; and, when the
coefficients are exact rationals, the sum of the coefficients is kept for every
`rest`, and every pair has an exact rational coefficient other than 0. -/
theorem combine_canonicalize_spec {F : Type} (cmp : ex F → ex F → ℤ) (T : tower F)
    (S : ex F → Prop) (hcmp : compare_total_on cmp S) (seq : epvector F)
    (hS : ∀ p ∈ seq, p.within S) :
    (expairseq.combine_same_terms_sorted_seq cmp T (expairseq.canonicalize cmp seq)).Pairwise
        (fun a b => cmp a.rest b.rest < 0) ∧
    (∀ p ∈ expairseq.combine_same_terms_sorted_seq cmp T (expairseq.canonicalize cmp seq),
      S p.rest) ∧
    ((∀ p ∈ seq, ∃ q : ℚ, p.coeff = ex.numeric (numeric.rat q)) →
      (∀ r, coeff_of cmp r
          (expairseq.combine_same_terms_sorted_seq cmp T (expairseq.canonicalize cmp seq))
        = coeff_of cmp r seq) ∧
      ∀ p ∈ expairseq.combine_same_terms_sorted_seq cmp T (expairseq.canonicalize cmp seq),
        ∃ q : ℚ, p.coeff = ex.numeric (numeric.rat q) ∧ q ≠ 0) := by
  have hperm : (expairseq.canonicalize cmp seq).Perm seq := List.perm_insertionSort _ _
  have hrests := canonicalize_rests cmp S hcmp seq hS
  have hmem : ∀ p ∈ expairseq.canonicalize cmp seq, p.within S :=
    fun p hp => hS p (hperm.mem_iff.mp hp)
  cases hc : expairseq.canonicalize cmp seq with
  | nil =>
    refine ⟨by simp [expairseq.combine_same_terms_sorted_seq], by
      simp [expairseq.combine_same_terms_sorted_seq], ?_⟩
    intro _
    refine ⟨?_, by simp [expairseq.combine_same_terms_sorted_seq]⟩
    intro r
    rw [← coeff_of_perm cmp r _ _ hperm, hc]
    rfl
  | cons p tail =>
    rw [hc] at hrests hmem hperm
    have hp : S p.rest := (hmem p (List.mem_cons_self _ _)).1
    have htail : ∀ x ∈ tail, S x.rest := fun x hx => (hmem x (List.mem_cons_of_mem _ hx)).1
    obtain ⟨h1, h2⟩ := combine_step_rests cmp T S hcmp tail p hp htail hrests
    refine ⟨h1, fun x hx => (h2 x hx).1, ?_⟩
    intro hrat
    have hrat2 : ∀ x ∈ p :: tail, ∃ q : ℚ, x.coeff = ex.numeric (numeric.rat q) :=
      fun x hx => hrat x (hperm.mem_iff.mp hx)
    obtain ⟨h3, h4⟩ := combine_step_coeff cmp T S hcmp tail p hp htail
      (hrat2 p (List.mem_cons_self _ _)) (fun x hx => hrat2 x (List.mem_cons_of_mem _ hx))
    refine ⟨?_, h4⟩
    intro r
    rw [expairseq.combine_same_terms_sorted_seq, h3 r, coeff_of_perm cmp r _ _ hperm]

/-- In a sequence whose rests increase strictly, the sum of the coefficients for
the `rest` of one of its pairs is the coefficient of that pair. -/
theorem coeff_of_distinct {F : Type} (cmp : ex F → ex F → ℤ) (S : ex F → Prop)
    (hcmp : compare_total_on cmp S) :
    ∀ (seq : epvector F), seq.Pairwise (fun a b => cmp a.rest b.rest < 0) →
      (∀ p ∈ seq, S p.rest) → ∀ p ∈ seq, coeff_of cmp p.rest seq = p.rat_coeff := by
  obtain ⟨h0, hanti, -⟩ := hcmp
  intro seq
  induction seq with
  | nil => intro _ _ p hp; simp at hp
  | cons a tail ih =>
    intro hpw hS p hp
    rw [List.pairwise_cons] at hpw
    have hSa : S a.rest := hS a (List.mem_cons_self _ _)
    have hStail : ∀ x ∈ tail, S x.rest := fun x hx => hS x (List.mem_cons_of_mem _ hx)
    rw [coeff_of_cons]
    rw [List.mem_cons] at hp
    rcases hp with hp | hp
    · subst hp
      have hzero : coeff_of cmp p.rest tail = 0 := by
        unfold coeff_of
        rw [List.filter_eq_nil_iff.mpr]
        · simp
        · intro x hx
          have h1 := hpw.1 x hx
          have h2 := (hanti _ _ hSa (hStail x hx)).mp h1
          simp only [decide_eq_true_eq]
          omega
      rw [hzero, if_pos ((h0 _ _ hSa hSa).mpr rfl)]
      ring
    · have h1 := hpw.1 p hp
      rw [if_neg (by omega), ih hpw.2 hStail p hp]
      ring

/-- The residual that the sum variant absorbs from exact rationals is their
sum. -/
theorem foldl_add_rational {F : Type} (T : tower F) :
    ∀ (R : List (numeric F)) (q0 : ℚ), (∀ x ∈ R, x.is_rational = true) →
      R.foldl (numeric.add T) (numeric.rat q0)
        = numeric.rat (q0 + (R.map numeric.rat_value).sum) := by
  intro R
  induction R with
  | nil => intro q0 _; simp
  | cons x R ih =>
    intro q0 h
    have hx := h x (List.mem_cons_self _ _)
    cases x with
    | rat q =>
      rw [List.foldl_cons, show numeric.add T (numeric.rat q0) (numeric.rat q)
        = numeric.rat (q0 + q) from rfl, ih _ (fun y hy => h y (List.mem_cons_of_mem _ hy))]
      simp [numeric.rat_value, add_assoc]
    | other y => simp [numeric.is_rational] at hx

/-- The residual that the product variant absorbs from exact rationals is their
product. -/
theorem foldl_mul_rational {F : Type} (T : tower F) :
    ∀ (R : List (numeric F)) (q0 : ℚ), (∀ x ∈ R, x.is_rational = true) →
      R.foldl (numeric.mul T) (numeric.rat q0)
        = numeric.rat (q0 * (R.map numeric.rat_value).prod) := by
  intro R
  induction R with
  | nil => intro q0 _; simp
  | cons x R ih =>
    intro q0 h
    have hx := h x (List.mem_cons_self _ _)
    cases x with
    | rat q =>
      rw [List.foldl_cons, show numeric.mul T (numeric.rat q0) (numeric.rat q)
        = numeric.rat (q0 * q) from rfl, ih _ (fun y hy => h y (List.mem_cons_of_mem _ hy))]
      simp [numeric.rat_value, mul_assoc]
    | other y => simp [numeric.is_rational] at hx

/-- The test for sortedness holds on a sequence in which no pair is greater than
a later one. -/
theorem is_canonical_of_sorted {F : Type} (cmp : ex F → ex F → ℤ) :
    ∀ seq : epvector F, seq.Sorted (fun a b => ¬ (expair_is_less cmp b a = true)) →
      expairseq.is_canonical cmp seq = true := by
  intro seq
  induction seq with
  | nil => intro _; rfl
  | cons a tail ih =>
    intro h
    rw [List.sorted_cons] at h
    cases tail with
    | nil => rfl
    | cons b tail =>
      rw [expairseq.is_canonical, ih h.2]
      have := h.1 b (List.mem_cons_self _ _)
      unfold expair_is_less at this
      simp [this]

/-- A sequence whose rests increase strictly is sorted in the order of pairs:
every pair is less than every later one, and no pair is greater than a later
one. -/
theorem sorted_of_rests_increasing {F : Type} (cmp : ex F → ex F → ℤ) (S : ex F → Prop)
    (hcmp : compare_total_on cmp S) (seq : epvector F)
    (hpw : seq.Pairwise (fun a b => cmp a.rest b.rest < 0)) (hS : ∀ p ∈ seq, S p.rest) :
    seq.Pairwise (fun a b => a.is_less cmp b = true) ∧
    seq.Sorted (fun a b => ¬ (expair_is_less cmp b a = true)) := by
  constructor
  · apply List.Pairwise.imp _ hpw
    intro a b h
    simp [expair.is_less, h]
  · apply List.Pairwise.imp_of_mem _ hpw
    intro a b ha hb h
    have h2 := (hcmp.2.1 _ _ (hS a ha) (hS b hb)).mp h
    have h3 : ¬ cmp b.rest a.rest < 0 := by omega
    simp [expair_is_less, expair.is_less, h2, h3]

/-- C24: for every list of operands whose pairs have components that the
expression comparison orders totally, the sequence is sorted after
`canonicalize` (no pair is greater than a later one, and `is_canonical` holds),
and the sequence of the constructed canonical pair sequence, after the same
terms are combined, is sorted too: `is_canonical` holds and every pair is less
than every later one. -/
theorem construct_from_exvector_sorted {F : Type} (V : variant F) (cmp : ex F → ex F → ℤ)
    (T : tower F) (S : ex F → Prop) (hcmp : compare_total_on cmp S) (v : exvector F)
    (hS : ∀ e ∈ v, ∀ p ∈ expairseq.operand_pairs V e, p.within S) :
    (expairseq.canonicalize cmp (v.flatMap (expairseq.operand_pairs V))).Sorted
        (fun a b => ¬ (expair_is_less cmp b a = true)) ∧
    expairseq.is_canonical cmp
        (expairseq.canonicalize cmp (v.flatMap (expairseq.operand_pairs V))) = true ∧
    (expairseq.construct_from_exvector V cmp T v).seq
      = expairseq.combine_same_terms_sorted_seq cmp T
          (expairseq.canonicalize cmp (v.flatMap (expairseq.operand_pairs V))) ∧
    (expairseq.construct_from_exvector V cmp T v).seq.Pairwise
        (fun a b => a.is_less cmp b = true) ∧
    (expairseq.construct_from_exvector V cmp T v).seq.Sorted
        (fun a b => ¬ (expair_is_less cmp b a = true)) ∧
    expairseq.is_canonical cmp (expairseq.construct_from_exvector V cmp T v).seq = true := by
  have hP : ∀ p ∈ v.flatMap (expairseq.operand_pairs V), p.within S := by
    intro p hp
    obtain ⟨e, he, hpe⟩ := List.mem_flatMap.mp hp
    exact hS e he p hpe
  have hseq : (expairseq.construct_from_exvector V cmp T v).seq
      = expairseq.combine_same_terms_sorted_seq cmp T
          (expairseq.canonicalize cmp (v.flatMap (expairseq.operand_pairs V))) := by
    simp [expairseq.construct_from_exvector, expairseq.construct_from_epvector, make_flat_eq]
  obtain ⟨-, hsorted⟩ := canonicalize_sorted cmp S hcmp _ hP
  obtain ⟨h1, h2, -⟩ := combine_canonicalize_spec cmp T S hcmp _ hP
  rw [← hseq] at h1 h2
  obtain ⟨h3, h4⟩ := sorted_of_rests_increasing cmp S hcmp _ h1 h2
  exact ⟨hsorted, is_canonical_of_sorted cmp _ hsorted, hseq, h3, h4,
    is_canonical_of_sorted cmp _ h4⟩

/-- C23: for every list of operands whose pairs have components that the
expression comparison orders totally, no two pairs of the constructed canonical
pair sequence have the same `rest`: their rests are different expressions, and
they do not compare equal. -/
theorem construct_from_exvector_no_duplicate_rest {F : Type} (V : variant F)
    (cmp : ex F → ex F → ℤ) (T : tower F) (S : ex F → Prop) (hcmp : compare_total_on cmp S)
    (v : exvector F) (hS : ∀ e ∈ v, ∀ p ∈ expairseq.operand_pairs V e, p.within S) :
    (expairseq.construct_from_exvector V cmp T v).seq.Pairwise
        (fun a b => a.rest ≠ b.rest ∧ ex.is_equal cmp a.rest b.rest = false) ∧
    ((expairseq.construct_from_exvector V cmp T v).seq.map (fun p => p.rest)).Nodup := by
  have hP : ∀ p ∈ v.flatMap (expairseq.operand_pairs V), p.within S := by
    intro p hp
    obtain ⟨e, he, hpe⟩ := List.mem_flatMap.mp hp
    exact hS e he p hpe
  have hseq : (expairseq.construct_from_exvector V cmp T v).seq
      = expairseq.combine_same_terms_sorted_seq cmp T
          (expairseq.canonicalize cmp (v.flatMap (expairseq.operand_pairs V))) := by
    simp [expairseq.construct_from_exvector, expairseq.construct_from_epvector, make_flat_eq]
  obtain ⟨h1, h2, -⟩ := combine_canonicalize_spec cmp T S hcmp _ hP
  rw [← hseq] at h1 h2
  have hpw : (expairseq.construct_from_exvector V cmp T v).seq.Pairwise
      (fun a b => a.rest ≠ b.rest ∧ ex.is_equal cmp a.rest b.rest = false) := by
    apply List.Pairwise.imp_of_mem _ h1
    intro a b ha hb h
    have hne : cmp a.rest b.rest ≠ 0 := by omega
    refine ⟨fun heq => hne ((hcmp.1 _ _ (h2 a ha) (h2 b hb)).mpr heq), ?_⟩
    simp [ex.is_equal, hne]
  refine ⟨hpw, ?_⟩
  rw [List.Nodup, List.pairwise_map]
  exact List.Pairwise.imp (fun h => h.1) hpw

/-- On components that the expression comparison orders totally, two pairs none
of which is less than the other are equal. -/
theorem expair_not_less_antisymm {F : Type} (cmp : ex F → ex F → ℤ) (S : ex F → Prop)
    (hcmp : compare_total_on cmp S) (a b : expair (ex F)) (ha : a.within S) (hb : b.within S)
    (hab : ¬ (expair_is_less cmp a b = true)) (hba : ¬ (expair_is_less cmp b a = true)) :
    a = b := by
  have h1 := (expair_not_less_iff cmp S hcmp b a hb ha).mp hab
  have h2 := (expair_not_less_iff cmp S hcmp a b ha hb).mp hba
  have h3 := expair_compare_antisymm cmp S hcmp a b ha hb
  apply expair_compare_eq_zero cmp S hcmp a b ha hb
  rcases eq_or_lt_of_le h2 with h | h
  · exact h
  · have := h3.1.mp h
    omega

/-- Sorting two sequences with the same pairs gives the same sequence. -/
theorem canonicalize_perm {F : Type} (cmp : ex F → ex F → ℤ) (S : ex F → Prop)
    (hcmp : compare_total_on cmp S) (seq seq1 : epvector F) (hperm : seq.Perm seq1)
    (hS : ∀ p ∈ seq, p.within S) :
    expairseq.canonicalize cmp seq = expairseq.canonicalize cmp seq1 := by
  have hS1 : ∀ p ∈ seq1, p.within S := fun p hp => hS p (hperm.mem_iff.mpr hp)
  obtain ⟨hp1, hs1⟩ := canonicalize_sorted cmp S hcmp seq hS
  obtain ⟨hp2, hs2⟩ := canonicalize_sorted cmp S hcmp seq1 hS1
  exact sorted_perm_unique_local (fun a b => expair_is_less cmp a b = true)
    (fun p => p.within S) (expair_not_less_antisymm cmp S hcmp) _ _
    (hp1.trans (hperm.trans hp2.symm)) (fun p hp => hS p (hp1.mem_iff.mp hp)) hs1 hs2

/-- C21: for every list of operands and every permutation of it, the canonical
pair sequences constructed from the two lists as a sum, or as a product, are
the same: the same sequence of pairs and the same residual, and so the same
expression.  The expression comparison is taken to be a total order on the
components of the pairs, and the numbers among the operands to be exact
rationals. -/
theorem construct_from_exvector_perm {F : Type} (cmp : ex F → ex F → ℤ) (T : tower F)
    (S : ex F → Prop) (hcmp : compare_total_on cmp S) (V : variant F)
    (hV : V = add_variant T ∨ V = mul_variant T) (v v1 : exvector F) (hperm : v.Perm v1)
    (hS : ∀ e ∈ v, ∀ p ∈ expairseq.operand_pairs V e, p.within S)
    (hnum : ∀ e ∈ v, ∀ x, expairseq.operand_residual V e = some x → x.is_rational = true) :
    expairseq.construct_from_exvector V cmp T v = expairseq.construct_from_exvector V cmp T v1 ∧
    (expairseq.construct_from_exvector V cmp T v).seq
      = (expairseq.construct_from_exvector V cmp T v1).seq ∧
    (expairseq.construct_from_exvector V cmp T v).overall_coeff
      = (expairseq.construct_from_exvector V cmp T v1).overall_coeff ∧
    expairseq.to_ex V (expairseq.construct_from_exvector V cmp T v)
      = expairseq.to_ex V (expairseq.construct_from_exvector V cmp T v1) := by
  have hP : ∀ p ∈ v.flatMap (expairseq.operand_pairs V), p.within S := by
    intro p hp
    obtain ⟨e, he, hpe⟩ := List.mem_flatMap.mp hp
    exact hS e he p hpe
  have hseq := canonicalize_perm cmp S hcmp _ _
    (List.Perm.flatMap_right (expairseq.operand_pairs V) hperm) hP
  have hR := List.Perm.filterMap (expairseq.operand_residual V) hperm
  have hRrat : ∀ x ∈ v.filterMap (expairseq.operand_residual V), x.is_rational = true := by
    intro x hx
    obtain ⟨e, he, hex⟩ := List.mem_filterMap.mp hx
    exact hnum e he x hex
  have hRrat1 : ∀ x ∈ v1.filterMap (expairseq.operand_residual V), x.is_rational = true :=
    fun x hx => hRrat x (hR.mem_iff.mpr hx)
  have hres : (v.filterMap (expairseq.operand_residual V)).foldl V.combine_overall_coeff
        V.default_overall_coeff
      = (v1.filterMap (expairseq.operand_residual V)).foldl V.combine_overall_coeff
        V.default_overall_coeff := by
    rcases hV with hV | hV
    · subst hV
      show List.foldl (numeric.add T) (numeric.rat 0) _ = List.foldl (numeric.add T) (numeric.rat 0) _
      rw [foldl_add_rational T _ 0 hRrat, foldl_add_rational T _ 0 hRrat1,
        (hR.map numeric.rat_value).sum_eq]
    · subst hV
      show List.foldl (numeric.mul T) (numeric.rat 1) _ = List.foldl (numeric.mul T) (numeric.rat 1) _
      rw [foldl_mul_rational T _ 1 hRrat, foldl_mul_rational T _ 1 hRrat1,
        (hR.map numeric.rat_value).prod_eq]
  have heq : expairseq.construct_from_exvector V cmp T v
      = expairseq.construct_from_exvector V cmp T v1 := by
    simp only [expairseq.construct_from_exvector, expairseq.construct_from_epvector, make_flat_eq,
      List.nil_append, hseq, hres]
  exact ⟨heq, by rw [heq], by rw [heq], by rw [heq]⟩

/-- C22: for every list of addends whose pairs have exact rational coefficients
(and components that the expression comparison orders totally) and whose
numbers are exact rationals, the coefficient that the constructed sum stores
for a `rest` is the sum of the coefficients of all pairs of the operands with
that `rest`, which is not 0; a `rest` for which that sum is not 0 is stored; and
the residual is the sum of the numbers that the operands bring. -/
theorem construct_sum_coefficients {F : Type} (cmp : ex F → ex F → ℤ) (T : tower F)
    (S : ex F → Prop) (hcmp : compare_total_on cmp S) (v : exvector F)
    (hS : ∀ e ∈ v, ∀ p ∈ expairseq.operand_pairs (add_variant T) e, p.within S)
    (hrat : ∀ e ∈ v, ∀ p ∈ expairseq.operand_pairs (add_variant T) e,
      ∃ q : ℚ, p.coeff = ex.numeric (numeric.rat q))
    (hnum : ∀ e ∈ v, ∀ x, expairseq.operand_residual (add_variant T) e = some x →
      x.is_rational = true) :
    (∀ p ∈ (expairseq.construct_from_exvector (add_variant T) cmp T v).seq,
      p.coeff = ex.numeric (numeric.rat
        (coeff_of cmp p.rest (v.flatMap (expairseq.operand_pairs (add_variant T))))) ∧
      coeff_of cmp p.rest (v.flatMap (expairseq.operand_pairs (add_variant T))) ≠ 0) ∧
    (∀ r, coeff_of cmp r (expairseq.construct_from_exvector (add_variant T) cmp T v).seq
      = coeff_of cmp r (v.flatMap (expairseq.operand_pairs (add_variant T)))) ∧
    (∀ r, coeff_of cmp r (v.flatMap (expairseq.operand_pairs (add_variant T))) ≠ 0 →
      ∃ p ∈ (expairseq.construct_from_exvector (add_variant T) cmp T v).seq,
        cmp p.rest r = 0) ∧
    (expairseq.construct_from_exvector (add_variant T) cmp T v).overall_coeff
      = ex.numeric (numeric.rat
          ((v.filterMap (expairseq.operand_residual (add_variant T))).map
            numeric.rat_value).sum) := by
  have hP : ∀ p ∈ v.flatMap (expairseq.operand_pairs (add_variant T)), p.within S := by
    intro p hp
    obtain ⟨e, he, hpe⟩ := List.mem_flatMap.mp hp
    exact hS e he p hpe
  have hPrat : ∀ p ∈ v.flatMap (expairseq.operand_pairs (add_variant T)),
      ∃ q : ℚ, p.coeff = ex.numeric (numeric.rat q) := by
    intro p hp
    obtain ⟨e, he, hpe⟩ := List.mem_flatMap.mp hp
    exact hrat e he p hpe
  have hseq : (expairseq.construct_from_exvector (add_variant T) cmp T v).seq
      = expairseq.combine_same_terms_sorted_seq cmp T
          (expairseq.canonicalize cmp (v.flatMap (expairseq.operand_pairs (add_variant T)))) := by
    simp [expairseq.construct_from_exvector, expairseq.construct_from_epvector, make_flat_eq]
  obtain ⟨h1, h2, h3⟩ := combine_canonicalize_spec cmp T S hcmp _ hP
  obtain ⟨h4, h5⟩ := h3 hPrat
  rw [← hseq] at h1 h2 h4 h5
  have hdist := coeff_of_distinct cmp S hcmp _ h1 h2
  refine ⟨?_, h4, ?_, ?_⟩
  · intro p hp
    obtain ⟨q, hq, hq0⟩ := h5 p hp
    have hpq : p.rat_coeff = q := by simp [expair.rat_coeff, hq]
    rw [← h4 p.rest, hdist p hp, hpq]
    exact ⟨hq, hq0⟩
  · intro r hr
    rw [← h4 r] at hr
    by_contra hno
    apply hr
    unfold coeff_of
    rw [List.filter_eq_nil_iff.mpr]
    · simp
    · intro p hp hc
      exact hno ⟨p, hp, by simpa using hc⟩
  · have hRrat : ∀ x ∈ v.filterMap (expairseq.operand_residual (add_variant T)),
        x.is_rational = true := by
      intro x hx
      obtain ⟨e, he, hex⟩ := List.mem_filterMap.mp hx
      exact hnum e he x hex
    have := foldl_add_rational T _ 0 hRrat
    simp only [expairseq.construct_from_exvector, expairseq.construct_from_epvector, make_flat_eq]
    show ex.numeric (List.foldl (numeric.add T) (numeric.rat 0) _) = _
    rw [this, zero_add]

/-- The canonical sum constructed from the addends `x`, `2*x`, `y` has the pairs
`(x, 3)`, `(y, 1)` and the residual 0. -/
theorem construct_sum_x_2x_y :
    expairseq.construct_from_exvector (add_variant surd_tower) plain_compare surd_tower
        [ex.symbol 7, ex.mul [⟨ex.symbol 7, exONE⟩] (ex.numeric (numeric.rat 2)) true, ex.symbol 8]
      = ⟨[⟨ex.symbol 7, ex.numeric (numeric.rat 3)⟩, ⟨ex.symbol 8, ex.numeric (numeric.rat 1)⟩],
         ex.numeric (numeric.rat 0)⟩ := by
  norm_num [expairseq.construct_from_exvector, expairseq.construct_from_epvector,
    expairseq.make_flat, expairseq.operand_pairs, expairseq.operand_residual, add_variant,
    mul_without_coeff, ex.is_exONE_object, expairseq.canonicalize, List.insertionSort,
    List.orderedInsert, expair_is_less, expair.is_less, plain_compare, ex.atom_key,
    expairseq.combine_same_terms_sorted_seq, expairseq.combine_step, expairseq.emit,
    numeric.add, numeric.is_zero, numeric.is_equal, numeric.compare, ex.to_numeric, exONE,
    numONE, numZERO]

/-- The pairs of the addends `x`, `2*x`, `y` are pairs of symbols and exact
rationals. -/
theorem operand_pairs_x_2x_y :
    ∀ e ∈ [ex.symbol 7, ex.mul [⟨ex.symbol 7, exONE⟩] (ex.numeric (numeric.rat 2)) true,
        (ex.symbol 8 : ex surd)],
      ∀ p ∈ expairseq.operand_pairs (add_variant surd_tower) e,
        p.within ex.is_atom ∧ ∃ q : ℚ, p.coeff = ex.numeric (numeric.rat q) := by
  intro e he p hp
  simp only [List.mem_cons, List.mem_singleton, List.not_mem_nil, or_false] at he
  rcases he with rfl | rfl | rfl
  · simp only [expairseq.operand_pairs, add_variant, List.mem_singleton] at hp
    subst hp
    exact ⟨⟨trivial, trivial⟩, 1, rfl⟩
  · simp only [expairseq.operand_pairs, add_variant, List.mem_singleton, mul_without_coeff] at hp
    subst hp
    refine ⟨⟨?_, trivial⟩, 2, rfl⟩
    simp [ex.is_exONE_object, exONE, numONE, ex.is_atom]
  · simp only [expairseq.operand_pairs, add_variant, List.mem_singleton] at hp
    subst hp
    exact ⟨⟨trivial, trivial⟩, 1, rfl⟩

/-- The addends `x`, `2*x`, `y` bring no number. -/
theorem operand_residual_x_2x_y :
    ∀ e ∈ [ex.symbol 7, ex.mul [⟨ex.symbol 7, exONE⟩] (ex.numeric (numeric.rat 2)) true,
        (ex.symbol 8 : ex surd)],
      ∀ x, expairseq.operand_residual (add_variant surd_tower) e = some x →
        x.is_rational = true := by
  intro e he x hx
  simp only [List.mem_cons, List.mem_singleton, List.not_mem_nil, or_false] at he
  rcases he with rfl | rfl | rfl <;> simp [expairseq.operand_residual, add_variant] at hx

/-- C21, at the addends `x`, `2*x`, `y` and at `2*x`, `x`, `y`: the two canonical
sums are the same, with the pairs `(x, 3)`, `(y, 1)` and the residual 0. -/
theorem construct_from_exvector_perm_witness :
    expairseq.construct_from_exvector (add_variant surd_tower) plain_compare surd_tower
        [ex.symbol 7, ex.mul [⟨ex.symbol 7, exONE⟩] (ex.numeric (numeric.rat 2)) true, ex.symbol 8]
      = expairseq.construct_from_exvector (add_variant surd_tower) plain_compare surd_tower
        [ex.mul [⟨ex.symbol 7, exONE⟩] (ex.numeric (numeric.rat 2)) true, ex.symbol 7, ex.symbol 8] :=
  (construct_from_exvector_perm plain_compare surd_tower ex.is_atom plain_compare_total
    (add_variant surd_tower) (Or.inl rfl) _ _ (List.Perm.swap _ _ _)
    (fun e he p hp => (operand_pairs_x_2x_y e he p hp).1) operand_residual_x_2x_y).1

/-- C22, at the addends `x`, `2*x`, `y`: the canonical sum has the pairs `(x, 3)`,
`(y, 1)` and the residual 0, and 3 is the sum of the coefficients of the pairs
with the rest `x`. -/
theorem construct_sum_coefficients_witness :
    expairseq.construct_from_exvector (add_variant surd_tower) plain_compare surd_tower
        [ex.symbol 7, ex.mul [⟨ex.symbol 7, exONE⟩] (ex.numeric (numeric.rat 2)) true, ex.symbol 8]
      = ⟨[⟨ex.symbol 7, ex.numeric (numeric.rat 3)⟩, ⟨ex.symbol 8, ex.numeric (numeric.rat 1)⟩],
         ex.numeric (numeric.rat 0)⟩ ∧
    coeff_of plain_compare (ex.symbol 7)
        (expairseq.construct_from_exvector (add_variant surd_tower) plain_compare surd_tower
          [ex.symbol 7, ex.mul [⟨ex.symbol 7, exONE⟩] (ex.numeric (numeric.rat 2)) true,
            ex.symbol 8]).seq
      = coeff_of plain_compare (ex.symbol 7)
        ([ex.symbol 7, ex.mul [⟨ex.symbol 7, exONE⟩] (ex.numeric (numeric.rat 2)) true,
            (ex.symbol 8 : ex surd)].flatMap (expairseq.operand_pairs (add_variant surd_tower))) :=
  ⟨construct_sum_x_2x_y,
   (construct_sum_coefficients plain_compare surd_tower ex.is_atom plain_compare_total _
    (fun e he p hp => (operand_pairs_x_2x_y e he p hp).1)
    (fun e he p hp => (operand_pairs_x_2x_y e he p hp).2) operand_residual_x_2x_y).2.1
      (ex.symbol 7)⟩

/-- C23, at the addends `x`, `2*x`, `y`: the rests of the canonical sum are
different. -/
theorem construct_from_exvector_no_duplicate_rest_witness :
    ((expairseq.construct_from_exvector (add_variant surd_tower) plain_compare surd_tower
        [ex.symbol 7, ex.mul [⟨ex.symbol 7, exONE⟩] (ex.numeric (numeric.rat 2)) true,
          ex.symbol 8]).seq.map (fun p => p.rest)).Nodup :=
  (construct_from_exvector_no_duplicate_rest (add_variant surd_tower) plain_compare surd_tower
    ex.is_atom plain_compare_total _
    (fun e he p hp => (operand_pairs_x_2x_y e he p hp).1)).2

/-- C24, at the addends `x`, `2*x`, `y`: the sequence of the canonical sum passes
the test for sortedness. -/
theorem construct_from_exvector_sorted_witness :
    expairseq.is_canonical plain_compare
      (expairseq.construct_from_exvector (add_variant surd_tower) plain_compare surd_tower
        [ex.symbol 7, ex.mul [⟨ex.symbol 7, exONE⟩] (ex.numeric (numeric.rat 2)) true,
          ex.symbol 8]).seq = true :=
  (construct_from_exvector_sorted (add_variant surd_tower) plain_compare surd_tower
    ex.is_atom plain_compare_total _
    (fun e he p hp => (operand_pairs_x_2x_y e he p hp).1)).2.2.2.2.2

/-! ## The difference of two equal sums -/

/-- The negated pairs have the negated sums of coefficients. -/
theorem coeff_of_negate {F : Type} (cmp : ex F → ex F → ℤ) (T : tower F) (r : ex F) :
    ∀ seq : epvector F, (∀ p ∈ seq, ∃ q : ℚ, p.coeff = ex.numeric (numeric.rat q)) →
      coeff_of cmp r (seq.map (expair.negate T)) = -coeff_of cmp r seq := by
  intro seq
  induction seq with
  | nil => intro _; simp [coeff_of]
  | cons p tail ih =>
    intro hrat
    obtain ⟨q, hq⟩ := hrat p (List.mem_cons_self _ _)
    rw [List.map_cons, coeff_of_cons, coeff_of_cons,
      ih (fun x hx => hrat x (List.mem_cons_of_mem _ hx))]
    have h1 : (p.negate T).rest = p.rest := rfl
    have h2 : (p.negate T).rat_coeff = -p.rat_coeff := by
      simp [expair.negate, expair.rat_coeff, hq, ex.to_numeric, numeric.mul, numMINUSONE]
    rw [h1, h2]
    by_cases h : cmp p.rest r = 0
    · simp [h]; ring
    · simp [h]

/-- C25: for every two sums e and g with exact rational coefficients in which
every `rest` has the same sum of coefficients and whose residuals are equal,
the canonical sum constructed from e and the negated terms of g (the expanded
difference `e - g`; the components of the pairs are taken to be ordered totally
by the expression comparison) has no pair, every combined coefficient being 0 and dropped,
and has the residual 0, so that it is the number 0. -/
theorem difference_of_equal_sums {F : Type} (cmp : ex F → ex F → ℤ) (T : tower F)
    (S : ex F → Prop) (hcmp : compare_total_on cmp S) (seq1 seq2 : epvector F) (c : ℚ)
    (f1 f2 : Bool)
    (hS1 : ∀ p ∈ seq1, p.within S) (hS2 : ∀ p ∈ seq2, p.within S)
    (hneg : ∀ p ∈ seq2, S (p.negate T).coeff)
    (hrat1 : ∀ p ∈ seq1, ∃ q : ℚ, p.coeff = ex.numeric (numeric.rat q))
    (hrat2 : ∀ p ∈ seq2, ∃ q : ℚ, p.coeff = ex.numeric (numeric.rat q))
    (hsame : ∀ r, coeff_of cmp r seq1 = coeff_of cmp r seq2) :
    expairseq.construct_from_exvector (add_variant T) cmp T
        [ex.add seq1 (ex.numeric (numeric.rat c)) f1,
         ex.add (seq2.map (expair.negate T)) (ex.numeric (numeric.rat (-c))) f2]
      = ⟨[], ex.numeric (numeric.rat 0)⟩ ∧
    expairseq.to_ex (add_variant T)
        (expairseq.construct_from_exvector (add_variant T) cmp T
          [ex.add seq1 (ex.numeric (numeric.rat c)) f1,
           ex.add (seq2.map (expair.negate T)) (ex.numeric (numeric.rat (-c))) f2])
      = ex.numeric (numeric.rat 0) := by
  have hP : ∀ p ∈ seq1 ++ seq2.map (expair.negate T), p.within S := by
    intro p hp
    rw [List.mem_append] at hp
    rcases hp with hp | hp
    · exact hS1 p hp
    · obtain ⟨q, hq, rfl⟩ := List.mem_map.mp hp
      exact ⟨(hS2 q hq).1, hneg q hq⟩
  have hPrat : ∀ p ∈ seq1 ++ seq2.map (expair.negate T),
      ∃ q : ℚ, p.coeff = ex.numeric (numeric.rat q) := by
    intro p hp
    rw [List.mem_append] at hp
    rcases hp with hp | hp
    · exact hrat1 p hp
    · obtain ⟨q, hq, rfl⟩ := List.mem_map.mp hp
      obtain ⟨x, hx⟩ := hrat2 q hq
      exact ⟨x * -1, by simp [expair.negate, hx, ex.to_numeric, numeric.mul, numMINUSONE]⟩
  obtain ⟨h1, h2, h3⟩ := combine_canonicalize_spec cmp T S hcmp _ hP
  obtain ⟨h4, h5⟩ := h3 hPrat
  have hdist := coeff_of_distinct cmp S hcmp _ h1 h2
  have hempty : expairseq.combine_same_terms_sorted_seq cmp T
      (expairseq.canonicalize cmp (seq1 ++ seq2.map (expair.negate T))) = [] := by
    rw [List.eq_nil_iff_forall_not_mem]
    intro p hp
    obtain ⟨q, hq, hq0⟩ := h5 p hp
    have hpq : p.rat_coeff = q := by simp [expair.rat_coeff, hq]
    have := hdist p hp
    rw [h4 p.rest, coeff_of_append, coeff_of_negate cmp T p.rest seq2 hrat2, hsame p.rest, hpq] at this
    apply hq0
    rw [← this]
    ring
  have hval : expairseq.construct_from_exvector (add_variant T) cmp T
        [ex.add seq1 (ex.numeric (numeric.rat c)) f1,
         ex.add (seq2.map (expair.negate T)) (ex.numeric (numeric.rat (-c))) f2]
      = ⟨[], ex.numeric (numeric.rat 0)⟩ := by
    simp only [expairseq.construct_from_exvector, expairseq.construct_from_epvector,
      expairseq.make_flat, expairseq.operand_pairs, expairseq.operand_residual, add_variant,
      List.nil_append, hempty, ex.to_numeric, numZERO, numeric.add]
    norm_num
  exact ⟨hval, by rw [hval]; rfl⟩

/-- C25, at the sum `-a - b` built as the pairs `(a, -1)`, `(b, -1)` and as the pairs
`(b, -1)`, `(a, -1)`: the expanded difference is the number 0. -/
theorem difference_of_equal_sums_witness :
    expairseq.to_ex (add_variant surd_tower)
        (expairseq.construct_from_exvector (add_variant surd_tower) plain_compare surd_tower
          [ex.add [⟨ex.symbol 1, ex.numeric (numeric.rat (-1))⟩,
              ⟨ex.symbol 2, ex.numeric (numeric.rat (-1))⟩] (ex.numeric (numeric.rat 0)) true,
           ex.add ([⟨ex.symbol 2, ex.numeric (numeric.rat (-1))⟩,
              ⟨ex.symbol 1, ex.numeric (numeric.rat (-1))⟩].map (expair.negate surd_tower))
              (ex.numeric (numeric.rat (-0))) true])
      = ex.numeric (numeric.rat 0) :=
  (difference_of_equal_sums plain_compare surd_tower ex.is_atom plain_compare_total
    [⟨ex.symbol 1, ex.numeric (numeric.rat (-1))⟩, ⟨ex.symbol 2, ex.numeric (numeric.rat (-1))⟩]
    [⟨ex.symbol 2, ex.numeric (numeric.rat (-1))⟩, ⟨ex.symbol 1, ex.numeric (numeric.rat (-1))⟩]
    0 true true
    (by intro p hp; simp at hp; rcases hp with rfl | rfl <;> exact ⟨trivial, trivial⟩)
    (by intro p hp; simp at hp; rcases hp with rfl | rfl <;> exact ⟨trivial, trivial⟩)
    (by intro p hp; simp at hp; rcases hp with rfl | rfl <;> exact trivial)
    (by intro p hp; simp at hp; rcases hp with rfl | rfl <;> exact ⟨_, rfl⟩)
    (by intro p hp; simp at hp; rcases hp with rfl | rfl <;> exact ⟨_, rfl⟩)
    (fun r => coeff_of_perm plain_compare r _ _ (List.Perm.swap _ _ _))).2

/-! ## The value of the terms of `power::expand_add` -/

/-- C36: for every sum `a` with `s` pairs, the vector `sum` of `power::expand_add_2`
holds `s*(s+1)/2` pairs after the first part (the assertion of line 624) and
`a.nops()*(a.nops()+1)/2` pairs at the end (the assertion of line 634), where
`a.nops()` is `s` when the overall coefficient is zero, in which case the second
part pushes nothing, and `s + 1` otherwise, in which case it pushes `s + 1`
pairs.  As long as `a.nops()*(a.nops()+1)` is below `2^32` the value that the
`unsigned` expression of line 634 has in arithmetic modulo `2^32` is that
number of pairs. -/
theorem expand_add_2_size_assertions {F : Type} (T : tower F) (E : env F) (a : expairseq F) :
    (power.expand_add_2_first T E a.seq).length = a.seq.length * (a.seq.length + 1) / 2 ∧
    a.add_nops T = (if a.overall_coeff.is_zero T then a.seq.length else a.seq.length + 1) ∧
    (power.expand_add_2_sum T E a).length = a.add_nops T * (a.add_nops T + 1) / 2 ∧
    (a.overall_coeff.is_zero T = true →
      power.expand_add_2_second T E a = [] ∧
      (power.expand_add_2_sum T E a).length = a.seq.length * (a.seq.length + 1) / 2) ∧
    (a.overall_coeff.is_zero T = false →
      (power.expand_add_2_second T E a).length = a.seq.length + 1 ∧
      (power.expand_add_2_sum T E a).length = (a.seq.length + 1) * (a.seq.length + 2) / 2) ∧
    (a.add_nops T * (a.add_nops T + 1) < 2 ^ 32 →
      (a.add_nops T * (a.add_nops T + 1)) % 2 ^ 32 / 2
        = (power.expand_add_2_sum T E a).length) := by
  have h1 := expand_add_2_first_length T E a.seq
  have h2 := expand_add_2_second_length T E a
  have h3 := expand_add_2_sum_length T E a
  have hsum : (power.expand_add_2_sum T E a).length
      = (power.expand_add_2_first T E a.seq).length
        + (power.expand_add_2_second T E a).length := by
    unfold power.expand_add_2_sum
    rw [List.length_append]
  refine ⟨by omega, rfl, by omega, ?_, ?_, ?_⟩
  · intro hz
    rw [hz, if_pos rfl] at h2
    refine ⟨List.length_eq_zero.mp h2, ?_⟩
    rw [hsum, h2]
    omega
  · intro hz
    rw [hz] at h2
    simp only [Bool.false_eq_true, if_false] at h2
    refine ⟨h2, ?_⟩
    rw [hsum, h2]
    have h4 : (a.seq.length + 1) * (a.seq.length + 2)
        = a.seq.length * (a.seq.length + 1) + 2 * (a.seq.length + 1) := by ring
    omega
  · intro hlt
    rw [Nat.mod_eq_of_lt hlt]
    omega

/-- C36, for the sums `x + y` and `x + 3` in the plain environment: three pairs are
pushed in both cases, `x^2`, `2*x*y`, `y^2` and `x^2`, `6*x`, `9`; the first
part pushes three pairs for `x + y` and one pair for `x + 3`. -/
theorem expand_add_2_size_assertions_witness :
    ((power.expand_add_2_first surd_tower (plain_env surd surd_tower)
        [⟨ex.symbol 7, exONE⟩, ⟨ex.symbol 8, exONE⟩]).length = 2 * (2 + 1) / 2 ∧
     (power.expand_add_2_sum surd_tower (plain_env surd surd_tower)
        ⟨[⟨ex.symbol 7, exONE⟩, ⟨ex.symbol 8, exONE⟩], ex.numeric (numeric.rat 0)⟩).length = 3) ∧
    ((power.expand_add_2_first surd_tower (plain_env surd surd_tower)
        [⟨ex.symbol 7, exONE⟩]).length = 1 * (1 + 1) / 2 ∧
     (power.expand_add_2_sum surd_tower (plain_env surd surd_tower)
        ⟨[⟨ex.symbol 7, exONE⟩], ex.numeric (numeric.rat 3)⟩).length = (1 + 1) * (1 + 2) / 2) :=
  ⟨⟨(expand_add_2_size_assertions surd_tower (plain_env surd surd_tower)
        ⟨[⟨ex.symbol 7, exONE⟩, ⟨ex.symbol 8, exONE⟩], ex.numeric (numeric.rat 0)⟩).1,
    ((expand_add_2_size_assertions surd_tower (plain_env surd surd_tower)
        ⟨[⟨ex.symbol 7, exONE⟩, ⟨ex.symbol 8, exONE⟩], ex.numeric (numeric.rat 0)⟩).2.2.2.1
          (by simp [ex.is_zero, numeric.is_zero, numeric.is_equal, numeric.compare])).2⟩,
   ⟨(expand_add_2_size_assertions surd_tower (plain_env surd surd_tower)
        ⟨[⟨ex.symbol 7, exONE⟩], ex.numeric (numeric.rat 3)⟩).1,
    ((expand_add_2_size_assertions surd_tower (plain_env surd surd_tower)
        ⟨[⟨ex.symbol 7, exONE⟩], ex.numeric (numeric.rat 3)⟩).2.2.2.2.1
          (by norm_num [ex.is_zero, numeric.is_zero, numeric.is_equal, numeric.compare])).2⟩⟩

/-! ## The assertion of line 245 of `power::eval` -/

/-- The exact power of a rational to an integer is the rational `b^e`. -/
theorem numeric_power_integer {F : Type} (T : tower F) (b e : ℚ) (hint : e.den = 1) :
    (numeric.rat b : numeric F).power T (numeric.rat e) = numeric.rat (b ^ e.num) := by
  simp only [numeric.power]
  rw [if_pos hint]

/-- An integer other than 0 and 1 is, as a number, neither zero nor equal to 1. -/
theorem rat_ne_zero_one {F : Type} (T : tower F) (q : ℚ) (h0 : q ≠ 0) (h1 : q ≠ 1) :
    (ex.numeric (numeric.rat q) : ex F).is_zero T = false ∧
    (ex.numeric (numeric.rat q) : ex F).is_equal_exONE T = false := by
  constructor
  · simp only [ex.is_zero, numeric.is_zero, numeric.is_equal, numeric.compare]
    split_ifs <;> simp_all
  · simp only [ex.is_equal_exONE, numeric.is_equal, numeric.compare]
    split_ifs <;> simp_all

/-- C35: the exact power of a rational basis `b` to an integer exponent `e` is the
rational `b^e`; so for `b` other than 0 and 1 and an integer `e` other than 0
and 1 `power::eval` has returned the number `b^e` at line 243, and whenever
basis and exponent are rational and the exact power is not (the condition
under which line 245 is reached) the exponent is not an integer: the assertion
of line 245 holds, and the test `!num_exponent->is_integer()` of line 249 is
true. -/
theorem eval_exponent_not_integer {F : Type} (T : tower F) (E : env F) (basis exponent : ex F) :
    (∀ b e : ℚ, e.den = 1 →
      (numeric.rat b : numeric F).power T (numeric.rat e) = numeric.rat (b ^ e.num) ∧
      ((numeric.rat b : numeric F).power T (numeric.rat e)).is_rational = true) ∧
    (∀ b e : ℚ, b ≠ 0 → b ≠ 1 → e ≠ 0 → e ≠ 1 → e.den = 1 →
      power.eval_rules T E basis exponent (ex.numeric (numeric.rat b)) (ex.numeric (numeric.rat e))
        = Except.ok (ex.numeric (numeric.rat (b ^ e.num)))) ∧
    (∀ num_basis num_exponent : numeric F,
      num_basis.is_rational = true → num_exponent.is_rational = true →
      (num_basis.power T num_exponent).is_rational = false →
      num_exponent.is_integer = false ∧ num_exponent.is_real T = true) := by
  refine ⟨?_, ?_, ?_⟩
  · intro b e hint
    rw [numeric_power_integer T b e hint]
    exact ⟨rfl, rfl⟩
  · intro b e hb0 hb1 he0 he1 hint
    obtain ⟨hez, heo⟩ := rat_ne_zero_one T e he0 he1
    obtain ⟨hbz, hbo⟩ := rat_ne_zero_one T b hb0 hb1
    unfold power.eval_rules
    rw [hez, heo, hbz, hbo]
    simp only [Bool.false_eq_true, if_false]
    rw [numeric_power_integer T b e hint]
    simp [numeric.is_rational]
  · intro num_basis num_exponent hb he hres
    cases num_basis with
    | other x => cases hb
    | rat b =>
      cases num_exponent with
      | other y => cases he
      | rat e =>
        refine ⟨?_, rfl⟩
        by_contra hint
        have hden : e.den = 1 := by
          simpa [numeric.is_integer] using hint
        rw [numeric_power_integer T b e hden] at hres
        cases hres

/-- C35, at `(2/3)^(-2)`: the exact power is the rational `9/4`, which
`power::eval` returns. -/
theorem eval_exponent_not_integer_witness :
    power.eval_rules surd_tower (plain_env surd surd_tower)
        (ex.numeric (numeric.rat (2 / 3))) (ex.numeric (numeric.rat (-2)))
        (ex.numeric (numeric.rat (2 / 3))) (ex.numeric (numeric.rat (-2)))
      = Except.ok (ex.numeric (numeric.rat ((2 / 3 : ℚ) ^ (-2 : ℚ).num))) ∧
    ((2 / 3 : ℚ) ^ (-2 : ℚ).num) = 9 / 4 :=
  ⟨(eval_exponent_not_integer surd_tower (plain_env surd surd_tower)
      (ex.numeric (numeric.rat (2 / 3))) (ex.numeric (numeric.rat (-2)))).2.1
      (2 / 3) (-2) (by norm_num) (by norm_num) (by norm_num) (by norm_num) (by norm_num),
   by
    have h : (-2 : ℚ).num = -2 := by norm_num
    rw [h]
    norm_num⟩

/-! ## The residual extraction of `power::eval` is not repeated (lines 297-334) -/

/-- With level 1 the children of a node are taken as they are. -/
theorem eval_child_level_one {F : Type} (T : tower F) (E : env F) (e : ex F) :
    eval_child T E 1 e = Except.ok e := by
  unfold eval_child
  rw [if_pos rfl]

/-- Lines 275-334 on a product whose overall coefficient is 1 or -1 and an
exponent that is a number but not an integer: nothing is extracted, the result
is the evaluated node. -/
theorem eval_symbolic_unit_residual {F : Type} (T : tower F) (E : env F) (exponent : ex F)
    (s : epvector F) (c1 : ex F) (hc1 : c1 = exONE ∨ c1 = exMINUSONE) (e : numeric F)
    (hnint : e.is_integer = false) (f : Bool) :
    power.eval_symbolic T E exponent (ex.mul s c1 f) (ex.numeric e)
      = ex.power (ex.mul s c1 f) (ex.numeric e) true := by
  unfold power.eval_symbolic
  simp only [hnint, Bool.false_eq_true, if_false]
  rcases hc1 with h | h
  · subst h
    have h1 : (exONE : ex F).is_equal_exONE T = true := by
      simp [exONE, numONE, ex.is_equal_exONE, numeric.is_equal, numeric.compare]
    simp [h1]
  · subst h
    have h1 : (exMINUSONE : ex F).is_equal_exONE T = false := by
      norm_num [exMINUSONE, numMINUSONE, ex.is_equal_exONE, numeric.is_equal, numeric.compare]
    have h2 : (exMINUSONE : ex F).to_numeric.is_real T = true := rfl
    have h3 : (exMINUSONE : ex F).to_numeric.is_positive T = false := by
      norm_num [exMINUSONE, numMINUSONE, ex.to_numeric, numeric.is_positive]
    have h4 : (exMINUSONE : ex F).to_numeric.compare T (-1) = 0 := by
      norm_num [exMINUSONE, numMINUSONE, ex.to_numeric, numeric.compare]
    simp [h1, h2, h3, h4]

/-- Lines 275-334 with an exponent that is not a number: no rule applies, the
result is the evaluated node. -/
theorem eval_symbolic_not_numeric {F : Type} (T : tower F) (E : env F)
    (exponent ebasis eexponent : ex F) (h : eexponent.is_numeric = false) :
    power.eval_symbolic T E exponent ebasis eexponent = ex.power ebasis eexponent true := by
  unfold power.eval_symbolic
  cases eexponent with
  | numeric v => cases h
  | symbol s => rfl
  | power b e f => rfl
  | add s c f => rfl
  | mul s c f => rfl

/-- C34: for a product `P` with sequence `s` and a real residual `c` that is not 0,
1 or -1, and a numeric exponent `e` that is not an integer (nor 0 nor 1 as a
number): `power::eval` of `P^e` returns the product of `P'^e` and `|c|^e`, where
`P'` has the sequence `s` and the residual 1 or -1; on a product with residual
1 or -1 the rule extracts nothing, so that `power::eval` of `P'^e` returns the
node `P'^e` flagged evaluated, which a further evaluation returns as it is; the
same holds for `P'` raised to an exponent that is not a number.  For rational
`c` and `e` the evaluation of the second factor `|c|^e` does not fail and gives
a number or a node flagged evaluated. -/
theorem eval_residual_extracted_once {F : Type} (T : tower F) (E : env F) (s : epvector F)
    (c e : numeric F) (f : Bool) (hlim : (1 : ℤ) ≠ -E.max_recursion_level)
    (hnint : e.is_integer = false) (he0 : e.is_zero T = false) (he1 : e.is_equal T 1 = false)
    (hreal : c.is_real T = true) (hc0 : c.is_zero T = false) (hc1 : c.is_equal T 1 = false)
    (hcm1 : c.compare T (-1) ≠ 0) :
    (∃ c1 : ex F, (c1 = exONE ∨ c1 = exMINUSONE) ∧
      ex.eval T E (ex.power (ex.mul s (ex.numeric c) f) (ex.numeric e) false) 1
        = Except.ok ((E.mul_ex_ex (ex.power (ex.mul s c1 false) (ex.numeric e) false)
            (ex.power (ex.numeric (c.abs T)) (ex.numeric e) false)).to_mul false)) ∧
    (∀ c1 : ex F, c1 = exONE ∨ c1 = exMINUSONE →
      (∀ (exponent : ex F) (s1 : epvector F) (f1 : Bool),
        power.eval_symbolic T E exponent (ex.mul s1 c1 f1) (ex.numeric e)
          = ex.power (ex.mul s1 c1 f1) (ex.numeric e) true) ∧
      ex.eval T E (ex.power (ex.mul s c1 false) (ex.numeric e) false) 1
        = Except.ok (ex.power (ex.mul s c1 false) (ex.numeric e) true) ∧
      ex.eval T E (ex.power (ex.mul s c1 false) (ex.numeric e) true) 1
        = Except.ok (ex.power (ex.mul s c1 false) (ex.numeric e) true) ∧
      (∀ exponent : ex F, exponent.is_numeric = false →
        ex.eval T E (ex.power (ex.mul s c1 false) exponent false) 1
          = Except.ok (ex.power (ex.mul s c1 false) exponent true))) ∧
    (∀ q r : ℚ, c = numeric.rat q → e = numeric.rat r →
      ∃ res, ex.eval T E (ex.power (ex.numeric (c.abs T)) (ex.numeric e) false) 1
          = Except.ok res ∧ res.is_evaluated = true) := by
  have hez : (ex.numeric e : ex F).is_zero T = false := he0
  have heo : (ex.numeric e : ex F).is_equal_exONE T = false := he1
  have hrules : ∀ (s1 : epvector F) (c1 : ex F) (f1 : Bool),
      ex.eval T E (ex.power (ex.mul s1 c1 f1) (ex.numeric e) false) 1
        = Except.ok (power.eval_symbolic T E (ex.numeric e) (ex.mul s1 c1 f1) (ex.numeric e)) := by
    intro s1 c1 f1
    rw [eval_power_rules T E _ _ (ex.mul s1 c1 f1) (ex.numeric e) false 1 (by simp) hlim
      (eval_child_level_one T E _) (eval_child_level_one T E _),
      eval_rules_symbolic T E _ _ (ex.mul s1 c1 f1) (ex.numeric e) hez heo rfl]
  refine ⟨?_, ?_, ?_⟩
  · have hco : (ex.numeric c : ex F).is_equal_exONE T = false := hc1
    by_cases hpos : c.is_positive T = true
    · refine ⟨exONE, Or.inl rfl, ?_⟩
      rw [hrules, numeric_abs_of_positive T c hpos]
      unfold power.eval_symbolic
      simp [hnint, hco, ex.to_numeric, hreal, hpos]
    · refine ⟨exMINUSONE, Or.inr rfl, ?_⟩
      rw [hrules]
      unfold power.eval_symbolic
      simp [hnint, hco, ex.to_numeric, hreal, hpos, hcm1]
  · intro c1 hc
    refine ⟨fun exponent s1 f1 => eval_symbolic_unit_residual T E exponent s1 c1 hc e hnint f1,
      ?_, eval_flagged_level_one T E _ _, ?_⟩
    · rw [hrules, eval_symbolic_unit_residual T E _ s c1 hc e hnint false]
    · intro exponent hx
      have hxz : exponent.is_zero T = false := by
        cases exponent <;> first | rfl | cases hx
      have hxo : exponent.is_equal_exONE T = false := by
        cases exponent <;> first | rfl | cases hx
      rw [eval_power_rules T E _ _ (ex.mul s c1 false) exponent false 1 (by simp) hlim
        (eval_child_level_one T E _) (eval_child_level_one T E _),
        eval_rules_symbolic T E _ _ (ex.mul s c1 false) exponent hxz hxo rfl,
        eval_symbolic_not_numeric T E _ _ _ hx]
  · intro q r hq hr
    subst hq hr
    have hden : r.den ≠ 1 := by
      simpa [numeric.is_integer] using hnint
    have hq0 : q ≠ 0 := by
      intro h
      subst h
      norm_num [numeric.is_zero, numeric.is_equal, numeric.compare] at hc0
    have hq1 : q ≠ 1 := by
      intro h
      subst h
      norm_num [numeric.is_equal, numeric.compare] at hc1
    have hqm1 : q ≠ -1 := by
      intro h
      subst h
      norm_num [numeric.compare] at hcm1
    have hb0 : |q| ≠ 0 := abs_ne_zero.mpr hq0
    have hb1 : |q| ≠ 1 := by
      intro h
      rcases abs_eq (by norm_num : (0 : ℚ) ≤ 1) |>.mp h with h1 | h1
      · exact hq1 h1
      · exact hqm1 h1
    have habs : (numeric.rat q : numeric F).abs T = numeric.rat |q| := rfl
    rw [habs, eval_power_rules T E _ _ (ex.numeric (numeric.rat |q|)) (ex.numeric (numeric.rat r))
      false 1 (by simp) hlim (eval_child_level_one T E _) (eval_child_level_one T E _)]
    by_cases hirr : ((numeric.rat |q| : numeric F).power T (numeric.rat r)).is_rational = true
    · obtain ⟨hbz, hbo⟩ := rat_ne_zero_one T |q| hb0 hb1
      refine ⟨ex.numeric ((numeric.rat |q| : numeric F).power T (numeric.rat r)), ?_, rfl⟩
      unfold power.eval_rules
      rw [hez, heo, hbz, hbo]
      simp [hirr]
    · rw [eval_rules_irrational_power T E _ _ |q| r hb0 hb1 hden (by simpa using hirr)]
      by_cases hfl : ⌊r⌋ = 0
      · rw [if_pos hfl]
        exact ⟨_, rfl, rfl⟩
      · rw [if_neg hfl]
        exact ⟨_, rfl, rfl⟩

/-- C34, at the product `3*x` and the exponent `1/2` in the plain environment:
`power::eval` of `(1*x)^(1/2)`, the inner power that the rule builds, returns the
node flagged evaluated. -/
theorem eval_residual_extracted_once_witness :
    ex.eval surd_tower (plain_env surd surd_tower)
        (ex.power (ex.mul [⟨ex.symbol 7, exONE⟩] exONE false)
          (ex.numeric (numeric.rat (1 / 2))) false) 1
      = Except.ok (ex.power (ex.mul [⟨ex.symbol 7, exONE⟩] exONE false)
          (ex.numeric (numeric.rat (1 / 2))) true) :=
  ((eval_residual_extracted_once surd_tower (plain_env surd surd_tower) [⟨ex.symbol 7, exONE⟩]
      (numeric.rat 3) (numeric.rat (1 / 2)) true (by norm_num [plain_env])
      (by norm_num [numeric.is_integer])
      (by norm_num [numeric.is_zero, numeric.is_equal, numeric.compare])
      (by norm_num [numeric.is_equal, numeric.compare])
      rfl
      (by norm_num [numeric.is_zero, numeric.is_equal, numeric.compare])
      (by norm_num [numeric.is_equal, numeric.compare])
      (by norm_num [numeric.compare])).2.1 exONE (Or.inl rfl)).2.1

/-! ## The terminal nodes of `power::eval` (lines 259, 331 and 333) -/

/-- Only a number is zero. -/
theorem is_zero_numeric {F : Type} (T : tower F) (e : ex F) (h : e.is_zero T = true) :
    ∃ v, e = ex.numeric v := by
  cases e with
  | numeric v => exact ⟨v, rfl⟩
  | symbol s => cases h
  | power b x f => cases h
  | add s c f => cases h
  | mul s c f => cases h

/-- Only a number is equal to 1. -/
theorem is_equal_exONE_numeric {F : Type} (T : tower F) (e : ex F)
    (h : e.is_equal_exONE T = true) : ∃ v, e = ex.numeric v := by
  cases e with
  | numeric v => exact ⟨v, rfl⟩
  | symbol s => cases h
  | power b x f => cases h
  | add s c f => cases h
  | mul s c f => cases h

/-- When numbers evaluate to themselves, a child that is a number is its own
evaluation inside `power::eval`. -/
theorem eval_child_numeric {F : Type} (T : tower F) (E : env F)
    (hnum : ∀ v l, E.eval_other (ex.numeric v) l = Except.ok (ex.numeric v))
    (level : ℤ) (v : numeric F) :
    eval_child T E level (ex.numeric v) = Except.ok (ex.numeric v) := by
  unfold eval_child
  split_ifs
  · rfl
  · rw [ex.eval]
    exact hnum v _

/-- C33: when `power::eval` (not returning at once on the fast path of line 191)
returns a power node that carries the evaluated flag, then either the evaluated
exponent is 1 and the node is the evaluated basis, handed back by the rule
`x^1 -> x`, or the node is the held node of the call or the node of the
evaluated basis and exponent, and then its exponent is neither 0 nor 1 and its
basis is neither 0 nor 1; in particular, when its exponent is a number, that
number is not equal to 1, which is what the assertion of line 284 says of such a
node in the place of the basis.  Numbers are taken to evaluate to
themselves. -/
theorem eval_terminal_node {F : Type} (T : tower F) (E : env F) (basis exponent rb re : ex F)
    (evaluated : Bool) (level : ℤ)
    (hnum : ∀ v l, E.eval_other (ex.numeric v) l = Except.ok (ex.numeric v))
    (hfast : ¬(level = 1 ∧ evaluated = true))
    (h : ex.eval T E (ex.power basis exponent evaluated) level
      = Except.ok (ex.power rb re true)) :
    (∃ eexponent, eval_child T E level exponent = Except.ok eexponent ∧
      eexponent.is_equal_exONE T = true ∧
      eval_child T E level basis = Except.ok (ex.power rb re true)) ∨
    (re.is_zero T = false ∧ re.is_equal_exONE T = false ∧
      rb.is_zero T = false ∧ rb.is_equal_exONE T = false ∧
      (∀ v, re = ex.numeric v → v.is_equal T 1 = false) ∧
      ((rb = basis ∧ re = exponent) ∨
        (eval_child T E level basis = Except.ok rb ∧
          eval_child T E level exponent = Except.ok re))) := by
  rw [eval_power, if_neg hfast] at h
  by_cases hlim : level = -E.max_recursion_level
  · rw [if_pos hlim] at h; cases h
  rw [if_neg hlim] at h
  cases hb : eval_child T E level basis with
  | error err => rw [hb] at h; cases h
  | ok ebasis =>
    rw [hb] at h
    dsimp only at h
    cases he : eval_child T E level exponent with
    | error err => rw [he] at h; cases h
    | ok eexponent =>
      rw [he] at h
      dsimp only at h
      have hrules := h
      unfold power.eval_rules at h
      by_cases h0 : eexponent.is_zero T = true
      · rw [if_pos h0] at h; cases h
      rw [if_neg h0] at h
      by_cases h1 : eexponent.is_equal_exONE T = true
      · rw [if_pos h1] at h
        left
        refine ⟨eexponent, rfl, h1, ?_⟩
        cases h
        rfl
      rw [if_neg h1] at h
      by_cases hb0 : ebasis.is_zero T = true
      · rw [if_pos hb0] at h
        split_ifs at h
        cases h
      rw [if_neg hb0] at h
      by_cases hb1 : ebasis.is_equal_exONE T = true
      · rw [if_pos hb1] at h; cases h
      right
      have h0f : eexponent.is_zero T = false := by simpa using h0
      have h1f : eexponent.is_equal_exONE T = false := by simpa using h1
      have hb0f : ebasis.is_zero T = false := by simpa using hb0
      have hb1f : ebasis.is_equal_exONE T = false := by simpa using hb1
      have htests : re.is_zero T = false ∧ re.is_equal_exONE T = false ∧
          rb.is_zero T = false ∧ rb.is_equal_exONE T = false ∧
          ((rb = basis ∧ re = exponent) ∨ (rb = ebasis ∧ re = eexponent)) := by
        rcases eval_rules_flagged T E basis exponent ebasis eexponent rb re h1f hrules with
          ⟨hrb, hre⟩ | ⟨hrb, hre, -⟩
        · subst hrb hre
          refine ⟨?_, ?_, ?_, ?_, Or.inl ⟨rfl, rfl⟩⟩
          · by_contra hz
            obtain ⟨v, hv⟩ := is_zero_numeric T _ (by simpa using hz)
            subst hv
            rw [eval_child_numeric T E hnum level v] at he
            cases he
            exact hz h0f
          · by_contra hz
            obtain ⟨v, hv⟩ := is_equal_exONE_numeric T _ (by simpa using hz)
            subst hv
            rw [eval_child_numeric T E hnum level v] at he
            cases he
            exact hz h1f
          · by_contra hz
            obtain ⟨v, hv⟩ := is_zero_numeric T _ (by simpa using hz)
            subst hv
            rw [eval_child_numeric T E hnum level v] at hb
            cases hb
            exact hz hb0f
          · by_contra hz
            obtain ⟨v, hv⟩ := is_equal_exONE_numeric T _ (by simpa using hz)
            subst hv
            rw [eval_child_numeric T E hnum level v] at hb
            cases hb
            exact hz hb1f
        · subst hrb hre
          exact ⟨h0f, h1f, hb0f, hb1f, Or.inr ⟨rfl, rfl⟩⟩
      obtain ⟨t1, t2, t3, t4, t5⟩ := htests
      refine ⟨t1, t2, t3, t4, ?_, ?_⟩
      · intro v hv
        subst hv
        exact t2
      · rcases t5 with t | ⟨t, t'⟩
        · exact Or.inl t
        · subst t t'
          exact Or.inr ⟨rfl, rfl⟩

/-- C33, at `2^(1/2)` in the plain environment: the node that `power::eval` holds has
the basis 2 and the exponent `1/2`, neither of them 0 or 1. -/
theorem eval_terminal_node_witness :
    ex.eval surd_tower (plain_env surd surd_tower)
        (ex.power (ex.numeric (numeric.rat 2)) (ex.numeric (numeric.rat (1 / 2))) false) 1
      = Except.ok (ex.power (ex.numeric (numeric.rat 2)) (ex.numeric (numeric.rat (1 / 2))) true) ∧
    ((∃ eexponent, eval_child surd_tower (plain_env surd surd_tower) 1
          (ex.numeric (numeric.rat (1 / 2))) = Except.ok eexponent ∧
        eexponent.is_equal_exONE surd_tower = true ∧
        eval_child surd_tower (plain_env surd surd_tower) 1 (ex.numeric (numeric.rat 2))
          = Except.ok (ex.power (ex.numeric (numeric.rat 2))
              (ex.numeric (numeric.rat (1 / 2))) true)) ∨
      ((ex.numeric (numeric.rat (1 / 2)) : ex surd).is_zero surd_tower = false ∧
        (ex.numeric (numeric.rat (1 / 2)) : ex surd).is_equal_exONE surd_tower = false ∧
        (ex.numeric (numeric.rat 2) : ex surd).is_zero surd_tower = false ∧
        (ex.numeric (numeric.rat 2) : ex surd).is_equal_exONE surd_tower = false ∧
        (∀ v, (ex.numeric (numeric.rat (1 / 2)) : ex surd) = ex.numeric v →
          v.is_equal surd_tower 1 = false) ∧
        (((ex.numeric (numeric.rat 2) : ex surd) = ex.numeric (numeric.rat 2) ∧
            (ex.numeric (numeric.rat (1 / 2)) : ex surd) = ex.numeric (numeric.rat (1 / 2))) ∨
          (eval_child surd_tower (plain_env surd surd_tower) 1 (ex.numeric (numeric.rat 2))
              = Except.ok (ex.numeric (numeric.rat 2)) ∧
            eval_child surd_tower (plain_env surd surd_tower) 1 (ex.numeric (numeric.rat (1 / 2)))
              = Except.ok (ex.numeric (numeric.rat (1 / 2))))))) :=
  ⟨eval_two_to_one_half 1 (Or.inr rfl),
   eval_terminal_node surd_tower (plain_env surd surd_tower) (ex.numeric (numeric.rat 2))
      (ex.numeric (numeric.rat (1 / 2))) (ex.numeric (numeric.rat 2))
      (ex.numeric (numeric.rat (1 / 2))) false 1 (fun _ _ => rfl) (by simp)
      (eval_two_to_one_half 1 (Or.inr rfl))⟩

/-! ## The values of the results of `power::expand_mul` and `power::expand_add_2` -/

/-- The value of the pairs of a product, pair by pair. -/
theorem value_product_eq {F : Type} (x : ℕ → ℚ) (seq : epvector F) :
    ex.value_product x seq = (seq.map (expair.product_value (ex.value x))).prod := by
  induction seq with
  | nil => rw [ex.value_product]; rfl
  | cons p tail ih =>
    rw [ex.value_product, ih, List.map_cons, List.prod_cons]
    rfl

/-- The power of a product of rationals is the product of the powers. -/
theorem prod_map_zpow_local {α : Type} (g : α → ℚ) (n : ℤ) (l : List α) :
    (l.map (fun a => g a ^ n)).prod = (l.map g).prod ^ n := by
  induction l with
  | nil => simp
  | cons a t ih => rw [List.map_cons, List.prod_cons, ih, List.map_cons, List.prod_cons, mul_zpow]

/-- The number `n` is equal to 0, as a number, exactly when the integer `n` is 0. -/
theorem int_is_equal_zero_iff {F : Type} (T : tower F) (n : ℤ) :
    (numeric.rat (n : ℚ) : numeric F).is_equal T 0 = true ↔ n = 0 := by
  simp only [numeric.is_equal, numeric.compare, decide_eq_true_eq]
  constructor
  · intro h
    split_ifs at h with h1 h2
    · exact_mod_cast h2
    · omega
  · intro h
    subst h
    norm_num

/-- The pairs that the loop of `power::expand_mul` builds have the values of the
pairs of the product, raised to `n`. -/
theorem expand_mul_distrseq_value {F : Type} (T : tower F) (E : env F) (val : ex F → ℚ)
    (seq : epvector F) (n : ℤ)
    (hint : ∀ p ∈ seq, ∃ e : ℤ, p.coeff = ex.numeric (numeric.rat e))
    (hcomb : ∀ p ∈ seq, p.rest.is_numeric = true →
      (E.mul_combine_pair_with_coeff_to_pair p (ex.numeric (numeric.rat n))).product_value val
        = p.product_value val ^ n) :
    ((power.expand_mul_distrseq T E (numeric.rat n) seq).map (expair.product_value val)).prod
      = ((seq.map (expair.product_value val)).prod) ^ n := by
  rw [expand_mul_distrseq_eq_map, List.map_map, ← prod_map_zpow_local]
  congr 1
  apply List.map_congr_left
  intro p hp
  rw [Function.comp_apply]
  by_cases hnum : p.rest.is_numeric = true
  · rw [if_pos hnum]
    exact hcomb p hp hnum
  · rw [if_neg hnum]
    obtain ⟨e, he⟩ := hint p hp
    unfold expair.product_value
    rw [he]
    simp only [ex.to_numeric, numeric.mul, numeric.to_int]
    have h1 : ((e : ℚ) * (n : ℚ)).num = e * n := by
      rw [← Int.cast_mul, Rat.num_intCast]
    rw [h1, Rat.num_intCast, zpow_mul]

/-- C32: for every product with pairs `(r_i, e_i)` of integer exponents and
rational residual `c`, every integer `n` and every assignment `val` of non-zero
rational values to the rests: for `n = 0` `power::expand_mul` returns the
constant 1 without building a sequence; otherwise it returns the product built
from the pairs of its loop and the residual `c^n`; the residual `c^n` times the
values of these pairs is the `n`-th power of the value `c * prod_i v_i^(e_i)` of
the product, and this is the value of the result.  The member
`mul::combine_pair_with_coeff_to_pair`, which treats the pairs whose rest is a
number, is taken to return a pair of the value of its pair raised to `n`, and
the constructor `mul(epvector, coeff)` to build a product of the value of its
arguments. -/
theorem expand_mul_preserves_value {F : Type} (T : tower F) (E : env F) (val : ex F → ℚ)
    (seq : epvector F) (c : ℚ) (n : ℤ)
    (hint : ∀ p ∈ seq, ∃ e : ℤ, p.coeff = ex.numeric (numeric.rat e))
    (hv : ∀ p ∈ seq, val p.rest ≠ 0)
    (hcomb : ∀ p ∈ seq, p.rest.is_numeric = true →
      (E.mul_combine_pair_with_coeff_to_pair p (ex.numeric (numeric.rat n))).product_value val
        = p.product_value val ^ n)
    (hone : val exONE = 1)
    (hmul : ∀ (s : epvector F) (k : ℚ),
      val ((E.mul_epvector_coeff s (ex.numeric (numeric.rat k))).to_mul false)
        = k * (s.map (expair.product_value val)).prod) :
    (n = 0 → power.expand_mul T E seq (ex.numeric (numeric.rat c)) (numeric.rat n) = exONE) ∧
    (n ≠ 0 → power.expand_mul T E seq (ex.numeric (numeric.rat c)) (numeric.rat n)
      = (E.mul_epvector_coeff (power.expand_mul_distrseq T E (numeric.rat n) seq)
          (ex.numeric (numeric.rat (c ^ n)))).to_mul false) ∧
    c ^ n * ((power.expand_mul_distrseq T E (numeric.rat n) seq).map
        (expair.product_value val)).prod
      = (c * (seq.map (expair.product_value val)).prod) ^ n ∧
    (∀ p ∈ seq, ∀ e : ℤ, p.coeff = ex.numeric (numeric.rat e) →
      p.product_value val = val p.rest ^ e ∧ p.product_value val ≠ 0) ∧
    val (power.expand_mul T E seq (ex.numeric (numeric.rat c)) (numeric.rat n))
      = (c * (seq.map (expair.product_value val)).prod) ^ n := by
  have hpow : (numeric.rat c : numeric F).power T (numeric.rat (n : ℚ)) = numeric.rat (c ^ n) := by
    rw [numeric_power_integer T c n (by simp), Rat.num_intCast]
  have hzero : n = 0 →
      power.expand_mul T E seq (ex.numeric (numeric.rat c)) (numeric.rat n) = exONE := by
    intro hn
    unfold power.expand_mul
    rw [if_pos ((int_is_equal_zero_iff T n).mpr hn)]
  have hne : n ≠ 0 → power.expand_mul T E seq (ex.numeric (numeric.rat c)) (numeric.rat n)
      = (E.mul_epvector_coeff (power.expand_mul_distrseq T E (numeric.rat n) seq)
          (ex.numeric (numeric.rat (c ^ n)))).to_mul false := by
    intro hn
    unfold power.expand_mul
    rw [if_neg (fun h => hn ((int_is_equal_zero_iff T n).mp h))]
    simp only [ex.to_numeric]
    rw [hpow]
  have hval := expand_mul_distrseq_value T E val seq n hint hcomb
  have hid : c ^ n * ((power.expand_mul_distrseq T E (numeric.rat n) seq).map
        (expair.product_value val)).prod
      = (c * (seq.map (expair.product_value val)).prod) ^ n := by
    rw [hval, mul_zpow]
  refine ⟨hzero, hne, hid, ?_, ?_⟩
  · intro p hp e he
    have h1 : p.product_value val = val p.rest ^ e := by
      unfold expair.product_value
      rw [he]
      simp [ex.to_numeric, numeric.to_int]
    exact ⟨h1, by rw [h1]; exact zpow_ne_zero e (hv p hp)⟩
  · by_cases hn : n = 0
    · rw [hzero hn, hone, hn, zpow_zero]
    · rw [hne hn, hmul, hid]

/-- In the plain environment a product built from pairs and a rational residual
has the value of its pairs, times the residual. -/
theorem plain_mul_epvector_coeff_value (x : ℕ → ℚ) (s : epvector surd) (k : ℚ) :
    ex.value x (((plain_env surd surd_tower).mul_epvector_coeff s
        (ex.numeric (numeric.rat k))).to_mul false)
      = k * (s.map (expair.product_value (ex.value x))).prod := by
  simp only [plain_env, expairseq.to_mul]
  rw [ex.value, value_product_eq]
  simp [ex.to_numeric, numeric.rat_value]

/-- C32, for the product `3*x*y^2` and `n = 2` in the plain environment, `x` and `y`
having the values 7 and 8: the value of the product that `expand_mul` returns is
the square of the value of `3*x*y^2`, which is `(3*7*8^2)^2 = 1806336`. -/
theorem expand_mul_preserves_value_witness :
    ex.value (fun s => (s : ℚ))
        (power.expand_mul surd_tower (plain_env surd surd_tower)
          [⟨ex.symbol 7, ex.numeric (numeric.rat ((1 : ℤ) : ℚ))⟩,
           ⟨ex.symbol 8, ex.numeric (numeric.rat ((2 : ℤ) : ℚ))⟩]
          (ex.numeric (numeric.rat 3)) (numeric.rat ((2 : ℤ) : ℚ)))
      = (3 * (([⟨ex.symbol 7, ex.numeric (numeric.rat ((1 : ℤ) : ℚ))⟩,
            ⟨ex.symbol 8, ex.numeric (numeric.rat ((2 : ℤ) : ℚ))⟩] : epvector surd).map
          (expair.product_value (ex.value (fun s => (s : ℚ))))).prod) ^ (2 : ℤ) ∧
    (3 * (([⟨ex.symbol 7, ex.numeric (numeric.rat ((1 : ℤ) : ℚ))⟩,
            ⟨ex.symbol 8, ex.numeric (numeric.rat ((2 : ℤ) : ℚ))⟩] : epvector surd).map
          (expair.product_value (ex.value (fun s => (s : ℚ))))).prod) ^ (2 : ℤ)
      = (1806336 : ℚ) :=
  ⟨(expand_mul_preserves_value surd_tower (plain_env surd surd_tower)
    (ex.value (fun s => (s : ℚ)))
    [⟨ex.symbol 7, ex.numeric (numeric.rat ((1 : ℤ) : ℚ))⟩,
     ⟨ex.symbol 8, ex.numeric (numeric.rat ((2 : ℤ) : ℚ))⟩] 3 2
    (by
      intro p hp
      simp only [List.mem_cons, List.mem_singleton, List.not_mem_nil, or_false] at hp
      rcases hp with h | h <;> subst h
      · exact ⟨1, rfl⟩
      · exact ⟨2, rfl⟩)
    (by
      intro p hp
      simp only [List.mem_cons, List.mem_singleton, List.not_mem_nil, or_false] at hp
      rcases hp with h | h <;> subst h <;> rw [ex.value] <;> norm_num)
    (by
      intro p hp hnum
      simp only [List.mem_cons, List.mem_singleton, List.not_mem_nil, or_false] at hp
      rcases hp with h | h <;> subst h <;> cases hnum)
    (by unfold exONE numONE; rw [ex.value]; rfl)
    (fun s k => plain_mul_epvector_coeff_value _ s k)).2.2.2.2,
   by norm_num [expair.product_value, ex.value, ex.to_numeric, numeric.to_int]⟩

/-! ## The accesses of `power::expand_add` are within bounds -/

/-- A checked read at an index within bounds is the entry. -/
theorem read_of_lt (v : List ℤ) (i : ℕ) (h : i < v.length) :
    power.read v (i : ℤ) = some (v.getD i 0) := by
  unfold power.read
  rw [if_pos (Int.natCast_nonneg i), Int.toNat_natCast, List.getD_eq_getElem?_getD,
    List.getElem?_eq_getElem h]
  rfl

/-- A checked read at the index before `i >= 1` is the entry. -/
theorem read_pred_of_lt (v : List ℤ) (i : ℕ) (h1 : 1 ≤ i) (h : i - 1 < v.length) :
    power.read v ((i : ℤ) - 1) = some (v.getD (i - 1) 0) := by
  have h2 : ((i : ℤ) - 1) = ((i - 1 : ℕ) : ℤ) := by omega
  rw [h2]
  exact read_of_lt v (i - 1) h

/-- A checked read at a negative index fails. -/
theorem read_of_neg (v : List ℤ) (i : ℤ) (h : i < 0) : power.read v i = none := by
  unfold power.read
  rw [if_neg (by omega)]

/-- A checked write at an index within bounds is the write. -/
theorem write_of_lt (v : List ℤ) (i : ℕ) (x : ℤ) (h : i < v.length) :
    power.write v (i : ℤ) x = some (v.set i x) := by
  unfold power.write
  rw [if_pos ⟨Int.natCast_nonneg i, by rwa [Int.toNat_natCast]⟩, Int.toNat_natCast]

/-- A checked access to an operand within bounds is the operand. -/
theorem op_checked_of_lt {F : Type} (E : env F) (a : expairseq F) (m l : ℕ) (h : l < m) :
    power.op_checked E a m (l : ℤ) = some (E.add_op a l) := by
  unfold power.op_checked
  rw [if_pos ⟨Int.natCast_nonneg l, by exact_mod_cast h⟩, Int.toNat_natCast]

/-- The accesses of lines 470-481 are within bounds when `k` has an entry for
each of the operands treated and these are operands of the sum. -/
theorem expand_add_term_front_checked_eq {F : Type} (T : tower F) (E : env F) (a : expairseq F)
    (m : ℕ) (k : List ℤ) :
    ∀ (cnt l : ℕ), l + cnt ≤ k.length → l + cnt ≤ m →
      power.expand_add_term_front_checked T E a m k l cnt
        = some (power.expand_add_term_front T E a k l cnt) := by
  intro cnt
  induction cnt with
  | zero => intro l _ _; rfl
  | succ cnt ih =>
    intro l h1 h2
    rw [power.expand_add_term_front_checked, op_checked_of_lt E a m l (by omega),
      read_of_lt k l (by omega), ih (l + 1) (by omega) (by omega)]
    rfl

/-- The accesses of lines 495-497 are within bounds when `k` has an entry for each
index treated and `k_cum` for the index before it. -/
theorem expand_add_factor_checked_eq (n : ℤ) (c : power.counters) :
    ∀ (cnt l : ℕ) (f : ℚ), 1 ≤ l → l + cnt ≤ c.k.length → l + cnt ≤ c.k_cum.length + 1 →
      power.expand_add_factor_checked n c l cnt f = some (power.expand_add_factor n c l cnt f) := by
  intro cnt
  induction cnt with
  | zero => intro l f _ _ _; rfl
  | succ cnt ih =>
    intro l f h0 h1 h2
    rw [power.expand_add_factor_checked, read_pred_of_lt c.k_cum l h0 (by omega),
      read_of_lt c.k l (by omega)]
    dsimp only
    rw [ih (l + 1) _ (by omega) (by omega) (by omega), power.expand_add_factor]

/-- The accesses of one pass of lines 468-498 are within bounds when the vectors
have `m - 1 >= 1` entries. -/
theorem expand_add_term_checked_eq {F : Type} (T : tower F) (E : env F) (a : expairseq F)
    (n : ℤ) (d : ℕ) (hd : 1 ≤ d) (c : power.counters) (hk : c.k.length = d)
    (hkc : c.k_cum.length = d) :
    power.expand_add_term_checked T E a n (d + 1) c
      = some (power.expand_add_term T E a n (d + 1) c) := by
  unfold power.expand_add_term_checked power.expand_add_term
  have h1 : ((d + 1 : ℕ) : ℤ) - 2 = ((d - 1 : ℕ) : ℤ) := by omega
  have h2 : d + 1 - 2 = d - 1 := by omega
  rw [Nat.add_sub_cancel, expand_add_term_front_checked_eq T E a (d + 1) c.k d 0 (by omega)
      (by omega), op_checked_of_lt E a (d + 1) d (by omega), h1,
    read_of_lt c.k_cum (d - 1) (by omega)]
  have h3 : power.read c.k 0 = some (c.k.getD 0 0) := read_of_lt c.k 0 (by omega)
  rw [h3]
  dsimp only
  rw [h2, expand_add_factor_checked_eq n c (d - 1) 1 _ (le_refl 1) (by omega) (by omega)]

/-- The loop that increments `k` keeps the length of `k` and stops at an index
below its start. -/
theorem increment_k_length (ul : List ℤ) :
    ∀ (lp1 : ℕ) (k : List ℤ),
      (power.increment_k ul lp1 k).1.length = k.length ∧
      ∀ l, (power.increment_k ul lp1 k).2 = some l → l < lp1 := by
  intro lp1
  induction lp1 with
  | zero =>
    intro k
    refine ⟨rfl, ?_⟩
    intro l h
    cases h
  | succ l ih =>
    intro k
    rw [power.increment_k]
    split_ifs
    · obtain ⟨h1, h2⟩ := ih ((k.set l (k.getD l 0 + 1)).set l 0)
      refine ⟨by rw [h1, List.length_set, List.length_set], ?_⟩
      intro l1 hl1
      have := h2 l1 hl1
      omega
    · refine ⟨by simp, ?_⟩
      intro l1 hl1
      cases hl1
      omega

/-- The accesses of lines 517-521 are within bounds when `k` and `upper_limit` have
an entry for every index from the start downwards. -/
theorem increment_k_checked_eq (ul : List ℤ) :
    ∀ (lp1 : ℕ) (k : List ℤ), lp1 ≤ k.length → lp1 ≤ ul.length →
      power.increment_k_checked ul lp1 k = some (power.increment_k ul lp1 k) := by
  intro lp1
  induction lp1 with
  | zero => intro k _ _; rfl
  | succ l ih =>
    intro k h1 h2
    rw [power.increment_k_checked, read_of_lt k l (by omega), read_of_lt ul l (by omega)]
    dsimp only
    rw [write_of_lt k l _ (by omega)]
    dsimp only
    rw [power.increment_k]
    rw [getD_set_self k l _ (by omega)]
    split_ifs with h
    · rw [write_of_lt _ l 0 (by rw [List.length_set]; omega)]
      dsimp only
      exact ih _ (by rw [List.length_set, List.length_set]; omega) (by omega)
    · rfl

/-- The accesses of lines 530-532 are within bounds when `k` and `k_cum` have an
entry for every index treated. -/
theorem recalc_k_cum_checked_eq (k : List ℤ) :
    ∀ (cnt i : ℕ) (kc : List ℤ), 1 ≤ i → i + cnt ≤ kc.length → i + cnt ≤ k.length →
      power.recalc_k_cum_checked k i cnt kc = some (power.recalc_k_cum k i cnt kc) := by
  intro cnt
  induction cnt with
  | zero => intro i kc _ _ _; rfl
  | succ cnt ih =>
    intro i kc h0 h1 h2
    rw [power.recalc_k_cum_checked, read_pred_of_lt kc i h0 (by omega), read_of_lt k i (by omega)]
    dsimp only
    rw [write_of_lt kc i _ (by omega)]
    dsimp only
    rw [ih (i + 1) _ (by omega) (by rw [List.length_set]; omega) (by omega), power.recalc_k_cum]

/-- The accesses of lines 534-536 are within bounds when `upper_limit` has an entry
for every index treated and `k_cum` for the index before it. -/
theorem recalc_upper_limit_checked_eq (n : ℤ) (kc : List ℤ) :
    ∀ (cnt i : ℕ) (ul : List ℤ), 1 ≤ i → i + cnt ≤ ul.length → i + cnt ≤ kc.length + 1 →
      power.recalc_upper_limit_checked n kc i cnt ul
        = some (power.recalc_upper_limit n kc i cnt ul) := by
  intro cnt
  induction cnt with
  | zero => intro i ul _ _ _; rfl
  | succ cnt ih =>
    intro i ul h0 h1 h2
    rw [power.recalc_upper_limit_checked, read_pred_of_lt kc i h0 (by omega)]
    dsimp only
    rw [write_of_lt ul i _ (by omega)]
    dsimp only
    rw [ih (i + 1) _ (by omega) (by rw [List.length_set]; omega) (by omega),
      power.recalc_upper_limit]

/-- The accesses of lines 525-529 are within bounds when `k` and `k_cum` have an
entry for the index `l`. -/
theorem set_k_cum_checked_eq (k kc : List ℤ) (l : ℕ) (h1 : l < k.length) (h2 : l < kc.length) :
    power.set_k_cum_checked k kc l
      = some (if l = 0 then kc.set 0 (k.getD 0 0)
          else kc.set l (kc.getD (l - 1) 0 + k.getD l 0)) := by
  unfold power.set_k_cum_checked
  by_cases hl : l = 0
  · subst hl
    rw [if_pos rfl, if_pos rfl]
    have h3 : power.read k 0 = some (k.getD 0 0) := read_of_lt k 0 h1
    rw [h3]
    exact write_of_lt kc 0 _ h2
  · rw [if_neg hl, if_neg hl, read_pred_of_lt kc l (by omega) (by omega), read_of_lt k l h1]
    exact write_of_lt kc l _ h2

/-- The accesses of lines 517-536 are within bounds when the three vectors have
`m - 1` entries. -/
theorem counters_next_checked_eq (n : ℤ) (d : ℕ) (c : power.counters) (hk : c.k.length = d)
    (hkc : c.k_cum.length = d) (hul : c.upper_limit.length = d) :
    power.counters_next_checked n (d + 1) c = some (power.counters_next n (d + 1) c) := by
  unfold power.counters_next_checked power.counters_next
  rw [Nat.add_sub_cancel, increment_k_checked_eq c.upper_limit d c.k (by omega) (by omega)]
  obtain ⟨hlen, hl⟩ := increment_k_length c.upper_limit d c.k
  generalize power.increment_k c.upper_limit d c.k = r at hlen hl
  obtain ⟨k, ol⟩ := r
  cases ol with
  | none => rfl
  | some l =>
    have hld : l < d := hl l rfl
    have hklen : k.length = d := by rw [← hk]; exact hlen
    dsimp only
    rw [set_k_cum_checked_eq k c.k_cum l (by omega) (by omega)]
    dsimp only
    have hlen0 : (if l = 0 then c.k_cum.set 0 (k.getD 0 0)
        else c.k_cum.set l (c.k_cum.getD (l - 1) 0 + k.getD l 0)).length = d := by
      split_ifs <;> rw [List.length_set] <;> exact hkc
    rw [recalc_k_cum_checked_eq k (d - (l + 1)) (l + 1) _ (by omega) (by omega) (by omega)]
    dsimp only
    have hlen1 := (recalc_k_cum_spec k (l + 1) (d - (l + 1))
      (if l = 0 then c.k_cum.set 0 (k.getD 0 0)
        else c.k_cum.set l (c.k_cum.getD (l - 1) 0 + k.getD l 0)) (by omega) (by omega)).1
    rw [recalc_upper_limit_checked_eq n _ (d - (l + 1)) (l + 1) c.upper_limit (by omega)
      (by omega) (by omega)]

/-- The sum of the first entries of a vector of non-negative integers lies between
0 and the sum of all entries. -/
theorem take_sum_bounds (v : List ℤ) (h : ∀ x ∈ v, 0 ≤ x) (i : ℕ) :
    0 ≤ (v.take i).sum ∧ (v.take i).sum ≤ v.sum := by
  have h1 : 0 ≤ (v.take i).sum :=
    List.sum_nonneg (fun x hx => h x (List.mem_of_mem_take hx))
  have h2 : 0 ≤ (v.drop i).sum :=
    List.sum_nonneg (fun x hx => h x (List.mem_of_mem_drop hx))
  have h3 : (v.take i).sum + (v.drop i).sum = v.sum := by
    rw [← List.sum_append, List.take_append_drop]
  exact ⟨h1, by omega⟩

/-- On vectors that satisfy the relations of the loop, every entry of `k`, of
`k_cum` and of `upper_limit` lies between 0 and `n`. -/
theorem counters_inv_entries (n : ℤ) (d : ℕ) (hd : 1 ≤ d) (c : power.counters)
    (hinv : power.counters_inv n d c) :
    ∀ i, i < d →
      (0 ≤ c.k.getD i 0 ∧ c.k.getD i 0 ≤ n) ∧
      (0 ≤ c.k_cum.getD i 0 ∧ c.k_cum.getD i 0 ≤ n) ∧
      (0 ≤ c.upper_limit.getD i 0 ∧ c.upper_limit.getD i 0 ≤ n) := by
  intro i hi
  obtain ⟨hpos, hsum⟩ := counters_inv_k_bounds n d hd c hinv
  have hkc := counters_inv_k_cum n d c hinv i hi
  have hul := counters_inv_upper_limit n d c hinv i hi
  have hk := hinv.2.2.2.1 i hi
  obtain ⟨t1, t2⟩ := take_sum_bounds c.k hpos (i + 1)
  obtain ⟨t3, t4⟩ := take_sum_bounds c.k hpos i
  refine ⟨⟨hk.1, by omega⟩, ⟨by omega, by omega⟩, ⟨by omega, by omega⟩⟩

/-- C37: for every sum `a`, every `m >= 2` and every integer `n >= 0`, the loop of
`power::expand_add` reaches its `break`, after `C(n+m-1, m-1)` passes, and for
`n` other than 2 and `m = a.nops()` the function returns; in every pass each
access to `k`, `k_cum`, `upper_limit` (which have `m - 1` entries) and to the
operands `a.op(l)` is within bounds, the checked pass being the pass; the
exponent `n - k_cum[m-2]` of the last operand is not negative, and every entry
of the three vectors lies between 0 and `n`.  For `m = 1` the access
`k_cum[m-2]` is out of bounds. -/
theorem expand_add_accesses_within_bounds {F : Type} (T : tower F) (E : env F)
    (a : expairseq F) (n : ℤ) (m : ℕ) (hn : 0 ≤ n) (hm : 2 ≤ m) (fuel : ℕ)
    (hfuel : Nat.choose (n.toNat + m - 1) (m - 1) ≤ fuel) :
    (∃ sum, power.expand_add_loop T E a n m fuel (power.counters_init m n) [] = some sum ∧
      sum.length = Nat.choose (n.toNat + m - 1) (m - 1)) ∧
    (n ≠ 2 → a.add_nops T = m → ∃ r, power.expand_add T E a n fuel = some r) ∧
    (∀ c ∈ power.counters_trace n m fuel (power.counters_init m n),
      power.expand_add_term_checked T E a n m c = some (power.expand_add_term T E a n m c) ∧
      power.counters_next_checked n m c = some (power.counters_next n m c) ∧
      (c.k.length = m - 1 ∧ c.k_cum.length = m - 1 ∧ c.upper_limit.length = m - 1) ∧
      0 ≤ n - c.k_cum.getD (m - 2) 0 ∧
      ∀ i, i < m - 1 →
        (0 ≤ c.k.getD i 0 ∧ c.k.getD i 0 ≤ n) ∧
        (0 ≤ c.k_cum.getD i 0 ∧ c.k_cum.getD i 0 ≤ n) ∧
        (0 ≤ c.upper_limit.getD i 0 ∧ c.upper_limit.getD i 0 ≤ n)) ∧
    (∀ (n1 : ℤ) (c : power.counters), power.expand_add_term_checked T E a n1 1 c = none) := by
  obtain ⟨d, rfl⟩ : ∃ d, m = d + 1 := ⟨m - 1, by omega⟩
  have hd : 1 ≤ d := by omega
  have hfuel1 : Nat.choose (n.toNat + d) d ≤ fuel := by
    have : n.toNat + (d + 1) - 1 = n.toNat + d := by omega
    rw [this, Nat.add_sub_cancel] at hfuel
    exact hfuel
  have hinv0 := counters_init_inv n d hn
  have hrank0 := counters_init_rank n d
  have hlt : power.counters_rank d (power.counters_init (d + 1) n) < fuel := by omega
  obtain ⟨sum, hsum, hlen⟩ := expand_add_loop_length T E a n d fuel
    (power.counters_init (d + 1) n) [] hinv0 hlt
  refine ⟨⟨sum, hsum, ?_⟩, ?_, ?_, ?_⟩
  · have : n.toNat + (d + 1) - 1 = n.toNat + d := by omega
    rw [hlen, this, Nat.add_sub_cancel, ← hrank0]
    simp
  · intro hn2 hnops
    refine ⟨(E.add_exvector sum).to_add false, ?_⟩
    unfold power.expand_add power.expand_add_sum
    rw [if_neg hn2, hnops, hsum]
    rfl
  · intro c hc
    have hinv := (counters_trace_inv n d fuel _ hinv0 c hc).1
    have hentries := counters_inv_entries n d hd c hinv
    obtain ⟨hk, hkc, hul, -⟩ := hinv
    refine ⟨expand_add_term_checked_eq T E a n d hd c hk hkc,
      counters_next_checked_eq n d c hk hkc hul, ⟨hk, hkc, hul⟩, ?_, hentries⟩
    have h2 : d + 1 - 2 = d - 1 := by omega
    rw [h2]
    have := (hentries (d - 1) (by omega)).2.1.2
    omega
  · intro n1 c
    unfold power.expand_add_term_checked
    have h1 : power.read c.k_cum (((1 : ℕ) : ℤ) - 2) = none := read_of_neg _ _ (by norm_num)
    rw [h1]
    split
    · rename_i h _ _ _ _ _ heq _
      cases heq
    · rfl

/-- C37, for a sum of three symbols and `n = 3`: with 10 passes allowed the loop
reaches its `break` after `C(5, 2)` passes; and with one operand the checked
pass fails at once. -/
theorem expand_add_accesses_within_bounds_witness :
    (∃ sum, power.expand_add_loop surd_tower (plain_env surd surd_tower)
        ⟨[⟨ex.symbol 7, exONE⟩, ⟨ex.symbol 8, exONE⟩, ⟨ex.symbol 9, exONE⟩], exZERO⟩ 3 3 10
        (power.counters_init 3 3) [] = some sum ∧
      sum.length = Nat.choose ((3 : ℤ).toNat + 3 - 1) (3 - 1)) ∧
    power.expand_add_term_checked surd_tower (plain_env surd surd_tower)
        ⟨[⟨ex.symbol 7, exONE⟩], exZERO⟩ 3 1 (power.counters_init 1 3) = none :=
  ⟨(expand_add_accesses_within_bounds surd_tower (plain_env surd surd_tower)
      ⟨[⟨ex.symbol 7, exONE⟩, ⟨ex.symbol 8, exONE⟩, ⟨ex.symbol 9, exONE⟩], exZERO⟩ 3 3
      (by norm_num) (by norm_num) 10 (by decide)).1,
   rfl⟩

end GiNaC
